import Mathlib

/-!
Verification of the planning engine of the Autonomous Path Planning Visualizer.

The engine (Dijkstra, A*, grid-based RRT*) is shallowly embedded below.
JS numbers are modelled as exact rationals where the computations stay
rational (grid weights, Dijkstra distances) and as real numbers where the
source uses `Math.hypot`/`Math.sqrt` (the A* Euclidean heuristic and all
RRT* geometry).  JS objects keyed by "r,c" strings are modelled as
association lists keyed by the coordinate pair (the string key is a
bijective encoding of the pair).  The JS `while` loops are modelled with an
explicit fuel parameter; lemmas below identify the fuel that makes the
model agree with the (terminating) source loops.
-/

namespace PathPlan

/-- A grid coordinate: the `{r, c}` records of the source, row then column. -/
abbrev Coord := ℤ × ℤ

/-- A grid cell: `{wall, weight}`.  The source reads `weight ?? 1`; every
cell object the UI builds carries a numeric `weight`, so the field is total
here. -/
structure Cell where
  wall : Bool
  weight : ℚ
deriving DecidableEq, Repr

/-- The grid: a rows × cols nested array of cells. -/
abbrev Grid := List (List Cell)

/-- `DIRS4` of the source. -/
def DIRS4 : List (ℤ × ℤ) := [(1, 0), (-1, 0), (0, 1), (0, -1)]

/-- `DIRS8` of the source: `DIRS4` plus the four diagonal steps. -/
def DIRS8 : List (ℤ × ℤ) := DIRS4 ++ [(1, 1), (1, -1), (-1, 1), (-1, -1)]

/-- `manhattan` of the source: `|a.r - b.r| + |a.c - b.c|`. -/
def manhattan (a b : Coord) : ℚ := (((a.1 - b.1).natAbs + (a.2 - b.2).natAbs : ℕ) : ℚ)

/-- `euclid` of the source: `Math.hypot(a.r - b.r, a.c - b.c)`. -/
noncomputable def euclid (a b : Coord) : ℝ :=
  Real.sqrt ((((a.1 - b.1) ^ 2 + (a.2 - b.2) ^ 2 : ℤ) : ℝ))

/-- `grid.length` of the source. -/
def gridRows (g : Grid) : ℕ := g.length

/-- `grid[0].length` of the source.  (On an empty grid the source throws a
TypeError; the model returns 0 and the theorems below avoid that case or
state it explicitly.) -/
def gridCols (g : Grid) : ℕ := (g.getD 0 []).length

/-- `inBounds` of the source. -/
def inBounds (r c : ℤ) (rows cols : ℕ) : Prop :=
  0 ≤ r ∧ r < (rows : ℤ) ∧ 0 ≤ c ∧ c < (cols : ℤ)

instance (r c : ℤ) (rows cols : ℕ) : Decidable (inBounds r c rows cols) := by
  unfold inBounds; infer_instance

/-- `neighbors` of the source: the in-bounds cells one `DIRS4`/`DIRS8` step
away, in source order. -/
def neighbors (r c : ℤ) (rows cols : ℕ) (diag : Bool) : List Coord :=
  (if diag then DIRS8 else DIRS4).filterMap fun d =>
    let nr := r + d.1
    let nc := c + d.2
    if inBounds nr nc rows cols then some (nr, nc) else none

/-- Cell access `grid[p.r][p.c]`; only evaluated at in-bounds coordinates
in the source, so the default cell is never exercised there. -/
def cellAt (g : Grid) (p : Coord) : Cell := (g.getD p.1.toNat []).getD p.2.toNat ⟨false, 1⟩

/-! ### Association-list dictionaries (JS objects keyed by `key(r, c)`) -/

/-- Lookup; the most recent binding of a key wins (JS assignment overwrites). -/
def dget {α : Type} : List (Coord × α) → Coord → Option α
  | [], _ => none
  | (k, v) :: t, q => if q = k then some v else dget t q

/-- Insert/overwrite a binding. -/
def dset {α : Type} (m : List (Coord × α)) (k : Coord) (v : α) : List (Coord × α) :=
  (k, v) :: m

/-! ### The `MinHeap` class of the source

A binary min-heap on an array, generic in the priority type (the source
compares `.prio` fields with `<=` and `<`).  The sift loops are modelled
with structural fuel; `i + 1` steps suffice for the up-sift (the index
strictly decreases) and `length` steps for the down-sift. -/

/-- A heap entry `{prio, node}`. -/
structure HEntry (α β : Type) where
  prio : α
  node : β
deriving DecidableEq, Repr

/-- `a[i].prio < a[j].prio`, false when either index is out of range
(the source guards indices before comparing). -/
def prioLtAt {α β : Type} [LinearOrder α] (a : List (HEntry α β)) (i j : ℕ) : Prop :=
  match a[i]?, a[j]? with
  | some x, some y => x.prio < y.prio
  | _, _ => False

instance {α β : Type} [LinearOrder α] (a : List (HEntry α β)) (i j : ℕ) :
    Decidable (prioLtAt a i j) :=
  match hi : a[i]?, hj : a[j]? with
  | some x, some y =>
    decidable_of_iff (x.prio < y.prio) (by unfold prioLtAt; rw [hi, hj])
  | none, some y => isFalse (by unfold prioLtAt; rw [hi, hj]; exact id)
  | some x, none => isFalse (by unfold prioLtAt; rw [hi, hj]; exact id)
  | none, none => isFalse (by unfold prioLtAt; rw [hi, hj]; exact id)

/-- Swap two (valid) indices of the array. -/
def heapSwap {α β : Type} (a : List (HEntry α β)) (i j : ℕ) : List (HEntry α β) :=
  match a[i]?, a[j]? with
  | some x, some y => (a.set i y).set j x
  | _, _ => a

/-- The private `#up(i)` sift of the source. -/
def siftUp {α β : Type} [LinearOrder α] : ℕ → List (HEntry α β) → ℕ → List (HEntry α β)
  | 0, a, _ => a
  | fuel + 1, a, i =>
    if i = 0 then a
    else
      let p := (i - 1) / 2
      if prioLtAt a i p then siftUp fuel (heapSwap a p i) p else a

/-- The private `#down(i)` sift of the source. -/
def siftDown {α β : Type} [LinearOrder α] : ℕ → List (HEntry α β) → ℕ → List (HEntry α β)
  | 0, a, _ => a
  | fuel + 1, a, i =>
    let l := 2 * i + 1
    let r := l + 1
    let m₁ := if prioLtAt a l i then l else i
    let m₂ := if prioLtAt a r m₁ then r else m₁
    if m₂ = i then a else siftDown fuel (heapSwap a i m₂) m₂

/-- `push(x)` of the source. -/
def heapPush {α β : Type} [LinearOrder α] (a : List (HEntry α β)) (x : HEntry α β) :
    List (HEntry α β) :=
  siftUp (a.length + 1) (a ++ [x]) a.length

/-- `pop()` of the source: return the root, move the last element to the
root and sift it down (when any elements remain). -/
def heapPop {α β : Type} [LinearOrder α] (a : List (HEntry α β)) :
    Option (HEntry α β) × List (HEntry α β) :=
  match a with
  | [] => (none, [])
  | [top] => (some top, [])
  | top :: r₀ :: rs =>
    let last := (r₀ :: rs).getLastD top
    let a₁ := (top :: r₀ :: rs).dropLast
    (some top, siftDown a₁.length (a₁.set 0 last) 0)

/-! ### `PlanningResult` -/

/-- The `{visited, path}` result record. -/
structure PlanningResult where
  visited : List Coord
  path : List Coord
deriving DecidableEq, Repr

/-- `reconstruct`: the body of the `while (cur)` walk, with fuel.  Each
step appends the current key and follows its `cameFrom` pointer; the walk
stops when the pointer is absent.  A fuel of one more than the number of
bindings always suffices (the chain never repeats a key in reachable
states). -/
def reconWalk (came : List (Coord × Coord)) : ℕ → Coord → List Coord → List Coord
  | 0, _, acc => acc
  | fuel + 1, cur, acc =>
    let acc₁ := acc ++ [cur]
    match dget came cur with
    | none => acc₁
    | some prev => reconWalk came fuel prev acc₁

/-- `reconstruct(cameFrom, gkey)` of the source. -/
def reconstruct (came : List (Coord × Coord)) (gkey : Coord) : List Coord :=
  match dget came gkey with
  | none => []
  | some _ => (reconWalk came (came.length + 1) gkey []).reverse

/-! ### `runDijkstra` -/

/-- The mutable locals of `runDijkstra`: the queue, the `dist` and `came`
maps, the visited order, and whether the goal `break` has fired. -/
structure DState where
  heap : List (HEntry ℚ Coord)
  dist : List (Coord × ℚ)
  came : List (Coord × Coord)
  visited : List Coord
  done : Bool
deriving Repr

/-- One iteration of the `while (pq.size)` loop of `runDijkstra`.
Note `alt = dist[cur.node] + w` uses `cur.prio`: the stale check just
established `dist[cur.node] = cur.prio`, and no neighbor of a cell is the
cell itself, so `dist[cur.node]` cannot change during the neighbor loop. -/
def dijkstraStep (g : Grid) (goal : Coord) (diag : Bool) (st : DState) : DState :=
  match heapPop st.heap with
  | (none, h) => { st with heap := h }
  | (some cur, h) =>
    if dget st.dist cur.node ≠ some cur.prio then { st with heap := h }
    else
      let visited₁ := st.visited ++ [cur.node]
      if cur.node = goal then { st with heap := h, visited := visited₁, done := true }
      else
        (neighbors cur.node.1 cur.node.2 (gridRows g) (gridCols g) diag).foldl
          (fun acc nb =>
            if (cellAt g nb).wall then acc
            else
              let w := (cellAt g nb).weight
              let alt := cur.prio + w
              let improve : DState :=
                { acc with
                  dist := dset acc.dist nb alt
                  came := dset acc.came nb cur.node
                  heap := heapPush acc.heap ⟨alt, nb⟩ }
              match dget acc.dist nb with
              | some dnb => if alt < dnb then improve else acc
              | none => improve)
          { st with heap := h, visited := visited₁ }

/-- The `while (pq.size)` loop of `runDijkstra`, with fuel; `done` models
the `break` on popping the goal. -/
def dijkstraLoop (g : Grid) (goal : Coord) (diag : Bool) : ℕ → DState → DState
  | 0, st => st
  | fuel + 1, st =>
    if st.done then st
    else if st.heap = [] then st
    else dijkstraLoop g goal diag fuel (dijkstraStep g goal diag st)

/-- The initial state of `runDijkstra`: `dist[sKey] = 0` and one queue
entry `{prio: 0, node: sKey}`. -/
def dijkstraInit (start : Coord) : DState :=
  { heap := [⟨0, start⟩], dist := [(start, 0)], came := [], visited := [], done := false }

/-- `runDijkstra(grid, start, goal, diag)` of the source, with loop fuel. -/
def runDijkstra (fuel : ℕ) (g : Grid) (start goal : Coord) (diag : Bool) : PlanningResult :=
  let st := dijkstraLoop g goal diag fuel (dijkstraInit start)
  ⟨st.visited, reconstruct st.came goal⟩

/-! ### `runAStar`

`runAStar` is the A* search of the source; its body differs from
`runDijkstra` only in keeping a second map `f` of heuristic-augmented
priorities.  The step, loop and initial state are stated generically in
the priority field `α` and the heuristic-to-goal `h` (the source fixes
`α` to JS numbers and `h` to `(diag ? euclid : manhattan)(·, goal)`);
the Dijkstra relationship lemmas instantiate the same generic search at
`h = 0`. -/

/-- The mutable locals of `runAStar`: queue, `g`, `f` and `came` maps,
visited order, and the goal `break` flag. -/
structure AState (α : Type) where
  heap : List (HEntry α Coord)
  gmap : List (Coord × α)
  fmap : List (Coord × α)
  came : List (Coord × Coord)
  visited : List Coord
  done : Bool

/-- One iteration of the `while (pq.size)` loop of `runAStar`, generic in
the priority field and the heuristic.  `g[cur.node]` is always defined
when the stale check passes (the two maps share their keys); the model
reads it with a default of 0 that is never exercised. -/
def astarStep {α : Type} [LinearOrderedField α] (g : Grid) (goal : Coord) (diag : Bool)
    (h : Coord → α) (st : AState α) : AState α :=
  match heapPop st.heap with
  | (none, hp) => { st with heap := hp }
  | (some cur, hp) =>
    if dget st.fmap cur.node ≠ some cur.prio then { st with heap := hp }
    else
      let visited₁ := st.visited ++ [cur.node]
      if cur.node = goal then { st with heap := hp, visited := visited₁, done := true }
      else
        let gcur := (dget st.gmap cur.node).getD 0
        (neighbors cur.node.1 cur.node.2 (gridRows g) (gridCols g) diag).foldl
          (fun acc nb =>
            if (cellAt g nb).wall then acc
            else
              let w := (cellAt g nb).weight
              let tentative := gcur + (w : α)
              let improve : AState α :=
                { acc with
                  gmap := dset acc.gmap nb tentative
                  fmap := dset acc.fmap nb (tentative + h nb)
                  came := dset acc.came nb cur.node
                  heap := heapPush acc.heap ⟨tentative + h nb, nb⟩ }
              match dget acc.gmap nb with
              | some gnb => if tentative < gnb then improve else acc
              | none => improve)
          { st with heap := hp, visited := visited₁ }

/-- The `while (pq.size)` loop of `runAStar`, with fuel. -/
def astarLoop {α : Type} [LinearOrderedField α] (g : Grid) (goal : Coord) (diag : Bool)
    (h : Coord → α) : ℕ → AState α → AState α
  | 0, st => st
  | fuel + 1, st =>
    if st.done then st
    else if st.heap = [] then st
    else astarLoop g goal diag h fuel (astarStep g goal diag h st)

/-- The initial state of `runAStar`: `g[sKey] = 0`, `f[sKey] = h(start)`,
one queue entry at priority `f[sKey]`. -/
def astarInit {α : Type} [LinearOrderedField α] (h : Coord → α) (start : Coord) : AState α :=
  { heap := [⟨h start, start⟩], gmap := [(start, 0)], fmap := [(start, h start)],
    came := [], visited := [], done := false }

/-- The generic A*-shaped search assembled from loop and reconstruction. -/
def astarRun {α : Type} [LinearOrderedField α] (fuel : ℕ) (g : Grid) (start goal : Coord)
    (diag : Bool) (h : Coord → α) : PlanningResult :=
  let st := astarLoop g goal diag h fuel (astarInit h start)
  ⟨st.visited, reconstruct st.came goal⟩

/-- The heuristic of `runAStar`: `(diag ? euclid : manhattan)(·, goal)`. -/
noncomputable def astarHeur (diag : Bool) (goal : Coord) : Coord → ℝ :=
  fun p => if diag then euclid p goal else ((manhattan p goal : ℚ) : ℝ)

/-- `runAStar(grid, start, goal, diag)` of the source, with loop fuel:
the generic search at real-valued priorities and the source heuristic. -/
noncomputable def runAStar (fuel : ℕ) (g : Grid) (start goal : Coord) (diag : Bool) :
    PlanningResult :=
  astarRun fuel g start goal diag (astarHeur diag goal)

/-! ### `runRRTStar`

All geometry (`Math.hypot`, `Math.round`) is over `ℝ`.  `Math.random()` is
modelled by an injected stream `σ : ℕ → ℚ` of draws together with a
counter of how many draws have been consumed; each iteration consumes one
draw for the goal-bias test and, when the test fails, two more for the
row/column sample, exactly as the source evaluates them. -/

/-- A tree node `{r, c, parent, cost}`; `parent = -1` marks the root. -/
structure TreeNode where
  r : ℤ
  c : ℤ
  parent : ℤ
  cost : ℝ

/-- The RRT* options with the source defaults `iterations 1500`,
`radius 4`, `step 2`, `goalBias 0.08`. -/
structure RRTOpts where
  iterations : ℕ
  radius : ℚ
  step : ℚ
  goalBias : ℚ

/-- The source's default options. -/
def defaultOpts : RRTOpts := ⟨1500, 4, 2, 8 / 100⟩

/-- The local `dist` of `runRRTStar`: `Math.hypot(a.r - b.r, a.c - b.c)`. -/
noncomputable def rdist (a b : Coord) : ℝ :=
  Real.sqrt ((((a.1 - b.1) ^ 2 + (a.2 - b.2) ^ 2 : ℤ) : ℝ))

/-- The local `isFree` of `runRRTStar`: in bounds and not a wall. -/
def isFree (g : Grid) (p : Coord) : Prop :=
  inBounds p.1 p.2 (gridRows g) (gridCols g) ∧ (cellAt g p).wall = false

instance (g : Grid) (p : Coord) : Decidable (isFree g p) := by
  unfold isFree; infer_instance

/-- The cells visited by the `lineFree` Bresenham walk, with fuel; the
walk appends the current cell, stops at the endpoint, and otherwise takes
the integer error-accumulation step of the source. -/
def lineWalkAux (x₁ y₁ dx dy sx sy : ℤ) : ℕ → ℤ → ℤ → ℤ → List Coord
  | 0, _, _, _ => []
  | fuel + 1, x₀, y₀, err =>
    (x₀, y₀) ::
      (if x₀ = x₁ ∧ y₀ = y₁ then []
       else
         let e₂ := err * 2
         let x₀n := if e₂ > -dy then x₀ + sx else x₀
         let err₁ := if e₂ > -dy then err - dy else err
         let y₀n := if e₂ < dx then y₀ + sy else y₀
         let err₂ := if e₂ < dx then err₁ + dx else err₁
         lineWalkAux x₁ y₁ dx dy sx sy fuel x₀n y₀n err₂)

/-- The cells visited by the `lineFree` walk from `a` to `b`.  A fuel of
`dx + dy + 1` always reaches the endpoint (the walk never oversteps;
proved below), matching the unbounded source loop. -/
def lineWalk (a b : Coord) : List Coord :=
  let dx : ℤ := (b.1 - a.1).natAbs
  let dy : ℤ := (b.2 - a.2).natAbs
  let sx : ℤ := if a.1 < b.1 then 1 else -1
  let sy : ℤ := if a.2 < b.2 then 1 else -1
  lineWalkAux b.1 b.2 dx dy sx sy (dx.toNat + dy.toNat + 1) a.1 a.2 (dx - dy)

/-- `lineFree(a, b)` of the source: the walk meets no occupied or
out-of-bounds cell (the source returns `false` at the first such cell,
which is equivalent in this pure model). -/
def lineFree (g : Grid) (a b : Coord) : Prop := ∀ p ∈ lineWalk a b, isFree g p

instance (g : Grid) (a b : Coord) : Decidable (lineFree g a b) := by
  unfold lineFree; infer_instance

/-- The scan of `nearest` after its first iteration: JS starts with
`bestD = Infinity`, so when the node list is nonempty (always the case:
the root is inserted up front) the first iteration unconditionally picks
index 0, and the remaining iterations replace the best on a strict
improvement. -/
noncomputable def nearestAux (pt : Coord) : List TreeNode → ℕ → ℕ → ℝ → ℕ
  | [], _, best, _ => best
  | nd :: t, i, best, bestD =>
    let d := rdist pt (nd.r, nd.c)
    if d < bestD then nearestAux pt t (i + 1) i d else nearestAux pt t (i + 1) best bestD

/-- `nearest(pt)` of the source: first index minimising `dist`. -/
noncomputable def nearest (nodes : List TreeNode) (pt : Coord) : ℕ :=
  match nodes with
  | [] => 0
  | nd :: t => nearestAux pt t 1 0 (rdist pt (nd.r, nd.c))

/-- `steer(from, to)` of the source; `Math.round(x)` is `round x = ⌊x + 1/2⌋`,
which matches JS rounding on every real including negative halves. -/
noncomputable def steer (stp : ℚ) (p q : Coord) : Coord :=
  let d := rdist p q
  if d ≤ (stp : ℝ) then q
  else
    let t := (stp : ℝ) / d
    (round ((p.1 : ℝ) + ((q.1 : ℝ) - (p.1 : ℝ)) * t),
     round ((p.2 : ℝ) + ((q.2 : ℝ) - (p.2 : ℝ)) * t))

/-- The mutable locals of `runRRTStar`: the node arena, the visited order,
`goalIndex` (`-1` until the goal is connected), and the count of random
draws consumed so far. -/
structure RState where
  nodes : List TreeNode
  visited : List Coord
  goalIndex : ℤ
  rnd : ℕ

/-- The body of the rewire loop for one index `j`: re-parent `nodes[j]`
to the new node when it is within `radius`, the segment from the new node
is collision-free, and routing through the new node is cheaper. -/
noncomputable def rewireOne (g : Grid) (radius : ℚ) (node : TreeNode) (newIndex : ℕ)
    (ns : List TreeNode) (j : ℕ) : List TreeNode :=
  match ns[j]? with
  | none => ns
  | some nbh =>
    if rdist (nbh.r, nbh.c) (node.r, node.c) ≤ (radius : ℝ) ∧
        lineFree g (node.r, node.c) (nbh.r, nbh.c) then
      let wj := (cellAt g (nbh.r, nbh.c)).weight
      let alt := node.cost + (wj : ℝ) * rdist (node.r, node.c) (nbh.r, nbh.c)
      if alt < nbh.cost then ns.set j ⟨nbh.r, nbh.c, (newIndex : ℤ), alt⟩ else ns
    else ns

/-- The rewire loop `for (j = 0; j < nodes.length - 1; j++)` (every node
except the just-appended one, whose index is `newIndex = length - 1`). -/
noncomputable def rewireAll (g : Grid) (radius : ℚ) (node : TreeNode) (newIndex : ℕ)
    (ns : List TreeNode) : List TreeNode :=
  (List.range (ns.length - 1)).foldl (rewireOne g radius node newIndex) ns

/-- One iteration of the sampling loop of `runRRTStar` (sample, nearest,
steer, collision checks, insert, rewire, goal connection). -/
noncomputable def rrtIter (g : Grid) (goal : Coord) (o : RRTOpts) (σ : ℕ → ℚ)
    (st : RState) : RState :=
  let u := σ st.rnd
  let sample : Coord :=
    if u < o.goalBias then goal
    else (⌊σ (st.rnd + 1) * (gridRows g : ℚ)⌋, ⌊σ (st.rnd + 2) * (gridCols g : ℚ)⌋)
  let rnd₁ := if u < o.goalBias then st.rnd + 1 else st.rnd + 3
  if ¬ isFree g sample then { st with rnd := rnd₁ }
  else
    let ni := nearest st.nodes sample
    let niNode := st.nodes.getD ni ⟨0, 0, -1, 0⟩
    let newPt := steer o.step (niNode.r, niNode.c) sample
    if ¬ isFree g newPt then { st with rnd := rnd₁ }
    else if ¬ lineFree g (niNode.r, niNode.c) newPt then { st with rnd := rnd₁ }
    else
      let w := (cellAt g newPt).weight
      let newCost := niNode.cost + (w : ℝ) * rdist (niNode.r, niNode.c) newPt
      let node : TreeNode := ⟨newPt.1, newPt.2, (ni : ℤ), newCost⟩
      let nodes₁ := st.nodes ++ [node]
      let newIndex := nodes₁.length - 1
      let visited₁ := st.visited ++ [newPt]
      let nodes₂ := rewireAll g o.radius node newIndex nodes₁
      if rdist (node.r, node.c) goal ≤ (o.step : ℝ) ∧ lineFree g (node.r, node.c) goal then
        { nodes := nodes₂ ++ [⟨goal.1, goal.2, (newIndex : ℤ), node.cost⟩],
          visited := visited₁, goalIndex := (nodes₂.length : ℤ), rnd := rnd₁ }
      else
        { nodes := nodes₂, visited := visited₁, goalIndex := st.goalIndex, rnd := rnd₁ }

/-- The `for (it = 0; it < iterations; it++)` loop; the `break` after a
goal connection is modelled by stopping as soon as `goalIndex ≠ -1`. -/
noncomputable def rrtLoop (g : Grid) (goal : Coord) (o : RRTOpts) (σ : ℕ → ℚ) :
    ℕ → RState → RState
  | 0, st => st
  | n + 1, st =>
    if st.goalIndex ≠ -1 then st else rrtLoop g goal o σ n (rrtIter g goal o σ st)

/-- The `while (cur !== -1)` parent walk of the final path construction,
with fuel; an out-of-range index stops the walk (never reached: parent
indices are always valid). -/
def parentWalk (ns : List TreeNode) : ℕ → ℤ → List Coord → List Coord
  | 0, _, acc => acc
  | fuel + 1, cur, acc =>
    if cur = -1 then acc
    else
      match ns[cur.toNat]? with
      | none => acc
      | some nd => parentWalk ns fuel nd.parent (acc ++ [(nd.r, nd.c)])

/-- The initial RRT* state: the root node at the start with no parent and
cost 0, and the start as the first visited cell. -/
def rrtInit (start : Coord) : RState :=
  ⟨[⟨start.1, start.2, -1, 0⟩], [start], -1, 0⟩

/-- `runRRTStar(grid, start, goal, opts)` of the source with the random
stream made explicit.  The parent walk is fuelled by the node count, which
the acyclicity theorem below shows is enough to reach the root, matching
the unbounded source loop. -/
noncomputable def runRRTStar (g : Grid) (start goal : Coord) (o : RRTOpts) (σ : ℕ → ℚ) :
    PlanningResult :=
  let st := rrtLoop g goal o σ o.iterations (rrtInit start)
  let path :=
    if st.goalIndex ≠ -1 then (parentWalk st.nodes st.nodes.length st.goalIndex []).reverse
    else []
  ⟨st.visited, path⟩

/-! ### The algorithm dispatcher (`runOnce`) -/

/-- The `Algorithms` selector of the source. -/
inductive Algo
  | astar
  | dijkstra
  | rrtstar
deriving DecidableEq

/-- The dispatch of `runOnce`/`animate`: Dijkstra and A* receive the grid,
endpoints and connectivity; only RRT* receives the random stream. -/
noncomputable def plan (algo : Algo) (fuel : ℕ) (g : Grid) (s t : Coord) (diag : Bool)
    (o : RRTOpts) (σ : ℕ → ℚ) : PlanningResult :=
  match algo with
  | .dijkstra => runDijkstra fuel g s t diag
  | .rrtstar => runRRTStar g s t o σ
  | .astar => runAStar fuel g s t diag

/-! ### Spec-side notions used by the claims -/

/-- The total cost of a path: the sum of entered-cell weights (every cell
after the first). -/
def pathCost (g : Grid) (p : List Coord) : ℚ :=
  (p.tail.map fun c => (cellAt g c).weight).sum

/-- One step `a → b` is adjacent under the configured connectivity when
the offset is one of the direction vectors. -/
def adjacentStep (diag : Bool) (a b : Coord) : Prop :=
  (b.1 - a.1, b.2 - a.2) ∈ (if diag then DIRS8 else DIRS4)

instance (diag : Bool) (a b : Coord) : Decidable (adjacentStep diag a b) := by
  unfold adjacentStep; infer_instance

/-- Every element of the sequence is adjacent to its predecessor. -/
def AdjChain (diag : Bool) (p : List Coord) : Prop := List.Chain' (adjacentStep diag) p

/-- The accumulated cost-from-root of node `i` along its current parent
chain: the sum over each parent-to-child edge of the child's cell weight
times the Euclidean length of the edge (§4.5 step 5 of the spec), with
fuel bounding the chain length. -/
noncomputable def chainCost (g : Grid) (ns : List TreeNode) : ℕ → ℤ → ℝ
  | 0, _ => 0
  | fuel + 1, i =>
    match ns[i.toNat]? with
    | none => 0
    | some nd =>
      if nd.parent = -1 then 0
      else
        match ns[nd.parent.toNat]? with
        | none => 0
        | some pd =>
          chainCost g ns fuel nd.parent +
            ((cellAt g (nd.r, nd.c)).weight : ℝ) * rdist (pd.r, pd.c) (nd.r, nd.c)

/-! ### Concrete scenario fixtures

Small grids, option records and random streams driving the concrete run
evaluations of the counterexample theorems below. -/

/-- A free cell of weight 1. -/
def fcell : Cell := ⟨false, 1⟩

/-- A free cell of weight 20. -/
def wcell : Cell := ⟨false, 20⟩

/-- Scenario A: a 1×8 strip of free unit cells. -/
def gA : Grid := [[fcell, fcell, fcell, fcell, fcell, fcell, fcell, fcell]]

/-- Scenario A options: one iteration, radius 0, step 2, goal bias 1
(every draw samples the goal). -/
def oA : RRTOpts := ⟨1, 0, 2, 1⟩

/-- Scenario B: a 2×8 grid, free everywhere, with weight 20 at (0, 2). -/
def gB : Grid :=
  [[fcell, fcell, wcell, fcell, fcell, fcell, fcell, fcell],
   [fcell, fcell, fcell, fcell, fcell, fcell, fcell, fcell]]

/-- Scenario B options: three iterations, radius 1, step 2, goal bias 0. -/
def oB : RRTOpts := ⟨3, 1, 2, 0⟩

/-- The fixed random stream driving scenario B. -/
def σB : ℕ → ℚ := fun n => [0, 0, 1/4, 0, 1/2, 1/4, 0, 0, 1/8].getD n 0

/-! ### Spec-side predicates for the RRT* tree invariants -/

/-- Every cell weight (including the out-of-bounds default, which is 1)
is non-negative; every grid the application builds satisfies this, its
weights being 1 or a configured cost above 1. -/
def WeightsNonneg (g : Grid) : Prop := ∀ p : Coord, 0 ≤ (cellAt g p).weight

/-- The parent chain from index `i` reaches the root marker `-1` in
finitely many steps. -/
inductive Reaches (ns : List TreeNode) : ℤ → Prop
  | root : Reaches ns (-1)
  | step (i : ℤ) (nd : TreeNode) : ns[i.toNat]? = some nd → 0 ≤ i →
      Reaches ns nd.parent → Reaches ns i

/-- Index `j` lies on the parent chain of index `i` (inclusive). -/
inductive OnChain (ns : List TreeNode) (j : ℤ) : ℤ → Prop
  | here : OnChain ns j j
  | step (i : ℤ) (nd : TreeNode) : ns[i.toNat]? = some nd → 0 ≤ i →
      OnChain ns j nd.parent → OnChain ns j i

/-- Every non-root node has a valid parent index and a stored cost at
least its parent's stored cost. -/
def CostMono (ns : List TreeNode) : Prop :=
  ∀ i : ℕ, ∀ nd, ns[i]? = some nd → nd.parent ≠ -1 →
    0 ≤ nd.parent ∧ ∃ pd, ns[nd.parent.toNat]? = some pd ∧ pd.cost ≤ nd.cost

/-- The acyclicity-and-cost invariant of the RRT* node arena. -/
def TreeOk (ns : List TreeNode) : Prop :=
  CostMono ns ∧ ∀ i : ℕ, i < ns.length → Reaches ns (i : ℤ)

/-- Every tree node sits on a free cell, except possibly the root, which
is placed at the start without any check. -/
def NodesFree (g : Grid) (s : Coord) (ns : List TreeNode) : Prop :=
  ∀ nd ∈ ns, isFree g (nd.r, nd.c) ∨ (nd.r, nd.c) = s

/-! ## The search invariant

`SInv` collects the facts about the `came`, `g`, `f` maps, the queue and
the visited order that hold throughout the Dijkstra/A* loop, for any
priority field and any heuristic (pop order is irrelevant to them). -/

structure SInv {α : Type} [LinearOrderedField α] (g : Grid) (diag : Bool) (s : Coord)
    (st : AState α) : Prop where
  came_nb : ∀ k v, dget st.came k = some v →
    k ∈ neighbors v.1 v.2 (gridRows g) (gridCols g) diag
  came_nowall : ∀ k v, dget st.came k = some v → (cellAt g k).wall = false
  came_gkey : ∀ k v, dget st.came k = some v → (dget st.gmap k).isSome
  came_val_gkey : ∀ k v, dget st.came k = some v → (dget st.gmap v).isSome
  gkey_origin : ∀ k, (dget st.gmap k).isSome → k = s ∨ (dget st.came k).isSome
  fkey_gkey : ∀ k, (dget st.fmap k).isSome ↔ (dget st.gmap k).isSome
  fentry : ∀ k fv, dget st.fmap k = some fv →
    k ∈ st.visited ∨ (⟨fv, k⟩ : HEntry α Coord) ∈ st.heap

/-! ## `runDijkstra` is the generic search at zero heuristic

`runDijkstra` keeps one `dist` map where the generic search keeps `g` and
`f`; with `h = 0` the two maps coincide and the two loops are in lockstep. -/

/-- The state correspondence for the bisimulation. -/
def DARel (d : DState) (a : AState ℚ) : Prop :=
  a.heap = d.heap ∧ a.gmap = d.dist ∧ a.fmap = d.dist ∧ a.came = d.came ∧
    a.visited = d.visited ∧ a.done = d.done

/-! ## Heap order: the sift procedures maintain the min-heap shape, so a
pop returns a minimum-priority entry -/

/-- The binary min-heap shape: every child's priority is at least its
parent's. -/
def IsHeap {α β : Type} [LinearOrder α] (a : List (HEntry α β)) : Prop :=
  ∀ j : ℕ, 0 < j → ∀ x y, a[(j - 1) / 2]? = some x → a[j]? = some y → x.prio ≤ y.prio

/-- The sift-up invariant: the heap shape may fail only at `i` against
its parent, and `i`'s children already dominate `i`'s parent. -/
def UpInv {α β : Type} [LinearOrder α] (a : List (HEntry α β)) (i : ℕ) : Prop :=
  (∀ j : ℕ, 0 < j → j ≠ i → ∀ x y, a[(j - 1) / 2]? = some x → a[j]? = some y →
    x.prio ≤ y.prio) ∧
  (0 < i → ∀ c : ℕ, (c - 1) / 2 = i → 0 < c → ∀ x y, a[(i - 1) / 2]? = some x →
    a[c]? = some y → x.prio ≤ y.prio)

/-- The sift-down invariant: the heap shape may fail only below `i`, and
`i`'s parent already dominates `i`'s children. -/
def DownInv {α β : Type} [LinearOrder α] (a : List (HEntry α β)) (i : ℕ) : Prop :=
  (∀ j : ℕ, 0 < j → (j - 1) / 2 ≠ i → ∀ x y, a[(j - 1) / 2]? = some x → a[j]? = some y →
    x.prio ≤ y.prio) ∧
  (0 < i → ∀ c : ℕ, (c - 1) / 2 = i → 0 < c → ∀ x y, a[(i - 1) / 2]? = some x →
    a[c]? = some y → x.prio ≤ y.prio)

/-! ## Valid paths and the optimality of the two searches -/

/-- A path the searches compete against: it runs from `s` to `t`, each
step is adjacent under the configured connectivity, and every cell after
the first is in bounds and unoccupied (the searches only ever enter such
cells; the start itself is never checked). -/
def ValidPath (g : Grid) (diag : Bool) (s t : Coord) (p : List Coord) : Prop :=
  p.head? = some s ∧ p.getLast? = some t ∧ AdjChain diag p ∧
  ∀ c ∈ p.tail, inBounds c.1 c.2 (gridRows g) (gridCols g) ∧ (cellAt g c).wall = false

/-- The optimality invariant of the generic search, for a consistent
heuristic: cost-map achievability, optimality and relaxedness of visited
cells, and the heap floor under the visited priorities. -/
structure OInv {α : Type} [LinearOrderedField α] (g : Grid) (diag : Bool) (s t : Coord)
    (h : Coord → α) (st : AState α) : Prop where
  heapOk : IsHeap st.heap
  fg : ∀ k fk, dget st.fmap k = some fk → ∃ gk, dget st.gmap k = some gk ∧ fk = gk + h k
  gs : dget st.gmap s = some 0
  came_s : dget st.came s = none
  came_cost : ∀ k v, dget st.came k = some v → ∃ gk gv, dget st.gmap k = some gk ∧
    dget st.gmap v = some gv ∧ gv + ((cellAt g k).weight : α) ≤ gk
  gpos : ∀ k gk, dget st.gmap k = some gk → 0 ≤ gk
  ach : ∀ k gk, dget st.gmap k = some gk →
    ∃ p, ValidPath g diag s k p ∧ ((pathCost g p : ℚ) : α) = gk
  vopt : ∀ u ∈ st.visited, ∀ gu, dget st.gmap u = some gu →
    ∀ p, ValidPath g diag s u p → gu ≤ ((pathCost g p : ℚ) : α)
  vg : ∀ u ∈ st.visited, (dget st.gmap u).isSome
  vrelax : ∀ u ∈ st.visited, u ≠ t →
    ∀ v ∈ neighbors u.1 u.2 (gridRows g) (gridCols g) diag,
      (cellAt g v).wall = false → ∀ gu, dget st.gmap u = some gu →
        ∃ gv, dget st.gmap v = some gv ∧ gv ≤ gu + ((cellAt g v).weight : α)
  vmin : ∀ u ∈ st.visited, ∀ fu, dget st.fmap u = some fu → ∀ e ∈ st.heap, fu ≤ e.prio
  vis_goal : t ∈ st.visited → st.done = true
  done_vis : st.done = true → t ∈ st.visited

/-- One relaxation of the neighbour fold of `astarStep`, with the
expanded node's stored cost and key abstracted out (the fold body of the
source, verbatim). -/
def relaxStep {α : Type} [LinearOrderedField α] (g : Grid) (h : Coord → α)
    (gcur : α) (c0 : Coord) (acc : AState α) (nb : Coord) : AState α :=
  if (cellAt g nb).wall then acc
  else
    let w := (cellAt g nb).weight
    let tentative := gcur + (w : α)
    let improve : AState α :=
      { acc with
        gmap := dset acc.gmap nb tentative
        fmap := dset acc.fmap nb (tentative + h nb)
        came := dset acc.came nb c0
        heap := heapPush acc.heap ⟨tentative + h nb, nb⟩ }
    match dget acc.gmap nb with
    | some gnb => if tentative < gnb then improve else acc
    | none => improve

/-- The state of the relaxation fold inside one expansion of `cur`:
maps and heap keep the optimality bookkeeping, visited entries are
untouched, and every heap priority stays at or above the popped one. -/
structure FoldInv {α : Type} [LinearOrderedField α] (g : Grid) (diag : Bool)
    (s : Coord) (h : Coord → α) (st : AState α) (cur : HEntry α Coord)
    (acc : AState α) : Prop where
  vis : acc.visited = st.visited ++ [cur.node]
  dn : acc.done = st.done
  heapOk : IsHeap acc.heap
  fg : ∀ k fk, dget acc.fmap k = some fk → ∃ gk, dget acc.gmap k = some gk ∧ fk = gk + h k
  gf : ∀ k gk, dget acc.gmap k = some gk → dget acc.fmap k = some (gk + h k)
  gs : dget acc.gmap s = some 0
  came_s : dget acc.came s = none
  came_cost : ∀ k v, dget acc.came k = some v → ∃ gk gv, dget acc.gmap k = some gk ∧
    dget acc.gmap v = some gv ∧ gv + ((cellAt g k).weight : α) ≤ gk
  gpos : ∀ k gk, dget acc.gmap k = some gk → 0 ≤ gk
  ach : ∀ k gk, dget acc.gmap k = some gk →
    ∃ p, ValidPath g diag s k p ∧ ((pathCost g p : ℚ) : α) = gk
  vstable : ∀ u ∈ st.visited ++ [cur.node],
    dget acc.gmap u = dget st.gmap u ∧ dget acc.fmap u = dget st.fmap u
  entsup : ∀ e ∈ acc.heap, cur.prio ≤ e.prio

/-! ## Theorems -/

/-! ## Heap lemmas

Membership facts about `heapPush`/`heapPop`: pushing adds exactly the new
entry, popping removes (one copy of) the returned root.  These hold for
any sift behaviour because sifting only swaps elements. -/

theorem heapSwap_mem {α β : Type} {a : List (HEntry α β)} {i j : ℕ} {z : HEntry α β} :
    z ∈ heapSwap a i j ↔ z ∈ a := by
  unfold heapSwap
  rcases hi : a[i]? with _ | x
  · rfl
  rcases hj : a[j]? with _ | y
  · rfl
  obtain ⟨hil, hiv⟩ := List.getElem?_eq_some.mp hi
  obtain ⟨hjl, hjv⟩ := List.getElem?_eq_some.mp hj
  have hbj : ((a.set i y).set j x)[j]? = some x := by
    rw [List.getElem?_set, if_pos rfl, List.length_set, if_pos hjl]
  have hbi : i ≠ j → ((a.set i y).set j x)[i]? = some y := by
    intro hij
    rw [List.getElem?_set, if_neg (fun h => hij h.symm), List.getElem?_set, if_pos rfl,
      if_pos hil]
  have hbo : ∀ k, k ≠ i → k ≠ j → ((a.set i y).set j x)[k]? = a[k]? := by
    intro k hki hkj
    rw [List.getElem?_set, if_neg (fun h => hkj h.symm), List.getElem?_set,
      if_neg (fun h => hki h.symm)]
  simp only [List.mem_iff_getElem?]
  constructor
  · rintro ⟨k, hk⟩
    by_cases hkj : k = j
    · subst hkj
      rw [hbj] at hk
      cases hk
      exact ⟨i, hi⟩
    · by_cases hki : k = i
      · subst hki
        rw [hbi hkj] at hk
        cases hk
        exact ⟨j, hj⟩
      · exact ⟨k, (hbo k hki hkj).symm ▸ hk⟩
  · rintro ⟨k, hk⟩
    by_cases hki : k = i
    · subst hki
      rw [hi] at hk
      cases hk
      exact ⟨j, hbj⟩
    · by_cases hkj : k = j
      · subst hkj
        rw [hj] at hk
        cases hk
        exact ⟨i, hbi (fun h => hki h.symm)⟩
      · exact ⟨k, (hbo k hki hkj) ▸ hk⟩

theorem siftUp_mem {α β : Type} [LinearOrder α] {fuel : ℕ} {a : List (HEntry α β)} {i : ℕ}
    {z : HEntry α β} : z ∈ siftUp fuel a i ↔ z ∈ a := by
  induction fuel generalizing a i with
  | zero => rfl
  | succ fuel ih =>
    unfold siftUp
    by_cases h0 : i = 0
    · simp [h0]
    · simp only [h0, if_false]
      by_cases hlt : prioLtAt a i ((i - 1) / 2)
      · simp only [hlt, if_pos]
        rw [ih, heapSwap_mem]
      · simp [hlt]

theorem siftDown_mem {α β : Type} [LinearOrder α] {fuel : ℕ} {a : List (HEntry α β)} {i : ℕ}
    {z : HEntry α β} : z ∈ siftDown fuel a i ↔ z ∈ a := by
  induction fuel generalizing a i with
  | zero => rfl
  | succ fuel ih =>
    unfold siftDown
    simp only
    by_cases hm : (if prioLtAt a (2 * i + 1 + 1) (if prioLtAt a (2 * i + 1) i then 2 * i + 1 else i)
        then 2 * i + 1 + 1 else if prioLtAt a (2 * i + 1) i then 2 * i + 1 else i) = i
    · simp [hm]
    · simp only [hm, if_false]
      rw [ih, heapSwap_mem]

theorem heapPush_mem {α β : Type} [LinearOrder α] {a : List (HEntry α β)} {x z : HEntry α β} :
    z ∈ heapPush a x ↔ z ∈ a ∨ z = x := by
  unfold heapPush
  rw [siftUp_mem, List.mem_append, List.mem_singleton]

theorem heapPop_none {α β : Type} [LinearOrder α] {a : List (HEntry α β)}
    {r : List (HEntry α β)} (h : heapPop a = (none, r)) : a = [] ∧ r = [] := by
  match a with
  | [] => exact ⟨rfl, ((Prod.mk.injEq _ _ _ _).mp h).2.symm⟩
  | [top] => simp [heapPop] at h
  | top :: r₀ :: rs => simp [heapPop] at h

theorem heapPop_mem {α β : Type} [LinearOrder α] {a r : List (HEntry α β)} {t : HEntry α β}
    (h : heapPop a = (some t, r)) :
    t ∈ a ∧ (∀ z ∈ a, z = t ∨ z ∈ r) ∧ (∀ z ∈ r, z ∈ a) := by
  match a with
  | [] => simp [heapPop] at h
  | [top] =>
    simp only [heapPop, Prod.mk.injEq, Option.some.injEq] at h
    obtain ⟨rfl, rfl⟩ := h
    refine ⟨List.mem_singleton_self _, ?_, by simp⟩
    intro z hz
    exact Or.inl (List.mem_singleton.mp hz)
  | top :: r₀ :: rs =>
    have hne : (r₀ :: rs : List (HEntry α β)) ≠ [] := List.cons_ne_nil _ _
    have hlast : (r₀ :: rs).getLastD top = (r₀ :: rs).getLast hne := by
      rw [List.getLastD_eq_getLast?, List.getLast?_eq_getLast _ hne]
      rfl
    have hsplit : (r₀ :: rs) = (r₀ :: rs).dropLast ++ [(r₀ :: rs).getLast hne] :=
      (List.dropLast_append_getLast hne).symm
    have hd : (top :: r₀ :: rs).dropLast = top :: (r₀ :: rs).dropLast := by
      simp [List.dropLast_cons_of_ne_nil hne]
    simp only [heapPop, hd, Prod.mk.injEq, Option.some.injEq] at h
    obtain ⟨rfl, rfl⟩ := h
    constructor
    · exact List.mem_cons_self _ _
    constructor
    · intro z hz
      rcases List.mem_cons.mp hz with hz | hz
      · exact Or.inl hz
      · right
        rw [siftDown_mem]
        rw [hsplit] at hz
        rcases List.mem_append.mp hz with hz | hz
        · exact List.mem_cons_of_mem _ hz
        · have hz' : z = (r₀ :: rs).getLast hne := List.mem_singleton.mp hz
          rw [List.set_cons_zero]
          rw [hlast, ← hz'] at *
          exact List.mem_cons_self _ _
    · intro z hz
      rw [siftDown_mem, List.set_cons_zero] at hz
      rcases List.mem_cons.mp hz with hz' | hz' <;> right
      · rw [hlast] at hz'
        rw [hsplit]
        exact List.mem_append.mpr (Or.inr (by simp [hz']))
      · rw [hsplit]
        exact List.mem_append.mpr (Or.inl hz')

/-! ## Dictionary lemmas -/

theorem dget_dset {α : Type} (m : List (Coord × α)) (k : Coord) (v : α) (q : Coord) :
    dget (dset m k v) q = if q = k then some v else dget m q := rfl

theorem dget_dset_self {α : Type} (m : List (Coord × α)) (k : Coord) (v : α) :
    dget (dset m k v) k = some v := by
  rw [dget_dset, if_pos rfl]

theorem dget_dset_ne {α : Type} (m : List (Coord × α)) (k : Coord) (v : α) (q : Coord)
    (h : q ≠ k) : dget (dset m k v) q = dget m q := by
  rw [dget_dset, if_neg h]

/-- Invariant preservation along a fold. -/
theorem foldl_inv {γ δ : Type} (P : γ → Prop) (f : γ → δ → γ) (l : List δ) (init : γ)
    (h0 : P init) (hstep : ∀ acc x, x ∈ l → P acc → P (f acc x)) : P (l.foldl f init) := by
  induction l generalizing init with
  | nil => exact h0
  | cons x t ih =>
    exact ih (f init x) (hstep init x (List.mem_cons_self _ _) h0)
      fun acc y hy => hstep acc y (List.mem_cons_of_mem _ hy)

theorem sInv_init {α : Type} [LinearOrderedField α] (g : Grid) (diag : Bool) (s : Coord)
    (h : Coord → α) : SInv g diag s (astarInit h s) := by
  constructor <;> intro k
  · intro v hv
    simp [astarInit, dget] at hv
  · intro v hv
    simp [astarInit, dget] at hv
  · intro v hv
    simp [astarInit, dget] at hv
  · intro v hv
    simp [astarInit, dget] at hv
  · intro hk
    left
    simp only [astarInit, dget] at hk
    by_cases hks : k = s
    · exact hks
    · rw [if_neg hks] at hk
      simp at hk
  · constructor <;> intro hk <;> simp only [astarInit, dget] at hk ⊢ <;>
      by_cases hks : k = s <;> simp [hks] at hk ⊢
  · intro fv hfv
    right
    simp only [astarInit, dget] at hfv
    by_cases hks : k = s
    · subst hks
      rw [if_pos rfl] at hfv
      cases hfv
      simp [astarInit]
    · rw [if_neg hks] at hfv
      cases hfv

theorem sInv_step {α : Type} [LinearOrderedField α] {g : Grid} {goal : Coord} {diag : Bool}
    {h : Coord → α} {s : Coord} {st : AState α} (inv : SInv g diag s st) :
    SInv g diag s (astarStep g goal diag h st) := by
  unfold astarStep
  rcases hpop : heapPop st.heap with ⟨tops, rest⟩
  cases tops with
  | none =>
    obtain ⟨hemp, -⟩ := heapPop_none hpop
    dsimp only
    refine ⟨inv.came_nb, inv.came_nowall, inv.came_gkey, inv.came_val_gkey, inv.gkey_origin,
      inv.fkey_gkey, ?_⟩
    intro k fv hfv
    rcases inv.fentry k fv hfv with hk | hk
    · exact Or.inl hk
    · rw [hemp] at hk
      cases hk
  | some cur =>
    obtain ⟨htop, hsplit, hsub⟩ := heapPop_mem hpop
    dsimp only
    by_cases hstale : dget st.fmap cur.node ≠ some cur.prio
    · rw [if_pos hstale]
      refine ⟨inv.came_nb, inv.came_nowall, inv.came_gkey, inv.came_val_gkey, inv.gkey_origin,
        inv.fkey_gkey, ?_⟩
      intro k fv hfv
      rcases inv.fentry k fv hfv with hk | hk
      · exact Or.inl hk
      · rcases hsplit _ hk with hz | hz
        · exfalso
          have h1 : k = cur.node := congrArg HEntry.node hz
          have h2 : fv = cur.prio := congrArg HEntry.prio hz
          rw [h1, h2] at hfv
          exact hstale hfv
        · exact Or.inr hz
    · rw [if_neg hstale]
      have hvalid : dget st.fmap cur.node = some cur.prio := not_not.mp hstale
      have hfmem : ∀ k fv, dget st.fmap k = some fv → k ∈ st.visited ++ [cur.node] ∨
          (⟨fv, k⟩ : HEntry α Coord) ∈ rest := by
        intro k fv hfv
        rcases inv.fentry k fv hfv with hk | hk
        · exact Or.inl (List.mem_append.mpr (Or.inl hk))
        · rcases hsplit _ hk with hz | hz
          · left
            have h1 : k = cur.node := congrArg HEntry.node hz
            exact List.mem_append.mpr (Or.inr (by simp [h1]))
          · exact Or.inr hz
      by_cases hgoal : cur.node = goal
      · rw [if_pos hgoal]
        exact ⟨inv.came_nb, inv.came_nowall, inv.came_gkey, inv.came_val_gkey, inv.gkey_origin,
          inv.fkey_gkey, hfmem⟩
      · rw [if_neg hgoal]
        have hgsome : (dget st.gmap cur.node).isSome :=
          (inv.fkey_gkey cur.node).mp (by rw [hvalid]; rfl)
        refine (foldl_inv
          (fun acc => SInv g diag s acc ∧ (dget acc.gmap cur.node).isSome) _ _ _
          ?_ ?_).1
        · exact ⟨⟨inv.came_nb, inv.came_nowall, inv.came_gkey, inv.came_val_gkey,
            inv.gkey_origin, inv.fkey_gkey, hfmem⟩, hgsome⟩
        intro acc nb hnb hacc
        by_cases hwall : (cellAt g nb).wall = true
        · rw [if_pos hwall]
          exact hacc
        · rw [if_neg hwall]
          have hmono : ∀ q (v : α), (dget acc.gmap q).isSome →
              (dget (dset acc.gmap nb v) q).isSome := by
            intro q v hq
            by_cases hqn : q = nb
            · rw [hqn, dget_dset_self]
              rfl
            · rwa [dget_dset_ne _ _ _ _ hqn]
          have hrelax : SInv g diag s
              { acc with
                gmap := dset acc.gmap nb ((dget st.gmap cur.node).getD 0 + (cellAt g nb).weight)
                fmap := dset acc.fmap nb
                  ((dget st.gmap cur.node).getD 0 + (cellAt g nb).weight + h nb)
                came := dset acc.came nb cur.node
                heap := heapPush acc.heap
                  ⟨(dget st.gmap cur.node).getD 0 + (cellAt g nb).weight + h nb, nb⟩ } ∧
              (dget (dset acc.gmap nb
                ((dget st.gmap cur.node).getD 0 + (cellAt g nb).weight)) cur.node).isSome := by
            refine ⟨⟨?_, ?_, ?_, ?_, ?_, ?_, ?_⟩, hmono _ _ hacc.2⟩
            · intro k v hv
              by_cases hk : k = nb
              · rw [hk, dget_dset_self] at hv
                cases hv
                rw [hk]
                exact hnb
              · rw [dget_dset_ne _ _ _ _ hk] at hv
                exact hacc.1.came_nb k v hv
            · intro k v hv
              by_cases hk : k = nb
              · rw [hk]
                exact eq_false_of_ne_true hwall
              · rw [dget_dset_ne _ _ _ _ hk] at hv
                exact hacc.1.came_nowall k v hv
            · intro k v hv
              by_cases hk : k = nb
              · rw [hk, dget_dset_self]
                rfl
              · rw [dget_dset_ne _ _ _ _ hk] at hv
                rw [dget_dset_ne _ _ _ _ hk]
                exact hacc.1.came_gkey k v hv
            · intro k v hv
              by_cases hk : k = nb
              · rw [hk, dget_dset_self] at hv
                cases hv
                exact hmono _ _ hacc.2
              · rw [dget_dset_ne _ _ _ _ hk] at hv
                exact hmono _ _ (hacc.1.came_val_gkey k v hv)
            · intro k hk
              by_cases hkn : k = nb
              · right
                rw [hkn, dget_dset_self]
                rfl
              · rw [dget_dset_ne _ _ _ _ hkn] at hk
                rcases hacc.1.gkey_origin k hk with hs | hc
                · exact Or.inl hs
                · right
                  rwa [dget_dset_ne _ _ _ _ hkn]
            · intro k
              by_cases hkn : k = nb
              · rw [hkn, dget_dset_self, dget_dset_self]
                simp
              · rw [dget_dset_ne _ _ _ _ hkn, dget_dset_ne _ _ _ _ hkn]
                exact hacc.1.fkey_gkey k
            · intro k fv hfv
              by_cases hkn : k = nb
              · rw [hkn, dget_dset_self] at hfv
                cases hfv
                right
                rw [hkn]
                exact heapPush_mem.mpr (Or.inr rfl)
              · rw [dget_dset_ne _ _ _ _ hkn] at hfv
                rcases hacc.1.fentry k fv hfv with hk | hk
                · exact Or.inl hk
                · exact Or.inr (heapPush_mem.mpr (Or.inl hk))
          rcases hdg : dget acc.gmap nb with _ | gnb
          · dsimp only
            exact hrelax
          · dsimp only
            by_cases himp : (dget st.gmap cur.node).getD 0 + ((cellAt g nb).weight : α) < gnb
            · rw [if_pos himp]
              exact hrelax
            · rw [if_neg himp]
              exact hacc

theorem sInv_loop {α : Type} [LinearOrderedField α] {g : Grid} {goal : Coord} {diag : Bool}
    {h : Coord → α} {s : Coord} (fuel : ℕ) {st : AState α} (inv : SInv g diag s st) :
    SInv g diag s (astarLoop g goal diag h fuel st) := by
  induction fuel generalizing st with
  | zero => exact inv
  | succ fuel ih =>
    unfold astarLoop
    by_cases hd : st.done
    · simpa [hd] using inv
    · by_cases he : st.heap = []
      · simp only [hd, if_neg, if_false, he, if_pos]
        exact inv
      · simp only [hd, if_neg, if_false, he]
        exact ih (sInv_step inv)

/-! ## Visited order: append-only -/

theorem astarStep_visited {α : Type} [LinearOrderedField α] (g : Grid) (goal : Coord)
    (diag : Bool) (h : Coord → α) (st : AState α) :
    ∃ t, (astarStep g goal diag h st).visited = st.visited ++ t := by
  unfold astarStep
  rcases hpop : heapPop st.heap with ⟨tops, rest⟩
  cases tops with
  | none => exact ⟨[], by simp⟩
  | some cur =>
    dsimp only
    by_cases hstale : dget st.fmap cur.node ≠ some cur.prio
    · rw [if_pos hstale]
      exact ⟨[], by simp⟩
    · rw [if_neg hstale]
      by_cases hgoal : cur.node = goal
      · rw [if_pos hgoal]
        exact ⟨[cur.node], rfl⟩
      · rw [if_neg hgoal]
        refine ⟨[cur.node], ?_⟩
        apply foldl_inv (fun acc : AState α => acc.visited = st.visited ++ [cur.node])
        · rfl
        · intro acc nb hnb hacc
          by_cases hwall : (cellAt g nb).wall = true
          · rw [if_pos hwall]
            exact hacc
          · rw [if_neg hwall]
            rcases hdg : dget acc.gmap nb with _ | gnb
            · dsimp only
              exact hacc
            · dsimp only
              by_cases himp : (dget st.gmap cur.node).getD 0 + ((cellAt g nb).weight : α) < gnb
              · rw [if_pos himp]
                exact hacc
              · rw [if_neg himp]
                exact hacc

theorem astarLoop_visited {α : Type} [LinearOrderedField α] (g : Grid) (goal : Coord)
    (diag : Bool) (h : Coord → α) (fuel : ℕ) (st : AState α) :
    ∃ t, (astarLoop g goal diag h fuel st).visited = st.visited ++ t := by
  induction fuel generalizing st with
  | zero => exact ⟨[], by show st.visited = st.visited ++ []; simp⟩
  | succ fuel ih =>
    unfold astarLoop
    by_cases hd : st.done
    · rw [if_pos hd]
      exact ⟨[], by simp⟩
    · rw [if_neg hd]
      by_cases he : st.heap = []
      · rw [if_pos he]
        exact ⟨[], by simp⟩
      · rw [if_neg he]
        obtain ⟨t₁, ht₁⟩ := astarStep_visited g goal diag h st
        obtain ⟨t₂, ht₂⟩ := ih (astarStep g goal diag h st)
        exact ⟨t₁ ++ t₂, by rw [ht₂, ht₁, List.append_assoc]⟩

/-- Paired fold with a relation. -/
theorem foldl_rel {γ₁ γ₂ δ : Type} (R : γ₁ → γ₂ → Prop) (f₁ : γ₁ → δ → γ₁)
    (f₂ : γ₂ → δ → γ₂) (l : List δ) (i₁ : γ₁) (i₂ : γ₂) (h0 : R i₁ i₂)
    (hstep : ∀ a₁ a₂ x, x ∈ l → R a₁ a₂ → R (f₁ a₁ x) (f₂ a₂ x)) :
    R (l.foldl f₁ i₁) (l.foldl f₂ i₂) := by
  induction l generalizing i₁ i₂ with
  | nil => exact h0
  | cons x t ih =>
    exact ih _ _ (hstep i₁ i₂ x (List.mem_cons_self _ _) h0)
      fun a₁ a₂ y hy => hstep a₁ a₂ y (List.mem_cons_of_mem _ hy)

theorem dijkstra_step_rel {g : Grid} {goal : Coord} {diag : Bool} {d : DState}
    {a : AState ℚ} (hr : DARel d a) :
    DARel (dijkstraStep g goal diag d) (astarStep g goal diag (fun _ => 0) a) := by
  obtain ⟨rh, rg, rf, rc, rv, rd⟩ := hr
  unfold dijkstraStep astarStep
  rw [rh, rf, rg, rc, rv, rd]
  rcases hpop : heapPop d.heap with ⟨tops, rest⟩
  cases tops with
  | none => exact ⟨rfl, rfl, rfl, rfl, rfl, rfl⟩
  | some cur =>
    dsimp only
    by_cases hstale : dget d.dist cur.node ≠ some cur.prio
    · rw [if_pos hstale, if_pos hstale]
      exact ⟨rfl, rfl, rfl, rfl, rfl, rfl⟩
    · rw [if_neg hstale, if_neg hstale]
      have hvalid : dget d.dist cur.node = some cur.prio := not_not.mp hstale
      by_cases hgoal : cur.node = goal
      · rw [if_pos hgoal, if_pos hgoal]
        exact ⟨rfl, rfl, rfl, rfl, rfl, rfl⟩
      · rw [if_neg hgoal, if_neg hgoal]
        have hgcur : (dget d.dist cur.node).getD 0 = cur.prio := by rw [hvalid]; rfl
        apply foldl_rel DARel
        · exact ⟨rfl, rfl, rfl, rfl, rfl, rfl⟩
        · intro a₁ a₂ nb hnb ⟨qh, qg, qf, qc, qv, qd⟩
          by_cases hwall : (cellAt g nb).wall = true
          · rw [if_pos hwall, if_pos hwall]
            exact ⟨qh, qg, qf, qc, qv, qd⟩
          · rw [if_neg hwall, if_neg hwall]
            rw [qg, hgcur]
            simp only [Rat.cast_id, add_zero]
            rcases hdg : dget a₁.dist nb with _ | dnb
            · dsimp only
              refine ⟨?_, ?_, ?_, ?_, qv, qd⟩ <;> simp [qh, qf, qc]
            · dsimp only
              by_cases himp : cur.prio + (cellAt g nb).weight < dnb
              · rw [if_pos himp, if_pos himp]
                refine ⟨?_, ?_, ?_, ?_, qv, qd⟩ <;> simp [qh, qf, qc]
              · rw [if_neg himp, if_neg himp]
                exact ⟨qh, qg, qf, qc, qv, qd⟩

theorem dijkstra_loop_rel {g : Grid} {goal : Coord} {diag : Bool} (fuel : ℕ) {d : DState}
    {a : AState ℚ} (hr : DARel d a) :
    DARel (dijkstraLoop g goal diag fuel d) (astarLoop g goal diag (fun _ => 0) fuel a) := by
  induction fuel generalizing d a with
  | zero => exact hr
  | succ fuel ih =>
    obtain ⟨rh, rg, rf, rc, rv, rd⟩ := hr
    unfold dijkstraLoop astarLoop
    rw [rh, rd]
    by_cases hd : d.done
    · rw [if_pos hd, if_pos hd]
      exact ⟨rh, rg, rf, rc, rv, rd⟩
    · rw [if_neg hd, if_neg hd]
      by_cases he : d.heap = []
      · rw [if_pos he, if_pos he]
        exact ⟨rh, rg, rf, rc, rv, rd⟩
      · rw [if_neg he, if_neg he]
        exact ih (dijkstra_step_rel ⟨rh, rg, rf, rc, rv, rd⟩)

/-- `runDijkstra` computes exactly the generic search at `h = 0` over `ℚ`. -/
theorem runDijkstra_eq_astar0 (fuel : ℕ) (g : Grid) (s t : Coord) (diag : Bool) :
    runDijkstra fuel g s t diag = astarRun (α := ℚ) fuel g s t diag (fun _ => 0) := by
  have hr : DARel (dijkstraLoop g t diag fuel (dijkstraInit s))
      (astarLoop g t diag (fun _ => 0) fuel (astarInit (fun _ => 0) s)) := by
    apply dijkstra_loop_rel
    exact ⟨rfl, rfl, rfl, rfl, rfl, rfl⟩
  obtain ⟨-, -, -, rc, rv, -⟩ := hr
  unfold runDijkstra astarRun
  dsimp only
  rw [rc, rv]

/-! ## Properties of the reconstructed path -/

theorem neighbors_adj {r c : ℤ} {rows cols : ℕ} {diag : Bool} {k : Coord}
    (h : k ∈ neighbors r c rows cols diag) :
    adjacentStep diag (r, c) k ∧ inBounds k.1 k.2 rows cols := by
  unfold neighbors at h
  obtain ⟨d, hd, hk⟩ := List.mem_filterMap.mp h
  dsimp only at hk
  by_cases hb : inBounds (r + d.1) (c + d.2) rows cols
  · rw [if_pos hb] at hk
    cases hk
    constructor
    · unfold adjacentStep
      simpa using hd
    · exact hb
  · rw [if_neg hb] at hk
    cases hk

theorem reconWalk_acc (came : List (Coord × Coord)) (fuel : ℕ) (cur : Coord)
    (acc : List Coord) :
    reconWalk came fuel cur acc = acc ++ reconWalk came fuel cur [] := by
  induction fuel generalizing cur acc with
  | zero => simp [reconWalk]
  | succ fuel ih =>
    unfold reconWalk
    rcases hc : dget came cur with _ | prev
    · simp
    · dsimp only
      rw [ih prev (acc ++ [cur]), ih prev ([] ++ [cur])]
      simp

theorem reconWalk_head (came : List (Coord × Coord)) (fuel : ℕ) (cur : Coord) :
    (reconWalk came (fuel + 1) cur []).head? = some cur := by
  unfold reconWalk
  rcases hc : dget came cur with _ | prev
  · rfl
  · dsimp only
    rw [reconWalk_acc]
    rfl

theorem reconWalk_chain (came : List (Coord × Coord)) (fuel : ℕ) (cur : Coord) :
    List.Chain' (fun x y => dget came x = some y) (reconWalk came fuel cur []) := by
  induction fuel generalizing cur with
  | zero => exact List.chain'_nil
  | succ fuel ih =>
    unfold reconWalk
    rcases hc : dget came cur with _ | prev
    · simp
    · dsimp only
      rw [reconWalk_acc]
      simp only [List.nil_append, List.singleton_append]
      rw [List.chain'_cons']
      refine ⟨?_, ih prev⟩
      intro y hy
      cases fuel with
      | zero => simp [reconWalk] at hy
      | succ fuel =>
        rw [reconWalk_head] at hy
        have hpy := Option.some.inj hy
        rw [← hpy]
        exact hc

theorem reconWalk_mem_origin (came : List (Coord × Coord)) (s : Coord)
    (horigin : ∀ k v, dget came k = some v → (dget came v).isSome ∨ v = s)
    (fuel : ℕ) (cur : Coord) (hcur : (dget came cur).isSome ∨ cur = s) :
    ∀ x ∈ reconWalk came fuel cur [], (dget came x).isSome ∨ x = s := by
  induction fuel generalizing cur with
  | zero => simp [reconWalk]
  | succ fuel ih =>
    intro x hx
    unfold reconWalk at hx
    rcases hc : dget came cur with _ | prev
    · rw [hc] at hx
      simp at hx
      rw [hx]
      rcases hcur with hs | hs
      · rw [hc] at hs
        cases hs
      · exact Or.inr hs
    · rw [hc] at hx
      dsimp only at hx
      rw [reconWalk_acc] at hx
      simp only [List.nil_append, List.singleton_append, List.mem_cons] at hx
      rcases hx with hx | hx
      · rw [hx, hc]
        exact Or.inl rfl
      · exact ih prev (horigin cur prev hc) x hx

/-- Adjacency of the reconstructed path, from the invariant. -/
theorem reconstruct_adj {α : Type} [LinearOrderedField α] {g : Grid} {diag : Bool}
    {s : Coord} {st : AState α} (inv : SInv g diag s st) (goal : Coord) :
    AdjChain diag (reconstruct st.came goal) := by
  unfold reconstruct
  rcases hc : dget st.came goal with _ | v
  · exact List.chain'_nil
  · dsimp only
    unfold AdjChain
    rw [List.chain'_reverse]
    apply List.Chain'.imp _ (reconWalk_chain st.came (st.came.length + 1) goal)
    intro x y hxy
    have := (neighbors_adj (inv.came_nb x y hxy)).1
    simpa [flip] using this

/-- Every cell of the reconstructed path except possibly the start is a
`came` key; with a non-occupied start the whole path avoids walls. -/
theorem reconstruct_nowall {α : Type} [LinearOrderedField α] {g : Grid} {diag : Bool}
    {s : Coord} {st : AState α} (inv : SInv g diag s st) (goal : Coord)
    (hs : (cellAt g s).wall = false) :
    ∀ x ∈ reconstruct st.came goal, (cellAt g x).wall = false := by
  unfold reconstruct
  rcases hc : dget st.came goal with _ | v
  · intro x hx
    cases hx
  · dsimp only
    intro x hx
    rw [List.mem_reverse] at hx
    have horigin : ∀ k v, dget st.came k = some v → (dget st.came v).isSome ∨ v = s := by
      intro k v hv
      have hg := inv.came_val_gkey k v hv
      rcases inv.gkey_origin v hg with h1 | h1
      · exact Or.inr h1
      · exact Or.inl h1
    have := reconWalk_mem_origin st.came s horigin (st.came.length + 1) goal
      (Or.inl (by rw [hc]; rfl)) x hx
    rcases this with hkey | hstart
    · rcases ho : dget st.came x with _ | w
      · rw [ho] at hkey
        cases hkey
      · exact inv.came_nowall x w ho
    · rw [hstart]
      exact hs

/-- An occupied goal never acquires a `came` entry, so its path is empty. -/
theorem reconstruct_goal_wall {α : Type} [LinearOrderedField α] {g : Grid} {diag : Bool}
    {s : Coord} {st : AState α} (inv : SInv g diag s st) (goal : Coord)
    (hw : (cellAt g goal).wall = true) : reconstruct st.came goal = [] := by
  unfold reconstruct
  rcases hc : dget st.came goal with _ | v
  · rfl
  · exact absurd hw (by rw [inv.came_nowall goal v hc]; simp)

/-! ## The first loop iteration -/

theorem astarLoop_done {α : Type} [LinearOrderedField α] {g : Grid} {goal : Coord}
    {diag : Bool} {h : Coord → α} {fuel : ℕ} {st : AState α} (hd : st.done = true) :
    astarLoop g goal diag h fuel st = st := by
  cases fuel with
  | zero => rfl
  | succ fuel =>
    unfold astarLoop
    rw [if_pos hd]

/-- The first pop is the start entry and it is never stale, so the start
is always the first visited cell, whatever the input. -/
theorem astarStep_init {α : Type} [LinearOrderedField α] (g : Grid) (goal : Coord)
    (diag : Bool) (h : Coord → α) (s : Coord) :
    (astarStep g goal diag h (astarInit h s)).visited = [s] ∧
      ((astarStep g goal diag h (astarInit h s)).came = [] ∨ s ≠ goal) ∧
      (s = goal → astarStep g goal diag h (astarInit h s) =
        { heap := [], gmap := [(s, 0)], fmap := [(s, h s)], came := [],
          visited := [s], done := true }) := by
  have hpop : heapPop (astarInit (α := α) h s).heap = (some ⟨h s, s⟩, []) := rfl
  have hstale : ¬ dget (astarInit (α := α) h s).fmap s ≠ some (h s) := by
    intro hne
    exact hne (by simp [astarInit, dget])
  unfold astarStep
  rw [hpop]
  dsimp only
  rw [if_neg hstale]
  by_cases hgoal : s = goal
  · rw [if_pos hgoal]
    refine ⟨rfl, Or.inl rfl, fun _ => ?_⟩
    rfl
  · rw [if_neg hgoal]
    refine ⟨?_, Or.inr hgoal, fun hsg => absurd hsg hgoal⟩
    apply foldl_inv (fun acc : AState α => acc.visited = [s])
    · rfl
    · intro acc nb hnb hacc
      by_cases hwall : (cellAt g nb).wall = true
      · rw [if_pos hwall]
        exact hacc
      · rw [if_neg hwall]
        rcases hdg : dget acc.gmap nb with _ | gnb
        · dsimp only
          exact hacc
        · dsimp only
          by_cases himp : (dget (astarInit h s).gmap s).getD 0 + ((cellAt g nb).weight : α) < gnb
          · rw [if_pos himp]
            exact hacc
          · rw [if_neg himp]
            exact hacc

/-- With any positive fuel the visited order starts with the start cell. -/
theorem astarRun_visited_head {α : Type} [LinearOrderedField α] (fuel : ℕ) (g : Grid)
    (s t : Coord) (diag : Bool) (h : Coord → α) :
    (astarRun (fuel + 1) g s t diag h).visited.head? = some s := by
  unfold astarRun astarLoop
  rw [if_neg (by simp [astarInit] : ¬ (astarInit (α := α) h s).done = true),
    if_neg (by simp [astarInit] : ¬ (astarInit (α := α) h s).heap = [])]
  obtain ⟨tl, htl⟩ := astarLoop_visited g t diag h fuel (astarStep g t diag h (astarInit h s))
  dsimp only
  rw [htl, (astarStep_init g t diag h s).1]
  rfl

/-- When start and goal coincide the search pops the start, breaks at once,
and reconstructs an empty path from the empty `came` map. -/
theorem astarRun_start_goal {α : Type} [LinearOrderedField α] (fuel : ℕ) (g : Grid)
    (s : Coord) (diag : Bool) (h : Coord → α) :
    astarRun (fuel + 1) g s s diag h = ⟨[s], []⟩ := by
  unfold astarRun astarLoop
  rw [if_neg (by simp [astarInit] : ¬ (astarInit (α := α) h s).done = true),
    if_neg (by simp [astarInit] : ¬ (astarInit (α := α) h s).heap = [])]
  rw [(astarStep_init g s diag h s).2.2 rfl]
  rw [astarLoop_done rfl]
  rfl

/-! ## Loop stability at exhaustion -/

theorem astarLoop_heap_empty {α : Type} [LinearOrderedField α] {g : Grid} {goal : Coord}
    {diag : Bool} {h : Coord → α} {fuel : ℕ} {st : AState α} (he : st.heap = []) :
    astarLoop g goal diag h fuel st = st := by
  cases fuel with
  | zero => rfl
  | succ fuel =>
    unfold astarLoop
    by_cases hd : st.done
    · rw [if_pos hd]
    · rw [if_neg hd, if_pos he]

theorem astarLoop_succ {α : Type} [LinearOrderedField α] (g : Grid) (goal : Coord)
    (diag : Bool) (h : Coord → α) (n : ℕ) (st : AState α) :
    astarLoop g goal diag h (n + 1) st =
      if st.done = true then st
      else if st.heap = [] then st
      else astarLoop g goal diag h n (astarStep g goal diag h st) := rfl

theorem astarLoop_add {α : Type} [LinearOrderedField α] (g : Grid) (goal : Coord)
    (diag : Bool) (h : Coord → α) (f₁ f₂ : ℕ) (st : AState α) :
    astarLoop g goal diag h (f₁ + f₂) st = astarLoop g goal diag h f₂
      (astarLoop g goal diag h f₁ st) := by
  induction f₁ generalizing st with
  | zero =>
    rw [Nat.zero_add]
    rfl
  | succ f₁ ih =>
    have hshape : f₁ + 1 + f₂ = (f₁ + f₂) + 1 := by omega
    rw [hshape, astarLoop_succ, astarLoop_succ]
    by_cases hd : st.done = true
    · rw [if_pos hd, if_pos hd, astarLoop_done hd]
    · rw [if_neg hd, if_neg hd]
      by_cases he : st.heap = []
      · rw [if_pos he, if_pos he, astarLoop_heap_empty he]
      · rw [if_neg he, if_neg he]
        exact ih (astarStep g goal diag h st)

/-- At queue exhaustion with the goal never validly popped, the goal has
no `came` entry and the reconstructed path is empty. -/
theorem astar_exhausted {α : Type} [LinearOrderedField α] (fuel : ℕ) (g : Grid)
    (s t : Coord) (diag : Bool) (h : Coord → α)
    (hemp : (astarLoop g t diag h fuel (astarInit h s)).heap = [])
    (hnv : t ∉ (astarLoop g t diag h fuel (astarInit h s)).visited) :
    (astarRun fuel g s t diag h).path = [] := by
  have inv : SInv g diag s (astarLoop g t diag h fuel (astarInit h s)) :=
    sInv_loop fuel (sInv_init g diag s h)
  unfold astarRun
  dsimp only
  unfold reconstruct
  rcases hc : dget (astarLoop g t diag h fuel (astarInit h s)).came t with _ | v
  · rfl
  · exfalso
    have hgk := inv.came_gkey t v hc
    have hfk := (inv.fkey_gkey t).mpr hgk
    rcases hfv : dget (astarLoop g t diag h fuel (astarInit h s)).fmap t with _ | fv
    · rw [hfv] at hfk
      cases hfk
    · rcases inv.fentry t fv hfv with hvis | hheap
      · exact hnv hvis
      · rw [hemp] at hheap
        cases hheap

/-! ## Claims C3, C5, C6, C7, C9 (Dijkstra/A* family) -/

/-- One RRT* iteration only appends to the visited order. -/
theorem rrtIter_visited (g : Grid) (goal : Coord) (o : RRTOpts) (σ : ℕ → ℚ) (st : RState) :
    ∃ tl, (rrtIter g goal o σ st).visited = st.visited ++ tl := by
  unfold rrtIter
  dsimp only
  split
  all_goals
    split
    case isTrue => exact ⟨[], by simp⟩
    case isFalse hsm =>
      split
      case isTrue => exact ⟨[], by simp⟩
      case isFalse hnp =>
        split
        case isTrue => exact ⟨[], by simp⟩
        case isFalse hlf =>
          split
          case isTrue hgc => exact ⟨_, rfl⟩
          case isFalse hgc => exact ⟨_, rfl⟩

/-- The RRT* sampling loop only appends to the visited order. -/
theorem rrtLoop_visited (g : Grid) (goal : Coord) (o : RRTOpts) (σ : ℕ → ℚ) (n : ℕ)
    (st : RState) : ∃ tl, (rrtLoop g goal o σ n st).visited = st.visited ++ tl := by
  induction n generalizing st with
  | zero => exact ⟨[], by simp [rrtLoop]⟩
  | succ n ih =>
    unfold rrtLoop
    by_cases hgi : st.goalIndex ≠ -1
    · rw [if_pos hgi]
      exact ⟨[], by simp⟩
    · rw [if_neg hgi]
      obtain ⟨t1, ht1⟩ := rrtIter_visited g goal o σ st
      obtain ⟨t2, ht2⟩ := ih (rrtIter g goal o σ st)
      exact ⟨t1 ++ t2, by rw [ht2, ht1, List.append_assoc]⟩

/-- RRT*'s visited sequence always begins with the start (the root's
cell, pushed at initialisation). -/
theorem runRRTStar_visited_head (g : Grid) (s t : Coord) (o : RRTOpts) (σ : ℕ → ℚ) :
    (runRRTStar g s t o σ).visited.head? = some s := by
  unfold runRRTStar
  dsimp only
  obtain ⟨tl, htl⟩ := rrtLoop_visited g t o σ o.iterations (rrtInit s)
  rw [htl]
  rfl

/-- C3, the claim as stated, is false: with `start == goal` the source
breaks out of the loop before any `came` entry exists, and `reconstruct`
then returns the empty path, not the one-cell path `[start]`.  Concrete
run: a free 1×1 grid with start = goal = (0,0) gives `visited = [(0,0)]`
but `path = []`, which does not contain the start coordinate. -/
theorem claim_C3_counterexample :
    runDijkstra 10 [[⟨false, 1⟩]] (0, 0) (0, 0) false =
      ⟨[(0, 0)], []⟩ ∧ (([] : List Coord) ≠ [((0, 0) : Coord)]) := by
  constructor
  · with_unfolding_all decide
  · decide

/-- C3 (amended): when `start == goal` (any grid, any connectivity, even
an occupied or out-of-bounds start), Dijkstra and A* pop the start, break
immediately, and return `visited = [start]` with an *empty* path; RRT*'s
visited sequence likewise has the start (= goal) as its first entry (its
visited order begins with the root). -/
theorem claim_C3 (fuel : ℕ) (g : Grid) (s : Coord) (diag : Bool) :
    runDijkstra (fuel + 1) g s s diag = ⟨[s], []⟩ ∧
      runAStar (fuel + 1) g s s diag = ⟨[s], []⟩ ∧
      ∀ (o : RRTOpts) (σ : ℕ → ℚ), (runRRTStar g s s o σ).visited.head? = some s := by
  refine ⟨?_, ?_, ?_⟩
  · rw [runDijkstra_eq_astar0]
    exact astarRun_start_goal fuel g s diag (fun _ => 0)
  · exact astarRun_start_goal fuel g s diag (astarHeur diag s)
  · intro o σ
    exact runRRTStar_visited_head g s s o σ

/-- C5, the claim as stated, is false: the engine performs no input
validation.  With an out-of-bounds start `(5,5)` on a free 1×2 grid, and
with an occupied start, Dijkstra runs the search normally and returns an
ordinary `PlanningResult` (no error of any kind is modelled or thrown on
these inputs in the source). -/
theorem claim_C5_counterexample :
    runDijkstra 10 [[⟨false, 1⟩, ⟨false, 1⟩]] (5, 5) (0, 1) false =
      ⟨[(5, 5)], []⟩ ∧
    runDijkstra 10 [[⟨true, 1⟩, ⟨false, 1⟩]] (0, 0) (0, 1) false =
      ⟨[(0, 0), (0, 1)], [(0, 0), (0, 1)]⟩ := by
  constructor
  · with_unfolding_all decide
  · with_unfolding_all decide

/-- C5 (amended): the engine never fails fast.  For every grid, start and
goal — in bounds or not, occupied or not — Dijkstra and A* run the search
and return an ordinary `PlanningResult`, whose visited order always begins
with the start cell (the start entry is popped first and is never stale). -/
theorem claim_C5 (fuel : ℕ) (g : Grid) (s t : Coord) (diag : Bool) :
    (runDijkstra (fuel + 1) g s t diag).visited.head? = some s ∧
      (runAStar (fuel + 1) g s t diag).visited.head? = some s := by
  constructor
  · rw [runDijkstra_eq_astar0]
    exact astarRun_visited_head fuel g s t diag (fun _ => 0)
  · exact astarRun_visited_head fuel g s t diag (astarHeur diag t)

/-- C6, the claim as stated, is false: only neighbors are wall-checked,
so an *occupied start* does not force an empty path.  On a 1×3 grid whose
start cell is a wall, Dijkstra returns the full path through the wall
start. -/
theorem claim_C6_counterexample :
    (cellAt [[⟨true, 1⟩, ⟨false, 1⟩, ⟨false, 1⟩]] (0, 0)).wall = true ∧
    runDijkstra 10 [[⟨true, 1⟩, ⟨false, 1⟩, ⟨false, 1⟩]] (0, 0) (0, 2) false =
      ⟨[(0, 0), (0, 1), (0, 2)], [(0, 0), (0, 1), (0, 2)]⟩ := by
  constructor
  · decide
  · with_unfolding_all decide

/-- C6 (amended): an occupied *goal* does produce an empty path from both
Dijkstra and A* (walls never acquire `came` entries), but an occupied
start does not — the start cell is traversed regardless. -/
theorem claim_C6 (fuel : ℕ) (g : Grid) (s t : Coord) (diag : Bool)
    (hw : (cellAt g t).wall = true) :
    (runDijkstra fuel g s t diag).path = [] ∧ (runAStar fuel g s t diag).path = [] := by
  constructor
  · rw [runDijkstra_eq_astar0]
    exact reconstruct_goal_wall (sInv_loop fuel (sInv_init g diag s (fun _ => 0))) t hw
  · exact reconstruct_goal_wall
      (sInv_loop fuel (sInv_init g diag s (astarHeur diag t))) t hw

theorem claim_C6_witness :
    (cellAt [[⟨false, 1⟩, ⟨true, 1⟩]] (0, 1)).wall = true ∧
    (runDijkstra 6 [[⟨false, 1⟩, ⟨true, 1⟩]] (0, 0) (0, 1) false).path = [] ∧
    (runAStar 6 [[⟨false, 1⟩, ⟨true, 1⟩]] (0, 0) (0, 1) false).path = [] :=
  ⟨by decide, (claim_C6 6 [[⟨false, 1⟩, ⟨true, 1⟩]] (0, 0) (0, 1) false (by decide)).1,
    (claim_C6 6 [[⟨false, 1⟩, ⟨true, 1⟩]] (0, 0) (0, 1) false (by decide)).2⟩

/-- C7: when the loop state has an exhausted queue without the goal having
been validly popped (the unreachable-goal outcome), both planners return
normally — the path is empty, the visited order is non-empty (it begins
with the start), and giving the loop more fuel changes nothing (the run
has terminated).  Stated for Dijkstra and A* over their loop states. -/
theorem claim_C7 (fuel : ℕ) (g : Grid) (s t : Coord) (diag : Bool)
    (hD : (dijkstraLoop g t diag (fuel + 1) (dijkstraInit s)).heap = [])
    (hDv : t ∉ (dijkstraLoop g t diag (fuel + 1) (dijkstraInit s)).visited)
    (hA : (astarLoop g t diag (astarHeur diag t) (fuel + 1) (astarInit (astarHeur diag t) s)).heap = [])
    (hAv : t ∉ (astarLoop g t diag (astarHeur diag t) (fuel + 1) (astarInit (astarHeur diag t) s)).visited) :
    (runDijkstra (fuel + 1) g s t diag).path = [] ∧
    (runDijkstra (fuel + 1) g s t diag).visited.head? = some s ∧
    (∀ extra, runDijkstra (fuel + 1 + extra) g s t diag = runDijkstra (fuel + 1) g s t diag) ∧
    (runAStar (fuel + 1) g s t diag).path = [] ∧
    (runAStar (fuel + 1) g s t diag).visited.head? = some s ∧
    (∀ extra, runAStar (fuel + 1 + extra) g s t diag = runAStar (fuel + 1) g s t diag) := by
  have hrel : DARel (dijkstraLoop g t diag (fuel + 1) (dijkstraInit s))
      (astarLoop g t diag (fun _ => 0) (fuel + 1) (astarInit (fun _ => 0) s)) :=
    dijkstra_loop_rel (fuel + 1) ⟨rfl, rfl, rfl, rfl, rfl, rfl⟩
  obtain ⟨rh, -, -, -, rv, -⟩ := hrel
  have hD0 : (astarLoop g t diag (fun _ => 0) (fuel + 1)
      (astarInit (α := ℚ) (fun _ => 0) s)).heap = [] := by rw [rh]; exact hD
  have hD0v : t ∉ (astarLoop g t diag (fun _ => 0) (fuel + 1)
      (astarInit (α := ℚ) (fun _ => 0) s)).visited := by rw [rv]; exact hDv
  refine ⟨?_, ?_, ?_, ?_, ?_, ?_⟩
  · rw [runDijkstra_eq_astar0]
    exact astar_exhausted (fuel + 1) g s t diag (fun _ => 0) hD0 hD0v
  · rw [runDijkstra_eq_astar0]
    exact astarRun_visited_head fuel g s t diag (fun _ => 0)
  · intro extra
    rw [runDijkstra_eq_astar0, runDijkstra_eq_astar0]
    unfold astarRun
    rw [astarLoop_add, astarLoop_heap_empty hD0]
  · exact astar_exhausted (fuel + 1) g s t diag (astarHeur diag t) hA hAv
  · exact astarRun_visited_head fuel g s t diag (astarHeur diag t)
  · intro extra
    unfold runAStar astarRun
    rw [astarLoop_add, astarLoop_heap_empty hA]

/-- C9: Dijkstra and A* consume no randomness.  Dispatching `plan` for any
algorithm other than RRT* gives results independent of the random stream
(RRT* is the only planner the dispatcher hands the stream to). -/
theorem claim_C9 (algo : Algo) (fuel : ℕ) (g : Grid) (s t : Coord) (diag : Bool)
    (o : RRTOpts) (σ₁ σ₂ : ℕ → ℚ) (halgo : algo ≠ Algo.rrtstar) :
    plan algo fuel g s t diag o σ₁ = plan algo fuel g s t diag o σ₂ := by
  cases algo with
  | astar => rfl
  | dijkstra => rfl
  | rrtstar => exact absurd rfl halgo

theorem claim_C9_witness :
    Algo.dijkstra ≠ Algo.rrtstar ∧
    plan Algo.dijkstra 5 [[⟨false, 1⟩]] (0, 0) (0, 0) false defaultOpts (fun _ => 0) =
      plan Algo.dijkstra 5 [[⟨false, 1⟩]] (0, 0) (0, 0) false defaultOpts (fun _ => 1 / 2) :=
  ⟨by decide, claim_C9 Algo.dijkstra 5 [[⟨false, 1⟩]] (0, 0) (0, 0) false defaultOpts
    (fun _ => 0) (fun _ => 1 / 2) (by decide)⟩

/-- The concrete A* loop state used by the C7 witness: on a free 1×1 grid
with start `(5,5)` (no in-bounds neighbors) the queue is exhausted after
one iteration and the goal `(0,0)` is never visited. -/
theorem astar_c7_aux :
    astarLoop [[⟨false, 1⟩]] (0, 0) false (astarHeur false (0, 0)) 3
        (astarInit (astarHeur false (0, 0)) (5, 5)) =
      { heap := [], gmap := [((5, 5), 0)],
        fmap := [((5, 5), astarHeur false (0, 0) (5, 5))], came := [],
        visited := [(5, 5)], done := false } := by
  have hstep : astarStep [[⟨false, 1⟩]] (0, 0) false (astarHeur false (0, 0))
      (astarInit (astarHeur false (0, 0)) (5, 5)) =
      { heap := [], gmap := [((5, 5), 0)],
        fmap := [((5, 5), astarHeur false (0, 0) (5, 5))], came := [],
        visited := [(5, 5)], done := false } := by
    unfold astarStep
    rw [show heapPop (astarInit (astarHeur false (0, 0)) (5, 5)).heap =
      (some ⟨astarHeur false (0, 0) (5, 5), ((5, 5) : Coord)⟩,
        ([] : List (HEntry ℝ Coord))) from rfl]
    dsimp only
    rw [if_neg (fun hh => hh rfl :
      ¬ dget (astarInit (astarHeur false (0, 0)) (5, 5)).fmap (5, 5) ≠
        some (astarHeur false (0, 0) (5, 5)))]
    rw [if_neg (by decide : ¬ ((5, 5) : Coord) = (0, 0))]
    rfl
  rw [astarLoop_succ,
    if_neg (by decide : ¬ (astarInit (α := ℝ) (astarHeur false (0, 0)) (5, 5)).done = true),
    if_neg (by simp [astarInit] :
      ¬ (astarInit (α := ℝ) (astarHeur false (0, 0)) (5, 5)).heap = []),
    hstep, astarLoop_heap_empty rfl]

theorem claim_C7_witness :
    (dijkstraLoop [[⟨false, 1⟩]] (0, 0) false 3 (dijkstraInit (5, 5))).heap = [] ∧
    ((0, 0) : Coord) ∉ (dijkstraLoop [[⟨false, 1⟩]] (0, 0) false 3
      (dijkstraInit (5, 5))).visited ∧
    (astarLoop [[⟨false, 1⟩]] (0, 0) false (astarHeur false (0, 0)) 3
      (astarInit (astarHeur false (0, 0)) (5, 5))).heap = [] ∧
    ((0, 0) : Coord) ∉ (astarLoop [[⟨false, 1⟩]] (0, 0) false (astarHeur false (0, 0)) 3
      (astarInit (astarHeur false (0, 0)) (5, 5))).visited ∧
    (runDijkstra 3 [[⟨false, 1⟩]] (5, 5) (0, 0) false).path = [] ∧
    (runAStar 3 [[⟨false, 1⟩]] (5, 5) (0, 0) false).path = [] := by
  have h₁ : (dijkstraLoop [[⟨false, 1⟩]] (0, 0) false 3 (dijkstraInit (5, 5))).heap = [] := by
    with_unfolding_all decide
  have h₂ : ((0, 0) : Coord) ∉ (dijkstraLoop [[⟨false, 1⟩]] (0, 0) false 3
      (dijkstraInit (5, 5))).visited := by
    with_unfolding_all decide
  have h₃ : (astarLoop [[⟨false, 1⟩]] (0, 0) false (astarHeur false (0, 0)) 3
      (astarInit (astarHeur false (0, 0)) (5, 5))).heap = [] := by
    rw [astar_c7_aux]
  have h₄ : ((0, 0) : Coord) ∉ (astarLoop [[⟨false, 1⟩]] (0, 0) false (astarHeur false (0, 0)) 3
      (astarInit (astarHeur false (0, 0)) (5, 5))).visited := by
    rw [astar_c7_aux]
    decide
  have main := claim_C7 2 [[⟨false, 1⟩]] (5, 5) (0, 0) false h₁ h₂ h₃ h₄
  exact ⟨h₁, h₂, h₃, h₄, main.1, main.2.2.2.1⟩

/-! ## Concrete RRT* run evaluations -/

theorem sqrt_of_sq (n : ℕ) : Real.sqrt ((n : ℝ) ^ 2) = n := by
  rw [Real.sqrt_sq (by positivity)]

theorem rdist_eval (a b : Coord) (q : ℤ) (h : (a.1 - b.1) ^ 2 + (a.2 - b.2) ^ 2 = q) :
    rdist a b = Real.sqrt ((q : ℝ)) := by
  unfold rdist
  rw [h]

theorem rdist04 : rdist ((0 : ℤ), (0 : ℤ)) ((0 : ℤ), (4 : ℤ)) = 4 := by
  rw [rdist_eval _ _ 16 (by decide)]
  rw [show ((16 : ℤ) : ℝ) = (4 : ℝ) ^ 2 by norm_num, Real.sqrt_sq (by norm_num)]

theorem steerA : steer 2 ((0 : ℤ), (0 : ℤ)) ((0 : ℤ), (4 : ℤ)) = (0, 2) := by
  unfold steer
  rw [rdist04]
  rw [if_neg (by norm_num : ¬ (4 : ℝ) ≤ ((2 : ℚ) : ℝ))]
  dsimp only
  have h1 : ((0 : ℤ) : ℝ) + (((0 : ℤ) : ℝ) - ((0 : ℤ) : ℝ)) * (((2 : ℚ) : ℝ) / 4) = 0 := by
    norm_num
  have h2 : ((0 : ℤ) : ℝ) + (((4 : ℤ) : ℝ) - ((0 : ℤ) : ℝ)) * (((2 : ℚ) : ℝ) / 4) = 2 := by
    norm_num
  rw [h1, h2]
  rw [show (0 : ℝ) = ((0 : ℤ) : ℝ) by norm_num, round_intCast]
  rw [show (2 : ℝ) = ((2 : ℤ) : ℝ) by norm_num, round_intCast]

theorem rdist02 : rdist ((0 : ℤ), (0 : ℤ)) ((0 : ℤ), (2 : ℤ)) = 2 := by
  rw [rdist_eval _ _ 4 (by decide)]
  rw [show ((4 : ℤ) : ℝ) = (2 : ℝ) ^ 2 by norm_num, Real.sqrt_sq (by norm_num)]

theorem rdist24 : rdist ((0 : ℤ), (2 : ℤ)) ((0 : ℤ), (4 : ℤ)) = 2 := by
  rw [rdist_eval _ _ 4 (by decide)]
  rw [show ((4 : ℤ) : ℝ) = (2 : ℝ) ^ 2 by norm_num, Real.sqrt_sq (by norm_num)]

theorem rewA : rewireAll gA 0 ⟨0, 2, 0, 2⟩ 1
    [⟨0, 0, -1, 0⟩, ⟨0, 2, 0, 2⟩] = [⟨0, 0, -1, 0⟩, ⟨0, 2, 0, 2⟩] := by
  unfold rewireAll rewireOne
  simp only [List.length_cons, List.length_nil, show (0 + 1 + 1 - 1 : ℕ) = 1 from rfl,
    show List.range 1 = [0] from by decide, List.foldl_cons, List.foldl_nil]
  rw [show ([(⟨0, 0, -1, 0⟩ : TreeNode), ⟨0, 2, 0, 2⟩][0]?) = some ⟨0, 0, -1, 0⟩ from rfl]
  dsimp only
  rw [if_neg ?hcon]
  case hcon =>
    rw [rdist02]
    exact fun hcon => absurd hcon.1 (by norm_num)

theorem iterA : rrtIter gA (0, 4) oA (fun _ => 0) (rrtInit (0, 0)) =
    ⟨[⟨0, 0, -1, 0⟩, ⟨0, 2, 0, 2⟩, ⟨0, 4, 1, 2⟩], [(0, 0), (0, 2)], 2, 1⟩ := by
  unfold rrtIter
  dsimp only [oA, rrtInit]
  simp only [if_pos (show (0 : ℚ) < (1 : ℚ) by norm_num)]
  rw [if_neg (by decide : ¬ ¬ isFree gA ((0 : ℤ), (4 : ℤ)))]
  simp only [show nearest [(⟨0, 0, -1, 0⟩ : TreeNode)] ((0 : ℤ), (4 : ℤ)) = 0 from rfl,
    List.getD_cons_zero]
  simp only [steerA]
  rw [if_neg (by decide : ¬ ¬ isFree gA ((0 : ℤ), (2 : ℤ)))]
  rw [if_neg (by decide : ¬ ¬ lineFree gA ((0 : ℤ), (0 : ℤ)) ((0 : ℤ), (2 : ℤ)))]
  simp only [show (cellAt gA ((0 : ℤ), (2 : ℤ))).weight = 1 from rfl, rdist02,
    show ((0 : ℝ) + ((1 : ℚ) : ℝ) * 2) = 2 by norm_num,
    List.singleton_append, List.length_cons, List.length_nil, Nat.cast_zero,
    Nat.reduceAdd, Nat.reduceSub]
  simp only [rewA]
  rw [if_pos ⟨by rw [rdist24]; norm_num, by decide⟩]
  simp

theorem rdist_sq (a b : Coord) (n : ℕ) (h : (a.1 - b.1) ^ 2 + (a.2 - b.2) ^ 2 = (n : ℤ) ^ 2) :
    rdist a b = n := by
  unfold rdist
  rw [h]
  rw [show (((n : ℤ) ^ 2 : ℤ) : ℝ) = ((n : ℝ)) ^ 2 by push_cast; ring]
  exact Real.sqrt_sq (by positivity)

theorem steer02 : steer 2 ((0 : ℤ), (0 : ℤ)) ((0 : ℤ), (2 : ℤ)) = (0, 2) := by
  unfold steer
  rw [rdist02]
  rw [if_pos (by norm_num : (2 : ℝ) ≤ ((2 : ℚ) : ℝ))]

theorem rdist0207 : rdist ((0 : ℤ), (2 : ℤ)) ((0 : ℤ), (7 : ℤ)) = 5 :=
  rdist_sq _ _ 5 (by decide)

theorem rewB0 : rewireAll gB 1 ⟨0, 2, 0, 40⟩ 1
    [⟨0, 0, -1, 0⟩, ⟨0, 2, 0, 40⟩] = [⟨0, 0, -1, 0⟩, ⟨0, 2, 0, 40⟩] := by
  unfold rewireAll rewireOne
  simp only [List.length_cons, List.length_nil, show (0 + 1 + 1 - 1 : ℕ) = 1 from rfl,
    show List.range 1 = [0] from by decide, List.foldl_cons, List.foldl_nil]
  rw [show ([(⟨0, 0, -1, 0⟩ : TreeNode), ⟨0, 2, 0, 40⟩][0]?) = some ⟨0, 0, -1, 0⟩ from rfl]
  dsimp only
  rw [if_neg ?hcon]
  case hcon =>
    rw [rdist02]
    exact fun hcon => absurd hcon.1 (by norm_num)

theorem iterB0 : rrtIter gB (0, 7) oB σB (rrtInit (0, 0)) =
    ⟨[⟨0, 0, -1, 0⟩, ⟨0, 2, 0, 40⟩], [(0, 0), (0, 2)], -1, 3⟩ := by
  unfold rrtIter
  dsimp only [oB, rrtInit]
  rw [if_neg (show ¬ σB 0 < 0 by norm_num [σB, List.getD])]
  rw [if_neg (show ¬ σB 0 < 0 by norm_num [σB, List.getD])]
  rw [show ((⌊σB (0 + 1) * ((gridRows gB : ℕ) : ℚ)⌋ : ℤ), (⌊σB (0 + 2) * ((gridCols gB : ℕ) : ℚ)⌋ : ℤ))
      = ((0 : ℤ), (2 : ℤ)) from by norm_num [σB, List.getD, gB, gridRows, gridCols]]
  rw [if_neg (by decide : ¬ ¬ isFree gB ((0 : ℤ), (2 : ℤ)))]
  simp only [show nearest [(⟨0, 0, -1, 0⟩ : TreeNode)] ((0 : ℤ), (2 : ℤ)) = 0 from rfl,
    List.getD_cons_zero]
  simp only [steer02]
  rw [if_neg (by decide : ¬ ¬ isFree gB ((0 : ℤ), (2 : ℤ)))]
  rw [if_neg (by decide : ¬ ¬ lineFree gB ((0 : ℤ), (0 : ℤ)) ((0 : ℤ), (2 : ℤ)))]
  simp only [show (cellAt gB ((0 : ℤ), (2 : ℤ))).weight = 20 from rfl, rdist02,
    show ((0 : ℝ) + ((20 : ℚ) : ℝ) * 2) = 40 by norm_num,
    List.singleton_append, List.length_cons, List.length_nil, Nat.cast_zero,
    show (0 + 1 + 1 - 1 : ℕ) = 1 from rfl]
  simp only [rewB0]
  rw [if_neg ?hgoal]
  case hgoal =>
    rw [rdist0207]
    exact fun hcon => absurd hcon.1 (by norm_num)

theorem nearest_cons (pt : Coord) (nd : TreeNode) (t : List TreeNode) :
    nearest (nd :: t) pt = nearestAux pt t 1 0 (rdist pt (nd.r, nd.c)) := rfl

theorem nearestAux_cons (pt : Coord) (nd : TreeNode) (t : List TreeNode) (i best : ℕ)
    (bD : ℝ) : nearestAux pt (nd :: t) i best bD =
      if rdist pt (nd.r, nd.c) < bD then nearestAux pt t (i + 1) i (rdist pt (nd.r, nd.c))
      else nearestAux pt t (i + 1) best bD := rfl

theorem nearestAux_nil (pt : Coord) (i best : ℕ) (bD : ℝ) :
    nearestAux pt [] i best bD = best := rfl

theorem rdist1200 : rdist ((1 : ℤ), (2 : ℤ)) ((0 : ℤ), (0 : ℤ)) = Real.sqrt 5 := by
  rw [rdist_eval _ _ 5 (by decide)]
  norm_num

theorem rdist1202 : rdist ((1 : ℤ), (2 : ℤ)) ((0 : ℤ), (2 : ℤ)) = 1 := by
  rw [rdist_sq _ _ 1 (by decide)]
  norm_num

theorem rdist0212 : rdist ((0 : ℤ), (2 : ℤ)) ((1 : ℤ), (2 : ℤ)) = 1 := by
  rw [rdist_sq _ _ 1 (by decide)]
  norm_num

theorem rdist0012 : rdist ((0 : ℤ), (0 : ℤ)) ((1 : ℤ), (2 : ℤ)) = Real.sqrt 5 := by
  rw [rdist_eval _ _ 5 (by decide)]
  norm_num

theorem rdist1207 : rdist ((1 : ℤ), (2 : ℤ)) ((0 : ℤ), (7 : ℤ)) = Real.sqrt 26 := by
  rw [rdist_eval _ _ 26 (by decide)]
  norm_num

theorem nearB1 : nearest [⟨0, 0, -1, 0⟩, ⟨0, 2, 0, 40⟩] ((1 : ℤ), (2 : ℤ)) = 1 := by
  rw [nearest_cons]
  dsimp only
  rw [nearestAux_cons]
  dsimp only
  rw [rdist1202, rdist1200, if_pos ((Real.lt_sqrt (by norm_num)).mpr (by norm_num))]
  rw [nearestAux_nil]

theorem steer0212 : steer 2 ((0 : ℤ), (2 : ℤ)) ((1 : ℤ), (2 : ℤ)) = (1, 2) := by
  unfold steer
  rw [rdist0212]
  rw [if_pos (by norm_num : (1 : ℝ) ≤ ((2 : ℚ) : ℝ))]

theorem rewB1a : rewireOne gB 1 ⟨1, 2, 1, 41⟩ 2
    [⟨0, 0, -1, 0⟩, ⟨0, 2, 0, 40⟩, ⟨1, 2, 1, 41⟩] 0 =
    [⟨0, 0, -1, 0⟩, ⟨0, 2, 0, 40⟩, ⟨1, 2, 1, 41⟩] := by
  unfold rewireOne
  rw [show ([(⟨0, 0, -1, 0⟩ : TreeNode), ⟨0, 2, 0, 40⟩, ⟨1, 2, 1, 41⟩][0]?) =
    some ⟨0, 0, -1, 0⟩ from rfl]
  dsimp only
  rw [if_neg ?hc]
  case hc =>
    rw [rdist0012]
    exact fun hcon => absurd hcon.1
      (not_le.mpr ((Real.lt_sqrt (by norm_num)).mpr (by norm_num)))

theorem rewB1b : rewireOne gB 1 ⟨1, 2, 1, 41⟩ 2
    [⟨0, 0, -1, 0⟩, ⟨0, 2, 0, 40⟩, ⟨1, 2, 1, 41⟩] 1 =
    [⟨0, 0, -1, 0⟩, ⟨0, 2, 0, 40⟩, ⟨1, 2, 1, 41⟩] := by
  unfold rewireOne
  rw [show ([(⟨0, 0, -1, 0⟩ : TreeNode), ⟨0, 2, 0, 40⟩, ⟨1, 2, 1, 41⟩][1]?) =
    some ⟨0, 2, 0, 40⟩ from rfl]
  dsimp only
  rw [if_pos ⟨by rw [rdist0212]; norm_num, by decide⟩]
  rw [if_neg ?hc]
  case hc =>
    rw [rdist1202]
    intro hcon
    rw [show (cellAt gB ((0 : ℤ), (2 : ℤ))).weight = 20 from rfl] at hcon
    norm_num at hcon

theorem rewB1 : rewireAll gB 1 ⟨1, 2, 1, 41⟩ 2
    [⟨0, 0, -1, 0⟩, ⟨0, 2, 0, 40⟩, ⟨1, 2, 1, 41⟩] =
    [⟨0, 0, -1, 0⟩, ⟨0, 2, 0, 40⟩, ⟨1, 2, 1, 41⟩] := by
  unfold rewireAll
  simp only [List.length_cons, List.length_nil,
    show (0 + 1 + 1 + 1 - 1 : ℕ) = 2 from rfl,
    show List.range 2 = [0, 1] from by decide, List.foldl_cons, List.foldl_nil]
  rw [rewB1a, rewB1b]

theorem iterB1 : rrtIter gB (0, 7) oB σB
    ⟨[⟨0, 0, -1, 0⟩, ⟨0, 2, 0, 40⟩], [(0, 0), (0, 2)], -1, 3⟩ =
    ⟨[⟨0, 0, -1, 0⟩, ⟨0, 2, 0, 40⟩, ⟨1, 2, 1, 41⟩], [(0, 0), (0, 2), (1, 2)], -1, 6⟩ := by
  unfold rrtIter
  dsimp only [oB]
  rw [if_neg (show ¬ σB 3 < 0 by norm_num [σB, List.getD])]
  rw [if_neg (show ¬ σB 3 < 0 by norm_num [σB, List.getD])]
  rw [show ((⌊σB (3 + 1) * ((gridRows gB : ℕ) : ℚ)⌋ : ℤ), (⌊σB (3 + 2) * ((gridCols gB : ℕ) : ℚ)⌋ : ℤ))
      = ((1 : ℤ), (2 : ℤ)) from by norm_num [σB, List.getD, gB, gridRows, gridCols]]
  rw [if_neg (by decide : ¬ ¬ isFree gB ((1 : ℤ), (2 : ℤ)))]
  simp only [nearB1, show ([(⟨0, 0, -1, 0⟩ : TreeNode), ⟨0, 2, 0, 40⟩].getD 1
    ⟨0, 0, -1, 0⟩) = ⟨0, 2, 0, 40⟩ from rfl]
  simp only [steer0212]
  rw [if_neg (by decide : ¬ ¬ isFree gB ((1 : ℤ), (2 : ℤ)))]
  rw [if_neg (by decide : ¬ ¬ lineFree gB ((0 : ℤ), (2 : ℤ)) ((1 : ℤ), (2 : ℤ)))]
  simp only [show (cellAt gB ((1 : ℤ), (2 : ℤ))).weight = 1 from rfl, rdist0212,
    show ((40 : ℝ) + ((1 : ℚ) : ℝ) * 1) = 41 by norm_num,
    List.singleton_append, List.cons_append, List.nil_append, List.length_cons,
    List.length_nil, Nat.cast_one,
    show (0 + 1 + 1 + 1 - 1 : ℕ) = 2 from rfl]
  simp only [rewB1]
  rw [if_neg ?hgoal]
  case hgoal =>
    rw [rdist1207]
    exact fun hcon => absurd hcon.1
      (not_le.mpr ((Real.lt_sqrt (by norm_num)).mpr (by norm_num)))

theorem rdist0100 : rdist ((0 : ℤ), (1 : ℤ)) ((0 : ℤ), (0 : ℤ)) = 1 := by
  rw [rdist_sq _ _ 1 (by decide)]; norm_num

theorem rdist0102 : rdist ((0 : ℤ), (1 : ℤ)) ((0 : ℤ), (2 : ℤ)) = 1 := by
  rw [rdist_sq _ _ 1 (by decide)]; norm_num

theorem rdist0001 : rdist ((0 : ℤ), (0 : ℤ)) ((0 : ℤ), (1 : ℤ)) = 1 := by
  rw [rdist_sq _ _ 1 (by decide)]; norm_num

theorem rdist0201 : rdist ((0 : ℤ), (2 : ℤ)) ((0 : ℤ), (1 : ℤ)) = 1 := by
  rw [rdist_sq _ _ 1 (by decide)]; norm_num

theorem rdist0112 : rdist ((0 : ℤ), (1 : ℤ)) ((1 : ℤ), (2 : ℤ)) = Real.sqrt 2 := by
  rw [rdist_eval _ _ 2 (by decide)]; norm_num

theorem rdist1201 : rdist ((1 : ℤ), (2 : ℤ)) ((0 : ℤ), (1 : ℤ)) = Real.sqrt 2 := by
  rw [rdist_eval _ _ 2 (by decide)]; norm_num

theorem rdist0107 : rdist ((0 : ℤ), (1 : ℤ)) ((0 : ℤ), (7 : ℤ)) = 6 := by
  rw [rdist_sq _ _ 6 (by decide)]; norm_num

theorem nearB2 : nearest [⟨0, 0, -1, 0⟩, ⟨0, 2, 0, 40⟩, ⟨1, 2, 1, 41⟩]
    ((0 : ℤ), (1 : ℤ)) = 0 := by
  rw [nearest_cons]
  dsimp only
  rw [nearestAux_cons]
  dsimp only
  rw [rdist0102, rdist0100, if_neg (lt_irrefl (1 : ℝ))]
  rw [nearestAux_cons]
  dsimp only
  rw [rdist0112,
    if_neg (((Real.lt_sqrt (by norm_num)).mpr (by norm_num) : (1 : ℝ) < Real.sqrt 2).asymm)]
  rw [nearestAux_nil]

theorem steer0001 : steer 2 ((0 : ℤ), (0 : ℤ)) ((0 : ℤ), (1 : ℤ)) = (0, 1) := by
  unfold steer
  rw [rdist0001]
  rw [if_pos (by norm_num : (1 : ℝ) ≤ ((2 : ℚ) : ℝ))]

theorem rewB2a : rewireOne gB 1 ⟨0, 1, 0, 1⟩ 3
    [⟨0, 0, -1, 0⟩, ⟨0, 2, 0, 40⟩, ⟨1, 2, 1, 41⟩, ⟨0, 1, 0, 1⟩] 0 =
    [⟨0, 0, -1, 0⟩, ⟨0, 2, 0, 40⟩, ⟨1, 2, 1, 41⟩, ⟨0, 1, 0, 1⟩] := by
  unfold rewireOne
  rw [show ([(⟨0, 0, -1, 0⟩ : TreeNode), ⟨0, 2, 0, 40⟩, ⟨1, 2, 1, 41⟩, ⟨0, 1, 0, 1⟩][0]?) =
    some ⟨0, 0, -1, 0⟩ from rfl]
  dsimp only
  rw [if_pos ⟨by rw [rdist0001]; norm_num, by decide⟩]
  rw [if_neg ?hc]
  case hc =>
    rw [rdist0100]
    intro hcon
    rw [show (cellAt gB ((0 : ℤ), (0 : ℤ))).weight = 1 from rfl] at hcon
    norm_num at hcon

theorem rewB2b : rewireOne gB 1 ⟨0, 1, 0, 1⟩ 3
    [⟨0, 0, -1, 0⟩, ⟨0, 2, 0, 40⟩, ⟨1, 2, 1, 41⟩, ⟨0, 1, 0, 1⟩] 1 =
    [⟨0, 0, -1, 0⟩, ⟨0, 2, 3, 21⟩, ⟨1, 2, 1, 41⟩, ⟨0, 1, 0, 1⟩] := by
  unfold rewireOne
  rw [show ([(⟨0, 0, -1, 0⟩ : TreeNode), ⟨0, 2, 0, 40⟩, ⟨1, 2, 1, 41⟩, ⟨0, 1, 0, 1⟩][1]?) =
    some ⟨0, 2, 0, 40⟩ from rfl]
  dsimp only
  rw [if_pos ⟨by rw [rdist0201]; norm_num, by decide⟩]
  rw [if_pos ?hc]
  case hc =>
    rw [rdist0102, show (cellAt gB ((0 : ℤ), (2 : ℤ))).weight = 20 from rfl]
    norm_num
  rw [show (cellAt gB ((0 : ℤ), (2 : ℤ))).weight = 20 from rfl, rdist0102]
  rw [show ((1 : ℝ) + ((20 : ℚ) : ℝ) * 1) = 21 by norm_num]
  rfl

theorem rewB2c : rewireOne gB 1 ⟨0, 1, 0, 1⟩ 3
    [⟨0, 0, -1, 0⟩, ⟨0, 2, 3, 21⟩, ⟨1, 2, 1, 41⟩, ⟨0, 1, 0, 1⟩] 2 =
    [⟨0, 0, -1, 0⟩, ⟨0, 2, 3, 21⟩, ⟨1, 2, 1, 41⟩, ⟨0, 1, 0, 1⟩] := by
  unfold rewireOne
  rw [show ([(⟨0, 0, -1, 0⟩ : TreeNode), ⟨0, 2, 3, 21⟩, ⟨1, 2, 1, 41⟩, ⟨0, 1, 0, 1⟩][2]?) =
    some ⟨1, 2, 1, 41⟩ from rfl]
  dsimp only
  rw [if_neg ?hc]
  case hc =>
    rw [rdist1201]
    exact fun hcon => absurd hcon.1
      (not_le.mpr ((Real.lt_sqrt (by norm_num)).mpr (by norm_num)))

theorem rewB2 : rewireAll gB 1 ⟨0, 1, 0, 1⟩ 3
    [⟨0, 0, -1, 0⟩, ⟨0, 2, 0, 40⟩, ⟨1, 2, 1, 41⟩, ⟨0, 1, 0, 1⟩] =
    [⟨0, 0, -1, 0⟩, ⟨0, 2, 3, 21⟩, ⟨1, 2, 1, 41⟩, ⟨0, 1, 0, 1⟩] := by
  unfold rewireAll
  simp only [List.length_cons, List.length_nil,
    show (0 + 1 + 1 + 1 + 1 - 1 : ℕ) = 3 from rfl,
    show List.range 3 = [0, 1, 2] from by decide, List.foldl_cons, List.foldl_nil]
  rw [rewB2a, rewB2b, rewB2c]

theorem iterB2 : rrtIter gB (0, 7) oB σB
    ⟨[⟨0, 0, -1, 0⟩, ⟨0, 2, 0, 40⟩, ⟨1, 2, 1, 41⟩], [(0, 0), (0, 2), (1, 2)], -1, 6⟩ =
    ⟨[⟨0, 0, -1, 0⟩, ⟨0, 2, 3, 21⟩, ⟨1, 2, 1, 41⟩, ⟨0, 1, 0, 1⟩],
      [(0, 0), (0, 2), (1, 2), (0, 1)], -1, 9⟩ := by
  unfold rrtIter
  dsimp only [oB]
  rw [if_neg (show ¬ σB 6 < 0 by norm_num [σB, List.getD])]
  rw [if_neg (show ¬ σB 6 < 0 by norm_num [σB, List.getD])]
  rw [show ((⌊σB (6 + 1) * ((gridRows gB : ℕ) : ℚ)⌋ : ℤ), (⌊σB (6 + 2) * ((gridCols gB : ℕ) : ℚ)⌋ : ℤ))
      = ((0 : ℤ), (1 : ℤ)) from by norm_num [σB, List.getD, gB, gridRows, gridCols]]
  rw [if_neg (by decide : ¬ ¬ isFree gB ((0 : ℤ), (1 : ℤ)))]
  simp only [nearB2, show ([(⟨0, 0, -1, 0⟩ : TreeNode), ⟨0, 2, 0, 40⟩, ⟨1, 2, 1, 41⟩].getD 0
    ⟨0, 0, -1, 0⟩) = ⟨0, 0, -1, 0⟩ from rfl]
  simp only [steer0001]
  rw [if_neg (by decide : ¬ ¬ isFree gB ((0 : ℤ), (1 : ℤ)))]
  rw [if_neg (by decide : ¬ ¬ lineFree gB ((0 : ℤ), (0 : ℤ)) ((0 : ℤ), (1 : ℤ)))]
  simp only [show (cellAt gB ((0 : ℤ), (1 : ℤ))).weight = 1 from rfl, rdist0001,
    show ((0 : ℝ) + ((1 : ℚ) : ℝ) * 1) = 1 by norm_num,
    List.singleton_append, List.cons_append, List.nil_append, List.length_cons,
    List.length_nil, Nat.cast_zero,
    show (0 + 1 + 1 + 1 + 1 - 1 : ℕ) = 3 from rfl]
  simp only [rewB2]
  rw [if_neg ?hgoal]
  case hgoal =>
    rw [rdist0107]
    exact fun hcon => absurd hcon.1 (by norm_num)

theorem rrtLoop_succ (g : Grid) (goal : Coord) (o : RRTOpts) (σ : ℕ → ℚ) (n : ℕ)
    (st : RState) : rrtLoop g goal o σ (n + 1) st =
      if st.goalIndex ≠ -1 then st else rrtLoop g goal o σ n (rrtIter g goal o σ st) := rfl

theorem loopB : rrtLoop gB (0, 7) oB σB oB.iterations (rrtInit (0, 0)) =
    ⟨[⟨0, 0, -1, 0⟩, ⟨0, 2, 3, 21⟩, ⟨1, 2, 1, 41⟩, ⟨0, 1, 0, 1⟩],
      [(0, 0), (0, 2), (1, 2), (0, 1)], -1, 9⟩ := by
  show rrtLoop gB (0, 7) oB σB 3 (rrtInit (0, 0)) = _
  rw [show (3 : ℕ) = 2 + 1 from by norm_num, rrtLoop_succ,
    if_neg (by decide : ¬ (rrtInit ((0 : ℤ), (0 : ℤ))).goalIndex ≠ -1)]
  rw [show rrtIter gB (0, 7) oB σB (rrtInit (0, 0)) =
    ⟨[⟨0, 0, -1, 0⟩, ⟨0, 2, 0, 40⟩], [(0, 0), (0, 2)], -1, 3⟩ from iterB0]
  rw [show (2 : ℕ) = 1 + 1 from by norm_num, rrtLoop_succ, if_neg (by decide), iterB1]
  rw [show (1 : ℕ) = 0 + 1 from by norm_num, rrtLoop_succ, if_neg (by decide), iterB2]
  rfl

theorem loopA : rrtLoop gA (0, 4) oA (fun _ => 0) oA.iterations (rrtInit (0, 0)) =
    ⟨[⟨0, 0, -1, 0⟩, ⟨0, 2, 0, 2⟩, ⟨0, 4, 1, 2⟩], [(0, 0), (0, 2)], 2, 1⟩ := by
  show rrtLoop gA (0, 4) oA (fun _ => 0) 1 (rrtInit (0, 0)) = _
  rw [show (1 : ℕ) = 0 + 1 from by norm_num, rrtLoop_succ,
    if_neg (by decide : ¬ (rrtInit ((0 : ℤ), (0 : ℤ))).goalIndex ≠ -1), iterA]
  rfl

theorem runA : runRRTStar gA (0, 0) (0, 4) oA (fun _ => 0) =
    ⟨[(0, 0), (0, 2)], [(0, 0), (0, 2), (0, 4)]⟩ := by
  unfold runRRTStar
  rw [loopA]
  rfl

/-- Equation lemma unfolding one level of `chainCost`. -/
theorem chainCost_succ (g : Grid) (ns : List TreeNode) (fuel : ℕ) (i : ℤ) :
    chainCost g ns (fuel + 1) i =
      match ns[i.toNat]? with
      | none => 0
      | some nd =>
        if nd.parent = -1 then 0
        else
          match ns[nd.parent.toNat]? with
          | none => 0
          | some pd =>
            chainCost g ns fuel nd.parent +
              ((cellAt g (nd.r, nd.c)).weight : ℝ) * rdist (pd.r, pd.c) (nd.r, nd.c) := rfl

theorem chainB : chainCost gB
    [⟨0, 0, -1, 0⟩, ⟨0, 2, 3, 21⟩, ⟨1, 2, 1, 41⟩, ⟨0, 1, 0, 1⟩] 4 2 = 22 := by
  rw [show (4 : ℕ) = 3 + 1 from by norm_num, chainCost_succ]
  rw [show ([(⟨0, 0, -1, 0⟩ : TreeNode), ⟨0, 2, 3, 21⟩, ⟨1, 2, 1, 41⟩,
    ⟨0, 1, 0, 1⟩][(2 : ℤ).toNat]?) = some ⟨1, 2, 1, 41⟩ from rfl]
  dsimp only
  rw [if_neg (by decide : ¬ (1 : ℤ) = -1)]
  rw [show ([(⟨0, 0, -1, 0⟩ : TreeNode), ⟨0, 2, 3, 21⟩, ⟨1, 2, 1, 41⟩,
    ⟨0, 1, 0, 1⟩][(1 : ℤ).toNat]?) = some ⟨0, 2, 3, 21⟩ from rfl]
  dsimp only
  rw [show (3 : ℕ) = 2 + 1 from by norm_num, chainCost_succ]
  rw [show ([(⟨0, 0, -1, 0⟩ : TreeNode), ⟨0, 2, 3, 21⟩, ⟨1, 2, 1, 41⟩,
    ⟨0, 1, 0, 1⟩][(1 : ℤ).toNat]?) = some ⟨0, 2, 3, 21⟩ from rfl]
  dsimp only
  rw [if_neg (by decide : ¬ (3 : ℤ) = -1)]
  rw [show ([(⟨0, 0, -1, 0⟩ : TreeNode), ⟨0, 2, 3, 21⟩, ⟨1, 2, 1, 41⟩,
    ⟨0, 1, 0, 1⟩][(3 : ℤ).toNat]?) = some ⟨0, 1, 0, 1⟩ from rfl]
  dsimp only
  rw [show (2 : ℕ) = 1 + 1 from by norm_num, chainCost_succ]
  rw [show ([(⟨0, 0, -1, 0⟩ : TreeNode), ⟨0, 2, 3, 21⟩, ⟨1, 2, 1, 41⟩,
    ⟨0, 1, 0, 1⟩][(3 : ℤ).toNat]?) = some ⟨0, 1, 0, 1⟩ from rfl]
  dsimp only
  rw [if_neg (by decide : ¬ (0 : ℤ) = -1)]
  rw [show ([(⟨0, 0, -1, 0⟩ : TreeNode), ⟨0, 2, 3, 21⟩, ⟨1, 2, 1, 41⟩,
    ⟨0, 1, 0, 1⟩][(0 : ℤ).toNat]?) = some ⟨0, 0, -1, 0⟩ from rfl]
  dsimp only
  rw [show (1 : ℕ) = 0 + 1 from by norm_num, chainCost_succ]
  rw [show ([(⟨0, 0, -1, 0⟩ : TreeNode), ⟨0, 2, 3, 21⟩, ⟨1, 2, 1, 41⟩,
    ⟨0, 1, 0, 1⟩][(0 : ℤ).toNat]?) = some ⟨0, 0, -1, 0⟩ from rfl]
  dsimp only
  rw [if_pos rfl]
  rw [show (cellAt gB ((0 : ℤ), (1 : ℤ))).weight = 1 from rfl,
    show (cellAt gB ((0 : ℤ), (2 : ℤ))).weight = 20 from rfl,
    show (cellAt gB ((1 : ℤ), (2 : ℤ))).weight = 1 from rfl,
    rdist0001, rdist0102, rdist0212]
  norm_num

/-- C1: the claim's adjacency half fails on RRT*: a single iteration of
scenario A returns the path [(0,0), (0,2), (0,4)], whose first step is
two cells long and adjacent under neither connectivity. -/
theorem claim_C1_counterexample :
    (runRRTStar gA (0, 0) (0, 4) oA (fun _ => 0)).path = [(0, 0), (0, 2), (0, 4)] ∧
    ¬ adjacentStep false ((0 : ℤ), (0 : ℤ)) ((0 : ℤ), (2 : ℤ)) ∧
    ¬ adjacentStep true ((0 : ℤ), (0 : ℤ)) ((0 : ℤ), (2 : ℤ)) := by
  refine ⟨?_, by decide, by decide⟩
  rw [runA]

/-- C4: the stored-cost invariant fails on the code: in scenario B a
rewire re-parents node 1 and lowers its cost without updating its child,
node 2, whose stored cost 41 differs from the accumulated cost 22 of its
parent chain. -/
theorem claim_C4_counterexample :
    (rrtLoop gB (0, 7) oB σB oB.iterations (rrtInit (0, 0))).nodes =
      [⟨0, 0, -1, 0⟩, ⟨0, 2, 3, 21⟩, ⟨1, 2, 1, 41⟩, ⟨0, 1, 0, 1⟩] ∧
    ((rrtLoop gB (0, 7) oB σB oB.iterations (rrtInit (0, 0))).nodes.getD 2
      ⟨0, 0, -1, 0⟩).cost = 41 ∧
    chainCost gB [⟨0, 0, -1, 0⟩, ⟨0, 2, 3, 21⟩, ⟨1, 2, 1, 41⟩, ⟨0, 1, 0, 1⟩] 4 2 = 22 ∧
    (41 : ℝ) ≠ 22 := by
  refine ⟨loopB ▸ rfl, ?_, chainB, by norm_num⟩
  rw [loopB]
  rfl

theorem lineWalkAux_succ (x₁ y₁ dx dy sx sy : ℤ) (fuel : ℕ) (x₀ y₀ err : ℤ) :
    lineWalkAux x₁ y₁ dx dy sx sy (fuel + 1) x₀ y₀ err =
      (x₀, y₀) ::
        (if x₀ = x₁ ∧ y₀ = y₁ then []
         else lineWalkAux x₁ y₁ dx dy sx sy fuel
           (if err * 2 > -dy then x₀ + sx else x₀)
           (if err * 2 < dx then y₀ + sy else y₀)
           (if err * 2 < dx then (if err * 2 > -dy then err - dy else err) + dx
            else (if err * 2 > -dy then err - dy else err))) := rfl

theorem lineWalkAux_spec (x₁ y₁ dx dy sx sy : ℤ) (hdx : 0 ≤ dx) (hdy : 0 ≤ dy)
    (hsx : sx = 1 ∨ sx = -1) (hsy : sy = 1 ∨ sy = -1) :
    ∀ (fuel : ℕ) (px py : ℤ), 0 ≤ px → px ≤ dx → 0 ≤ py → py ≤ dy →
      dx - px + (dy - py) < (fuel : ℤ) →
      ((lineWalkAux x₁ y₁ dx dy sx sy fuel (x₁ - (dx - px) * sx) (y₁ - (dy - py) * sy)
          (dx * (1 + py) - dy * (1 + px))).head? =
        some (x₁ - (dx - px) * sx, y₁ - (dy - py) * sy)) ∧
      ((lineWalkAux x₁ y₁ dx dy sx sy fuel (x₁ - (dx - px) * sx) (y₁ - (dy - py) * sy)
          (dx * (1 + py) - dy * (1 + px))).getLast? = some (x₁, y₁)) ∧
      List.Chain' (adjacentStep true)
        (lineWalkAux x₁ y₁ dx dy sx sy fuel (x₁ - (dx - px) * sx) (y₁ - (dy - py) * sy)
          (dx * (1 + py) - dy * (1 + px))) ∧
      (∀ p ∈ lineWalkAux x₁ y₁ dx dy sx sy fuel (x₁ - (dx - px) * sx)
          (y₁ - (dy - py) * sy) (dx * (1 + py) - dy * (1 + px)),
        ∃ qx qy : ℤ, px ≤ qx ∧ qx ≤ dx ∧ py ≤ qy ∧ qy ≤ dy ∧
          p = (x₁ - (dx - qx) * sx, y₁ - (dy - qy) * sy)) := by
  intro fuel
  induction fuel with
  | zero =>
    intro px py h0x hxd h0y hyd hfuel
    exfalso
    simp only [Nat.cast_zero] at hfuel
    omega
  | succ fuel ih =>
    intro px py h0x hxd h0y hyd hfuel
    have hsx0 : sx ≠ 0 := by rcases hsx with h | h <;> omega
    have hsy0 : sy ≠ 0 := by rcases hsy with h | h <;> omega
    rw [lineWalkAux_succ]
    by_cases hend : x₁ - (dx - px) * sx = x₁ ∧ y₁ - (dy - py) * sy = y₁
    · -- endpoint: the walk is the singleton [(x₁, y₁)]
      have hpx : px = dx := by
        have h1 : (dx - px) * sx = 0 := by omega
        rcases mul_eq_zero.mp h1 with h | h
        · omega
        · exact absurd h hsx0
      have hpy : py = dy := by
        have h1 : (dy - py) * sy = 0 := by omega
        rcases mul_eq_zero.mp h1 with h | h
        · omega
        · exact absurd h hsy0
      rw [if_pos hend]
      refine ⟨rfl, ?_, ?_, ?_⟩
      · simp only [List.getLast?_singleton, Option.some.injEq]
        exact Prod.ext hend.1 hend.2
      · exact List.chain'_singleton _
      · intro p hp
        simp only [List.mem_singleton] at hp
        exact ⟨px, py, le_refl _, hxd, le_refl _, hyd, hp⟩
    · -- interior: one error-accumulation step
      have hne : ¬ (px = dx ∧ py = dy) := by
        intro ⟨h1, h2⟩
        exact hend ⟨by rw [h1]; ring_nf, by rw [h2]; ring_nf⟩
      set e₂ := (dx * (1 + py) - dy * (1 + px)) * 2 with he2
      have hx_no : px = dx → ¬ e₂ > -dy := by
        intro hp
        have hq : py ≤ dy - 1 := by
          rcases lt_or_eq_of_le hyd with h | h
          · omega
          · exact absurd ⟨hp, h⟩ hne
        rw [he2, hp]
        nlinarith [mul_le_mul_of_nonneg_left hq (show (0:ℤ) ≤ 2 * dx by omega)]
      have hy_no : py = dy → ¬ e₂ < dx := by
        intro hq
        have hp : px ≤ dx - 1 := by
          rcases lt_or_eq_of_le hxd with h | h
          · omega
          · exact absurd ⟨h, hq⟩ hne
        rw [he2, hq]
        nlinarith [mul_le_mul_of_nonneg_left hp (show (0:ℤ) ≤ 2 * dy by omega)]
      have hprog : e₂ > -dy ∨ e₂ < dx := by
        by_contra hcon
        push_neg at hcon
        obtain ⟨h1, h2⟩ := hcon
        have hdx0 : dx = 0 ∧ dy = 0 := by omega
        exact hne ⟨by omega, by omega⟩
      rw [if_neg hend]
      by_cases hxc : e₂ > -dy <;> by_cases hyc : e₂ < dx
      · -- diagonal step
        rw [if_pos hxc, if_pos hyc, if_pos hxc, if_pos hyc]
        have ex : x₁ - (dx - px) * sx + sx = x₁ - (dx - (px + 1)) * sx := by ring
        have ey : y₁ - (dy - py) * sy + sy = y₁ - (dy - (py + 1)) * sy := by ring
        have ee : dx * (1 + py) - dy * (1 + px) - dy + dx =
            dx * (1 + (py + 1)) - dy * (1 + (px + 1)) := by ring
        rw [ex, ey, ee]
        have hpxd : px + 1 ≤ dx := by
          rcases lt_or_eq_of_le hxd with h | h
          · omega
          · exact absurd (hx_no h) (by simpa using hxc)
        have hpyd : py + 1 ≤ dy := by
          rcases lt_or_eq_of_le hyd with h | h
          · omega
          · exact absurd (hy_no h) (by simpa using hyc)
        obtain ⟨ih1, ih2, ih3, ih4⟩ := ih (px + 1) (py + 1) (by omega) hpxd (by omega)
          hpyd (by push_cast at hfuel ⊢; omega)
        rcases hl : lineWalkAux x₁ y₁ dx dy sx sy fuel (x₁ - (dx - (px + 1)) * sx)
            (y₁ - (dy - (py + 1)) * sy) (dx * (1 + (py + 1)) - dy * (1 + (px + 1))) with _ | ⟨r0, rr⟩
        · rw [hl] at ih1
          cases ih1
        rw [hl] at ih1 ih2 ih3 ih4
        refine ⟨rfl, ?_, ?_, ?_⟩
        · rw [List.getLast?_cons_cons]
          exact ih2
        · rw [List.chain'_cons']
          refine ⟨?_, ih3⟩
          intro y hy
          rw [List.head?_cons, Option.mem_some_iff] at hy
          subst hy
          have hr0 : r0 = (x₁ - (dx - (px + 1)) * sx, y₁ - (dy - (py + 1)) * sy) := by
            simpa using ih1
          rw [hr0]
          unfold adjacentStep
          dsimp only
          have h1 : x₁ - (dx - (px + 1)) * sx - (x₁ - (dx - px) * sx) = sx := by ring
          have h2 : y₁ - (dy - (py + 1)) * sy - (y₁ - (dy - py) * sy) = sy := by ring
          rw [h1, h2]
          rcases hsx with h | h <;> rcases hsy with h3 | h3 <;> rw [h, h3] <;> decide
        · intro p hp
          rcases List.mem_cons.mp hp with hp | hp
          · exact ⟨px, py, le_refl _, hxd, le_refl _, hyd, hp⟩
          · obtain ⟨qx, qy, a1, a2, a3, a4, a5⟩ := ih4 p hp
            exact ⟨qx, qy, by omega, a2, by omega, a4, a5⟩
      · -- x-only step
        rw [if_pos hxc, if_neg hyc, if_neg hyc, if_pos hxc]
        have ex : x₁ - (dx - px) * sx + sx = x₁ - (dx - (px + 1)) * sx := by ring
        have ee : dx * (1 + py) - dy * (1 + px) - dy =
            dx * (1 + py) - dy * (1 + (px + 1)) := by ring
        rw [ex, ee]
        have hpxd : px + 1 ≤ dx := by
          rcases lt_or_eq_of_le hxd with h | h
          · omega
          · exact absurd (hx_no h) (by simpa using hxc)
        obtain ⟨ih1, ih2, ih3, ih4⟩ := ih (px + 1) (py) (by omega) hpxd (by omega)
          hyd (by push_cast at hfuel ⊢; omega)
        rcases hl : lineWalkAux x₁ y₁ dx dy sx sy fuel (x₁ - (dx - (px + 1)) * sx)
            (y₁ - (dy - (py)) * sy) (dx * (1 + (py)) - dy * (1 + (px + 1))) with _ | ⟨r0, rr⟩
        · rw [hl] at ih1
          cases ih1
        rw [hl] at ih1 ih2 ih3 ih4
        refine ⟨rfl, ?_, ?_, ?_⟩
        · rw [List.getLast?_cons_cons]
          exact ih2
        · rw [List.chain'_cons']
          refine ⟨?_, ih3⟩
          intro y hy
          rw [List.head?_cons, Option.mem_some_iff] at hy
          subst hy
          have hr0 : r0 = (x₁ - (dx - (px + 1)) * sx, y₁ - (dy - (py)) * sy) := by
            simpa using ih1
          rw [hr0]
          unfold adjacentStep
          dsimp only
          have h1 : x₁ - (dx - (px + 1)) * sx - (x₁ - (dx - px) * sx) = sx := by ring
          have h2 : y₁ - (dy - (py)) * sy - (y₁ - (dy - py) * sy) = 0 := by ring
          rw [h1, h2]
          rcases hsx with h | h <;> rw [h] <;> decide
        · intro p hp
          rcases List.mem_cons.mp hp with hp | hp
          · exact ⟨px, py, le_refl _, hxd, le_refl _, hyd, hp⟩
          · obtain ⟨qx, qy, a1, a2, a3, a4, a5⟩ := ih4 p hp
            exact ⟨qx, qy, by omega, a2, a3, a4, a5⟩
      · -- y-only step
        rw [if_neg hxc, if_pos hyc, if_pos hyc, if_neg hxc]
        have ey : y₁ - (dy - py) * sy + sy = y₁ - (dy - (py + 1)) * sy := by ring
        have ee : dx * (1 + py) - dy * (1 + px) + dx =
            dx * (1 + (py + 1)) - dy * (1 + px) := by ring
        rw [ey, ee]
        have hpyd : py + 1 ≤ dy := by
          rcases lt_or_eq_of_le hyd with h | h
          · omega
          · exact absurd (hy_no h) (by simpa using hyc)
        obtain ⟨ih1, ih2, ih3, ih4⟩ := ih (px) (py + 1) (by omega) hxd (by omega)
          hpyd (by push_cast at hfuel ⊢; omega)
        rcases hl : lineWalkAux x₁ y₁ dx dy sx sy fuel (x₁ - (dx - (px)) * sx)
            (y₁ - (dy - (py + 1)) * sy) (dx * (1 + (py + 1)) - dy * (1 + (px))) with _ | ⟨r0, rr⟩
        · rw [hl] at ih1
          cases ih1
        rw [hl] at ih1 ih2 ih3 ih4
        refine ⟨rfl, ?_, ?_, ?_⟩
        · rw [List.getLast?_cons_cons]
          exact ih2
        · rw [List.chain'_cons']
          refine ⟨?_, ih3⟩
          intro y hy
          rw [List.head?_cons, Option.mem_some_iff] at hy
          subst hy
          have hr0 : r0 = (x₁ - (dx - (px)) * sx, y₁ - (dy - (py + 1)) * sy) := by
            simpa using ih1
          rw [hr0]
          unfold adjacentStep
          dsimp only
          have h1 : x₁ - (dx - (px)) * sx - (x₁ - (dx - px) * sx) = 0 := by ring
          have h2 : y₁ - (dy - (py + 1)) * sy - (y₁ - (dy - py) * sy) = sy := by ring
          rw [h1, h2]
          rcases hsy with h | h <;> rw [h] <;> decide
        · intro p hp
          rcases List.mem_cons.mp hp with hp | hp
          · exact ⟨px, py, le_refl _, hxd, le_refl _, hyd, hp⟩
          · obtain ⟨qx, qy, a1, a2, a3, a4, a5⟩ := ih4 p hp
            exact ⟨qx, qy, a1, a2, by omega, a4, a5⟩
      · -- no step: impossible off the endpoint
        exact absurd hprog (by push_neg; exact ⟨by simpa using hxc, by simpa using hyc⟩)

theorem mem_of_head?_some {α : Type} {l : List α} {x : α} (h : l.head? = some x) :
    x ∈ l := by
  cases l with
  | nil => cases h
  | cons y t =>
    rw [List.head?_cons, Option.some.injEq] at h
    rw [← h]
    exact List.mem_cons_self _ _

theorem mem_of_getLast?_some {α : Type} {l : List α} {x : α} (h : l.getLast? = some x) :
    x ∈ l := by
  induction l with
  | nil => cases h
  | cons y t ih =>
    cases t with
    | nil =>
      rw [List.getLast?_singleton, Option.some.injEq] at h
      rw [← h]
      exact List.mem_cons_self _ _
    | cons z t' =>
      rw [List.getLast?_cons_cons] at h
      exact List.mem_cons_of_mem _ (ih h)

theorem lineWalk_spec (a b : Coord) :
    (lineWalk a b).head? = some a ∧
    (lineWalk a b).getLast? = some b ∧
    List.Chain' (adjacentStep true) (lineWalk a b) ∧
    ∀ p ∈ lineWalk a b, min a.1 b.1 ≤ p.1 ∧ p.1 ≤ max a.1 b.1 ∧
      min a.2 b.2 ≤ p.2 ∧ p.2 ≤ max a.2 b.2 := by
  set dx : ℤ := ((b.1 - a.1).natAbs : ℤ) with hdxdef
  set dy : ℤ := ((b.2 - a.2).natAbs : ℤ) with hdydef
  set sx : ℤ := if a.1 < b.1 then 1 else -1 with hsxdef
  set sy : ℤ := if a.2 < b.2 then 1 else -1 with hsydef
  have hdx : (0 : ℤ) ≤ dx := Int.natCast_nonneg _
  have hdy : (0 : ℤ) ≤ dy := Int.natCast_nonneg _
  have hsx : sx = 1 ∨ sx = -1 := by rw [hsxdef]; split <;> simp
  have hsy : sy = 1 ∨ sy = -1 := by rw [hsydef]; split <;> simp
  have hb1 : b.1 - (dx - 0) * sx = a.1 := by
    rw [hsxdef, hdxdef]
    by_cases h : a.1 < b.1
    · rw [if_pos h, Int.natAbs_of_nonneg (by omega)]
      ring
    · rw [if_neg h, Int.ofNat_natAbs_of_nonpos (by omega)]
      ring
  have hb2 : b.2 - (dy - 0) * sy = a.2 := by
    rw [hsydef, hdydef]
    by_cases h : a.2 < b.2
    · rw [if_pos h, Int.natAbs_of_nonneg (by omega)]
      ring
    · rw [if_neg h, Int.ofNat_natAbs_of_nonpos (by omega)]
      ring
  have herr : dx * (1 + 0) - dy * (1 + 0) = dx - dy := by ring
  have hfuel : dx - 0 + (dy - 0) < ((dx.toNat + dy.toNat + 1 : ℕ) : ℤ) := by
    push_cast
    rw [Int.toNat_of_nonneg hdx, Int.toNat_of_nonneg hdy]
    omega
  obtain ⟨S1, S2, S3, S4⟩ := lineWalkAux_spec b.1 b.2 dx dy sx sy hdx hdy hsx hsy
    (dx.toNat + dy.toNat + 1) 0 0 le_rfl hdx le_rfl hdy hfuel
  rw [hb1, hb2, herr] at S1 S2 S3 S4
  have hw : lineWalk a b =
      lineWalkAux b.1 b.2 dx dy sx sy (dx.toNat + dy.toNat + 1) a.1 a.2 (dx - dy) := rfl
  rw [hw]
  refine ⟨by rw [S1], by rw [S2], S3, ?_⟩
  intro p hp
  obtain ⟨qx, qy, h1, h2, h3, h4, h5⟩ := S4 p hp
  have hpx : p.1 = a.1 + qx * sx := by
    rw [h5]
    dsimp only
    rw [← hb1]
    ring
  have hpy : p.2 = a.2 + qy * sy := by
    rw [h5]
    dsimp only
    rw [← hb2]
    ring
  have hbx : b.1 = a.1 + dx * sx := by
    rw [← hb1]
    ring
  have hby : b.2 = a.2 + dy * sy := by
    rw [← hb2]
    ring
  rcases hsx with h | h <;> rcases hsy with h' | h' <;>
    rw [h] at hpx hbx <;> rw [h'] at hpy hby <;>
    refine ⟨by omega, by omega, by omega, by omega⟩

theorem lineFree_endpoints {g : Grid} {a b : Coord} (h : lineFree g a b) :
    isFree g a ∧ isFree g b :=
  ⟨h a (mem_of_head?_some (lineWalk_spec a b).1),
   h b (mem_of_getLast?_some (lineWalk_spec a b).2.1)⟩

/-- C8: the collision test is the discrete error-accumulation line walk:
the walked cells start at the nearest node's cell, end at the new point,
advance by single 8-neighbour steps (no cell along the discretised
segment is skipped), stay inside the bounding box of the segment, and
`lineFree` rejects exactly when some walked cell (the new point's own
cell included) is occupied or out of bounds. -/
theorem claim_C8 (g : Grid) (a b : Coord) :
    (lineWalk a b).head? = some a ∧
    (lineWalk a b).getLast? = some b ∧
    List.Chain' (adjacentStep true) (lineWalk a b) ∧
    (∀ p ∈ lineWalk a b, min a.1 b.1 ≤ p.1 ∧ p.1 ≤ max a.1 b.1 ∧
      min a.2 b.2 ≤ p.2 ∧ p.2 ≤ max a.2 b.2) ∧
    (lineFree g a b ↔ ∀ p ∈ lineWalk a b, isFree g p) ∧
    (¬ lineFree g a b ↔ ∃ p ∈ lineWalk a b, ¬ isFree g p) ∧
    (lineFree g a b → isFree g a ∧ isFree g b) := by
  obtain ⟨S1, S2, S3, S4⟩ := lineWalk_spec a b
  refine ⟨S1, S2, S3, S4, Iff.rfl, ?_, fun h => lineFree_endpoints h⟩
  constructor
  · intro h
    by_contra hcon
    push_neg at hcon
    exact h fun p hp => hcon p hp
  · intro ⟨p, hp, hfp⟩ h
    exact hfp (h p hp)

/-! ## RRT* tree invariants: acyclicity and cost monotonicity -/

theorem rdist_nonneg (a b : Coord) : 0 ≤ rdist a b := Real.sqrt_nonneg _

theorem mem_of_getElem?_some {α : Type} {l : List α} {n : ℕ} {x : α}
    (h : l[n]? = some x) : x ∈ l := by
  induction l generalizing n with
  | nil => cases h
  | cons y t ih =>
    cases n with
    | zero =>
      rw [List.getElem?_cons_zero, Option.some.injEq] at h
      rw [← h]
      exact List.mem_cons_self _ _
    | succ n =>
      rw [List.getElem?_cons_succ] at h
      exact List.mem_cons_of_mem _ (ih h)

theorem getD_eq_of_getElem?_some {α : Type} {l : List α} {n : ℕ} {x : α} (d : α)
    (h : l[n]? = some x) : l.getD n d = x := by
  rw [List.getD_eq_getElem?_getD, h]
  rfl

theorem nearestAux_lt (pt : Coord) : ∀ (t : List TreeNode) (i best : ℕ) (bD : ℝ),
    best < i → nearestAux pt t i best bD < i + t.length := by
  intro t
  induction t with
  | nil =>
    intro i best bD h
    unfold nearestAux
    simpa using h
  | cons nd t ih =>
    intro i best bD h
    unfold nearestAux
    dsimp only
    by_cases hc : rdist pt (nd.r, nd.c) < bD
    · rw [if_pos hc]
      have := ih (i + 1) i (rdist pt (nd.r, nd.c)) (by omega)
      simp only [List.length_cons]
      omega
    · rw [if_neg hc]
      have := ih (i + 1) best bD (by omega)
      simp only [List.length_cons]
      omega

theorem nearest_lt_length {nodes : List TreeNode} (pt : Coord) (h : nodes ≠ []) :
    nearest nodes pt < nodes.length := by
  cases nodes with
  | nil => exact absurd rfl h
  | cons nd t =>
    unfold nearest
    have := nearestAux_lt pt t 1 0 (rdist pt (nd.r, nd.c)) (by omega)
    simp only [List.length_cons]
    omega

theorem onChain_cases {ns : List TreeNode} {jz iz : ℤ} (h : OnChain ns jz iz) :
    iz = jz ∨ (0 ≤ iz ∧ ∃ nd, ns[iz.toNat]? = some nd ∧ OnChain ns jz nd.parent) := by
  cases h with
  | here => exact Or.inl rfl
  | step i nd h1 h2 h3 => exact Or.inr ⟨h2, nd, h1, h3⟩

/-- Along a parent chain the stored costs are monotone, by `CostMono`. -/
theorem onChain_cost {ns : List TreeNode} (hcm : CostMono ns) {jz iz : ℤ}
    (hoc : OnChain ns jz iz) (hj : 0 ≤ jz) :
    ∀ ndj ndi, ns[jz.toNat]? = some ndj → ns[iz.toNat]? = some ndi →
      ndj.cost ≤ ndi.cost := by
  induction hoc with
  | here =>
    intro ndj ndi h1 h2
    rw [h1, Option.some.injEq] at h2
    rw [h2]
  | step i nd h hi hchain ih =>
    intro ndj ndi h1 h2
    rw [h, Option.some.injEq] at h2
    by_cases hpar : nd.parent = -1
    · rw [hpar] at hchain
      rcases onChain_cases hchain with he | ⟨hge, -⟩
      · omega
      · omega
    · obtain ⟨hp0, pd, hpd, hple⟩ := hcm i.toNat nd h hpar
      calc ndj.cost ≤ pd.cost := ih ndj pd h1 hpd
        _ ≤ nd.cost := hple
        _ = ndi.cost := by rw [h2]

/-- A chain that avoids the overwritten index survives a `set`. -/
theorem reaches_of_avoid_set {ns : List TreeNode} {j : ℕ} {nnew : TreeNode} {i : ℤ}
    (hre : Reaches ns i) : ¬ OnChain ns (j : ℤ) i → Reaches (ns.set j nnew) i := by
  induction hre with
  | root => intro h; exact Reaches.root
  | step i nd h hi hrec ih =>
    intro havoid
    have hij : i.toNat ≠ j := by
      intro he
      apply havoid
      have hi' : i = (j : ℤ) := by omega
      rw [hi']
      exact OnChain.here
    have h' : (ns.set j nnew)[i.toNat]? = some nd := by
      rw [List.getElem?_set]
      rw [if_neg (fun he => hij he.symm)]
      exact h
    refine Reaches.step i nd h' hi (ih ?_)
    intro hoc
    exact havoid (OnChain.step i nd h hi hoc)

/-- If the overwritten node's new parent reaches the root in the updated
arena, every chain of the old arena still reaches the root. -/
theorem reaches_set {ns : List TreeNode} {j : ℕ} {nnew : TreeNode}
    (hnewp : Reaches (ns.set j nnew) nnew.parent) {i : ℤ} (hre : Reaches ns i) :
    Reaches (ns.set j nnew) i := by
  induction hre with
  | root => exact Reaches.root
  | step i nd h hi hrec ih =>
    by_cases hij : i.toNat = j
    · obtain ⟨hlen, -⟩ := List.getElem?_eq_some.mp h
      have h' : (ns.set j nnew)[i.toNat]? = some nnew := by
        rw [List.getElem?_set, if_pos hij.symm, if_pos (hij ▸ hlen)]
      exact Reaches.step i nnew h' hi hnewp
    · have h' : (ns.set j nnew)[i.toNat]? = some nd := by
        rw [List.getElem?_set, if_neg (fun he => hij he.symm)]
        exact h
      exact Reaches.step i nd h' hi ih

theorem reaches_append {ns l : List TreeNode} {i : ℤ} (h : Reaches ns i) :
    Reaches (ns ++ l) i := by
  induction h with
  | root => exact Reaches.root
  | step i nd h hi hrec ih =>
    obtain ⟨hlen, -⟩ := List.getElem?_eq_some.mp h
    refine Reaches.step i nd ?_ hi ih
    rw [List.getElem?_append, if_pos hlen]
    exact h

theorem reachesAll_append {ns : List TreeNode} {nd : TreeNode}
    (hra : ∀ i : ℕ, i < ns.length → Reaches ns (i : ℤ)) (hpar : Reaches ns nd.parent) :
    ∀ i : ℕ, i < (ns ++ [nd]).length → Reaches (ns ++ [nd]) (i : ℤ) := by
  intro i hi
  rw [List.length_append, List.length_cons, List.length_nil] at hi
  rcases lt_or_eq_of_le (Nat.lt_succ_iff.mp hi) with h | h
  · exact reaches_append (hra i h)
  · refine Reaches.step (i : ℤ) nd ?_ (Int.natCast_nonneg _) (reaches_append hpar)
    have ht : (i : ℤ).toNat = ns.length := by omega
    rw [ht, List.getElem?_append, if_neg (lt_irrefl _), Nat.sub_self]
    rfl

theorem costMono_append {ns : List TreeNode} {nd : TreeNode} (hcm : CostMono ns)
    (hp : nd.parent ≠ -1 →
      0 ≤ nd.parent ∧ ∃ pd, ns[nd.parent.toNat]? = some pd ∧ pd.cost ≤ nd.cost) :
    CostMono (ns ++ [nd]) := by
  intro i nd' hnd' hpar
  rcases Nat.lt_or_ge i ns.length with h | h
  · rw [List.getElem?_append, if_pos h] at hnd'
    obtain ⟨hp0, pd, hpd, hple⟩ := hcm i nd' hnd' hpar
    obtain ⟨hplen, -⟩ := List.getElem?_eq_some.mp hpd
    refine ⟨hp0, pd, ?_, hple⟩
    rw [List.getElem?_append, if_pos hplen]
    exact hpd
  · rw [List.getElem?_append, if_neg (by omega)] at hnd'
    have hi : i = ns.length := by
      by_contra hcon
      rw [show i - ns.length = (i - ns.length - 1) + 1 by omega,
        List.getElem?_cons_succ] at hnd'
      simp at hnd'
    rw [hi, Nat.sub_self, List.getElem?_cons_zero, Option.some.injEq] at hnd'
    subst hnd'
    obtain ⟨hp0, pd, hpd, hple⟩ := hp hpar
    obtain ⟨hplen, -⟩ := List.getElem?_eq_some.mp hpd
    refine ⟨hp0, pd, ?_, hple⟩
    rw [List.getElem?_append, if_pos hplen]
    exact hpd

/-- One rewire step preserves cost monotonicity, root reachability, the
new node's slot and the arena length.  The heart is that a rewire can
never re-parent an ancestor of the new node onto it: the candidate cost
`alt` is at least the new node's cost, which by cost monotonicity is at
least the ancestor's, so the `alt < cost` test fails. -/
theorem rewireOne_inv (g : Grid) (radius : ℚ) (node : TreeNode) (newIndex : ℕ)
    (hw : WeightsNonneg g) (ns : List TreeNode) (j : ℕ) (hj : j < newIndex)
    (hcm : CostMono ns) (hra : ∀ i : ℕ, i < ns.length → Reaches ns (i : ℤ))
    (hnode : ns[newIndex]? = some node) :
    CostMono (rewireOne g radius node newIndex ns j) ∧
    (∀ i : ℕ, i < (rewireOne g radius node newIndex ns j).length →
      Reaches (rewireOne g radius node newIndex ns j) (i : ℤ)) ∧
    (rewireOne g radius node newIndex ns j)[newIndex]? = some node ∧
    (rewireOne g radius node newIndex ns j).length = ns.length := by
  unfold rewireOne
  rcases hns : ns[j]? with _ | nbh
  · exact ⟨hcm, hra, hnode, rfl⟩
  dsimp only
  by_cases hc1 : rdist (nbh.r, nbh.c) (node.r, node.c) ≤ (radius : ℝ) ∧
      lineFree g (node.r, node.c) (nbh.r, nbh.c)
  case neg =>
    rw [if_neg hc1]
    exact ⟨hcm, hra, hnode, rfl⟩
  rw [if_pos hc1]
  by_cases hc2 : node.cost + ((cellAt g (nbh.r, nbh.c)).weight : ℝ) *
      rdist (node.r, node.c) (nbh.r, nbh.c) < nbh.cost
  case neg =>
    rw [if_neg hc2]
    exact ⟨hcm, hra, hnode, rfl⟩
  rw [if_pos hc2]
  obtain ⟨hjlen, -⟩ := List.getElem?_eq_some.mp hns
  obtain ⟨hnlen, -⟩ := List.getElem?_eq_some.mp hnode
  have halt_ge : node.cost ≤ node.cost + ((cellAt g (nbh.r, nbh.c)).weight : ℝ) *
      rdist (node.r, node.c) (nbh.r, nbh.c) := by
    have h1 : (0 : ℝ) ≤ ((cellAt g (nbh.r, nbh.c)).weight : ℝ) := by
      exact_mod_cast hw (nbh.r, nbh.c)
    have h2 := rdist_nonneg (node.r, node.c) (nbh.r, nbh.c)
    nlinarith
  have hnoc : ¬ OnChain ns (j : ℤ) (newIndex : ℤ) := by
    intro hoc
    have hmono := onChain_cost hcm hoc (Int.natCast_nonneg j) nbh node
      (by rw [Int.toNat_natCast]; exact hns) (by rw [Int.toNat_natCast]; exact hnode)
    linarith
  have hreNew : Reaches (ns.set j ⟨nbh.r, nbh.c, (newIndex : ℤ),
      node.cost + ((cellAt g (nbh.r, nbh.c)).weight : ℝ) *
        rdist (node.r, node.c) (nbh.r, nbh.c)⟩) (newIndex : ℤ) :=
    reaches_of_avoid_set (hra newIndex hnlen) hnoc
  refine ⟨?_, ?_, ?_, List.length_set ns j _⟩
  · -- cost monotonicity
    intro i nd' hnd' hpar
    by_cases hij : i = j
    · subst hij
      rw [List.getElem?_set, if_pos rfl, if_pos hjlen, Option.some.injEq] at hnd'
      subst hnd'
      refine ⟨Int.natCast_nonneg _, node, ?_, halt_ge⟩
      rw [Int.toNat_natCast, List.getElem?_set, if_neg (by omega)]
      exact hnode
    · rw [List.getElem?_set, if_neg (fun he => hij he.symm)] at hnd'
      obtain ⟨hp0, pd, hpd, hple⟩ := hcm i nd' hnd' hpar
      by_cases hpj : nd'.parent.toNat = j
      · have hpdv : pd = nbh := by
          rw [hpj, hns, Option.some.injEq] at hpd
          exact hpd.symm
        refine ⟨hp0, ⟨nbh.r, nbh.c, (newIndex : ℤ),
            node.cost + ((cellAt g (nbh.r, nbh.c)).weight : ℝ) *
              rdist (node.r, node.c) (nbh.r, nbh.c)⟩, ?_, ?_⟩
        · rw [hpj, List.getElem?_set, if_pos rfl, if_pos hjlen]
        · dsimp only
          rw [hpdv] at hple
          linarith
      · refine ⟨hp0, pd, ?_, hple⟩
        rw [List.getElem?_set, if_neg (fun he => hpj he.symm)]
        exact hpd
  · -- reachability
    intro i hi
    rw [List.length_set] at hi
    exact reaches_set hreNew (hra i hi)
  · -- the new node is untouched
    rw [List.getElem?_set, if_neg (by omega)]
    exact hnode

/-- The rewire pass preserves the tree invariant. -/
theorem rewireAll_inv (g : Grid) (radius : ℚ) (node : TreeNode)
    (ns : List TreeNode) (hw : WeightsNonneg g)
    (hcm : CostMono ns) (hra : ∀ i : ℕ, i < ns.length → Reaches ns (i : ℤ))
    (hnode : ns[ns.length - 1]? = some node) :
    CostMono (rewireAll g radius node (ns.length - 1) ns) ∧
    (∀ i : ℕ, i < (rewireAll g radius node (ns.length - 1) ns).length →
      Reaches (rewireAll g radius node (ns.length - 1) ns) (i : ℤ)) ∧
    (rewireAll g radius node (ns.length - 1) ns)[ns.length - 1]? = some node ∧
    (rewireAll g radius node (ns.length - 1) ns).length = ns.length := by
  unfold rewireAll
  refine foldl_inv (fun acc => CostMono acc ∧
    (∀ i : ℕ, i < acc.length → Reaches acc (i : ℤ)) ∧
    acc[ns.length - 1]? = some node ∧ acc.length = ns.length) _ _ _
    ⟨hcm, hra, hnode, rfl⟩ ?_
  intro acc x hx ⟨acm, ara, anode, alen⟩
  have hxlt : x < ns.length - 1 := List.mem_range.mp hx
  have := rewireOne_inv g radius node (ns.length - 1) hw acc x hxlt acm ara anode
  obtain ⟨c1, c2, c3, c4⟩ := this
  exact ⟨c1, c2, c3, by rw [c4, alen]⟩

theorem mem_set_cases {α : Type} {l : List α} {n : ℕ} {a x : α} (h : x ∈ l.set n a) :
    x ∈ l ∨ x = a := by
  induction l generalizing n with
  | nil => cases h
  | cons y t ih =>
    cases n with
    | zero =>
      rw [List.set_cons_zero] at h
      rcases List.mem_cons.mp h with h | h
      · exact Or.inr h
      · exact Or.inl (List.mem_cons_of_mem _ h)
    | succ n =>
      rw [List.set_cons_succ] at h
      rcases List.mem_cons.mp h with h | h
      · exact Or.inl (h ▸ List.mem_cons_self _ _)
      · rcases ih h with h | h
        · exact Or.inl (List.mem_cons_of_mem _ h)
        · exact Or.inr h

theorem getElem?_eq_getD {α : Type} {l : List α} {n : ℕ} (d : α) (h : n < l.length) :
    l[n]? = some (l.getD n d) := by
  rw [List.getElem?_eq_getElem h, List.getD_eq_getElem?_getD, List.getElem?_eq_getElem h]
  rfl

/-- A rewire step only moves coordinates that already sit in the arena. -/
theorem rewireOne_coords (g : Grid) (radius : ℚ) (node : TreeNode) (newIndex : ℕ)
    (ns : List TreeNode) (j : ℕ) :
    ∀ x ∈ rewireOne g radius node newIndex ns j, ∃ y ∈ ns, x.r = y.r ∧ x.c = y.c := by
  unfold rewireOne
  rcases hns : ns[j]? with _ | nbh
  · exact fun x hx => ⟨x, hx, rfl, rfl⟩
  dsimp only
  split
  · split
    · intro x hx
      rcases mem_set_cases hx with h | h
      · exact ⟨x, h, rfl, rfl⟩
      · exact ⟨nbh, mem_of_getElem?_some hns, by rw [h], by rw [h]⟩
    · exact fun x hx => ⟨x, hx, rfl, rfl⟩
  · exact fun x hx => ⟨x, hx, rfl, rfl⟩

theorem rewireAll_coords (g : Grid) (radius : ℚ) (node : TreeNode) (newIndex : ℕ)
    (ns : List TreeNode) :
    ∀ x ∈ rewireAll g radius node newIndex ns, ∃ y ∈ ns, x.r = y.r ∧ x.c = y.c := by
  unfold rewireAll
  refine foldl_inv (fun acc => ∀ x ∈ acc, ∃ y ∈ ns, x.r = y.r ∧ x.c = y.c) _ _ _
    (fun x hx => ⟨x, hx, rfl, rfl⟩) ?_
  intro acc k hk hacc x hx
  obtain ⟨y, hy, h1, h2⟩ := rewireOne_coords g radius node newIndex acc k x hx
  obtain ⟨z, hz, h3, h4⟩ := hacc y hy
  exact ⟨z, hz, by rw [h1, h3], by rw [h2, h4]⟩

/-- Every cell the parent walk collects is a tree-node cell. -/
theorem parentWalk_mem (ns : List TreeNode) : ∀ (fuel : ℕ) (cur : ℤ) (acc : List Coord),
    ∀ p ∈ parentWalk ns fuel cur acc, p ∈ acc ∨ ∃ nd ∈ ns, p = (nd.r, nd.c) := by
  intro fuel
  induction fuel with
  | zero => exact fun cur acc p hp => Or.inl hp
  | succ fuel ih =>
    intro cur acc p hp
    unfold parentWalk at hp
    by_cases hc : cur = -1
    · rw [if_pos hc] at hp
      exact Or.inl hp
    rw [if_neg hc] at hp
    rcases hcur : ns[cur.toNat]? with _ | nd
    · rw [hcur] at hp
      exact Or.inl hp
    rw [hcur] at hp
    dsimp only at hp
    rcases ih nd.parent (acc ++ [(nd.r, nd.c)]) p hp with h | h
    · rcases List.mem_append.mp h with h | h
      · exact Or.inl h
      · rcases List.mem_singleton.mp h with rfl
        exact Or.inr ⟨nd, mem_of_getElem?_some hcur, rfl⟩
    · exact Or.inr h

/-- An iteration only adds nodes on free cells (the root possibly
excepted): the sampled point, the steered point and the goal connection
are all collision-checked before insertion. -/
theorem rrtIter_free (g : Grid) (goal : Coord) (o : RRTOpts) (σ : ℕ → ℚ) (st : RState)
    (s : Coord) (hfree : NodesFree g s st.nodes) :
    NodesFree g s (rrtIter g goal o σ st).nodes := by
  unfold rrtIter
  dsimp only
  split
  all_goals
    split
    case isTrue => exact hfree
    case isFalse hsm =>
      split
      case isTrue => exact hfree
      case isFalse hnp =>
        split
        case isTrue => exact hfree
        case isFalse hlf =>
          split
          case isTrue hgc =>
            intro x hx
            dsimp only at hx
            rcases List.mem_append.mp hx with hx | hx
            · obtain ⟨y, hy, h1, h2⟩ := rewireAll_coords _ _ _ _ _ x hx
              rcases List.mem_append.mp hy with hy | hy
              · rw [show ((x.r, x.c) : Coord) = (y.r, y.c) from by rw [h1, h2]]
                exact hfree y hy
              · rw [List.mem_singleton] at hy
                rw [show ((x.r, x.c) : Coord) = (y.r, y.c) from by rw [h1, h2], hy]
                exact Or.inl (not_not.mp hnp)
            · rw [List.mem_singleton] at hx
              rw [hx]
              exact Or.inl (lineFree_endpoints hgc.2).2
          case isFalse hgc =>
            intro x hx
            dsimp only at hx
            obtain ⟨y, hy, h1, h2⟩ := rewireAll_coords _ _ _ _ _ x hx
            rcases List.mem_append.mp hy with hy | hy
            · rw [show ((x.r, x.c) : Coord) = (y.r, y.c) from by rw [h1, h2]]
              exact hfree y hy
            · rw [List.mem_singleton] at hy
              rw [show ((x.r, x.c) : Coord) = (y.r, y.c) from by rw [h1, h2], hy]
              exact Or.inl (not_not.mp hnp)

theorem getElem?_append_last {α : Type} (l : List α) (a : α) :
    (l ++ [a])[(l ++ [a]).length - 1]? = some a := by
  rw [List.length_append, List.length_cons, List.length_nil,
    show l.length + (0 + 1) - 1 = l.length by omega,
    List.getElem?_append, if_neg (lt_irrefl _), Nat.sub_self]
  rfl

/-- The body of one iteration after the sample has been drawn preserves
the tree invariant, for any sample. -/
theorem rrtIter_aux_inv (g : Grid) (goal sample : Coord) (o : RRTOpts) (st : RState)
    (r : ℕ) (hw : WeightsNonneg g) (hne : st.nodes ≠ []) (hcm : CostMono st.nodes)
    (hra : ∀ i : ℕ, i < st.nodes.length → Reaches st.nodes (i : ℤ)) :
    TreeOk (if ¬ isFree g sample then { st with rnd := r }
      else
        let ni := nearest st.nodes sample
        let niNode := st.nodes.getD ni (⟨0, 0, -1, 0⟩ : TreeNode)
        let newPt := steer o.step (niNode.r, niNode.c) sample
        if ¬ isFree g newPt then { st with rnd := r }
        else if ¬ lineFree g (niNode.r, niNode.c) newPt then { st with rnd := r }
        else
          let w := (cellAt g newPt).weight
          let newCost := niNode.cost + (w : ℝ) * rdist (niNode.r, niNode.c) newPt
          let node : TreeNode := ⟨newPt.1, newPt.2, (ni : ℤ), newCost⟩
          let nodes₁ := st.nodes ++ [node]
          let newIndex := nodes₁.length - 1
          let visited₁ := st.visited ++ [newPt]
          let nodes₂ := rewireAll g o.radius node newIndex nodes₁
          if rdist (node.r, node.c) goal ≤ (o.step : ℝ) ∧
              lineFree g (node.r, node.c) goal then
            { nodes := nodes₂ ++ [(⟨goal.1, goal.2, (newIndex : ℤ), node.cost⟩ : TreeNode)],
              visited := visited₁, goalIndex := (nodes₂.length : ℤ), rnd := r }
          else
            { nodes := nodes₂, visited := visited₁, goalIndex := st.goalIndex, rnd := r }).nodes ∧
    (if ¬ isFree g sample then { st with rnd := r }
      else
        let ni := nearest st.nodes sample
        let niNode := st.nodes.getD ni (⟨0, 0, -1, 0⟩ : TreeNode)
        let newPt := steer o.step (niNode.r, niNode.c) sample
        if ¬ isFree g newPt then { st with rnd := r }
        else if ¬ lineFree g (niNode.r, niNode.c) newPt then { st with rnd := r }
        else
          let w := (cellAt g newPt).weight
          let newCost := niNode.cost + (w : ℝ) * rdist (niNode.r, niNode.c) newPt
          let node : TreeNode := ⟨newPt.1, newPt.2, (ni : ℤ), newCost⟩
          let nodes₁ := st.nodes ++ [node]
          let newIndex := nodes₁.length - 1
          let visited₁ := st.visited ++ [newPt]
          let nodes₂ := rewireAll g o.radius node newIndex nodes₁
          if rdist (node.r, node.c) goal ≤ (o.step : ℝ) ∧
              lineFree g (node.r, node.c) goal then
            { nodes := nodes₂ ++ [(⟨goal.1, goal.2, (newIndex : ℤ), node.cost⟩ : TreeNode)],
              visited := visited₁, goalIndex := (nodes₂.length : ℤ), rnd := r }
          else
            { nodes := nodes₂, visited := visited₁, goalIndex := st.goalIndex, rnd := r }).nodes ≠ [] := by
  by_cases h1 : ¬ isFree g sample
  · rw [if_pos h1]
    exact ⟨⟨hcm, hra⟩, hne⟩
  rw [if_neg h1]
  dsimp only
  set ni := nearest st.nodes sample with hnidef
  set niNode := st.nodes.getD ni ⟨0, 0, -1, 0⟩ with hniNdef
  set newPt := steer o.step (niNode.r, niNode.c) sample with hnpdef
  by_cases h2 : ¬ isFree g newPt
  · rw [if_pos h2]
    exact ⟨⟨hcm, hra⟩, hne⟩
  rw [if_neg h2]
  by_cases h3 : ¬ lineFree g (niNode.r, niNode.c) newPt
  · rw [if_pos h3]
    exact ⟨⟨hcm, hra⟩, hne⟩
  rw [if_neg h3]
  set node : TreeNode := ⟨newPt.1, newPt.2, (ni : ℤ),
    niNode.cost + ((cellAt g newPt).weight : ℝ) * rdist (niNode.r, niNode.c) newPt⟩
    with hnodedef
  set nodes₁ := st.nodes ++ [node] with h1def
  have hnilt : ni < st.nodes.length := by
    rw [hnidef]
    exact nearest_lt_length sample hne
  have hniN : st.nodes[ni]? = some niNode := by
    rw [hniNdef]
    exact getElem?_eq_getD _ hnilt
  have hcost : niNode.cost ≤ node.cost := by
    rw [hnodedef]
    dsimp only
    nlinarith [show (0 : ℝ) ≤ ((cellAt g newPt).weight : ℝ) from by exact_mod_cast hw newPt,
      rdist_nonneg (niNode.r, niNode.c) newPt]
  have hparfact : node.parent ≠ -1 →
      0 ≤ node.parent ∧ ∃ pd, st.nodes[node.parent.toNat]? = some pd ∧
        pd.cost ≤ node.cost := by
    intro hp
    refine ⟨by rw [hnodedef]; exact Int.natCast_nonneg _, niNode, ?_, hcost⟩
    rw [hnodedef]
    dsimp only
    rw [Int.toNat_natCast]
    exact hniN
  have hcm1 : CostMono nodes₁ := by
    rw [h1def]
    exact costMono_append hcm hparfact
  have hre1 : Reaches st.nodes node.parent := by
    rw [hnodedef]
    dsimp only
    exact hra ni hnilt
  have hra1 : ∀ i : ℕ, i < nodes₁.length → Reaches nodes₁ (i : ℤ) := by
    rw [h1def]
    exact reachesAll_append hra hre1
  have hnode1 : nodes₁[nodes₁.length - 1]? = some node := by
    rw [h1def]
    exact getElem?_append_last _ _
  obtain ⟨c1, c2, c3, c4⟩ := rewireAll_inv g o.radius node nodes₁ hw hcm1 hra1 hnode1
  have hlen1 : nodes₁.length = st.nodes.length + 1 := by
    rw [h1def]
    simp
  by_cases hgc : rdist (node.r, node.c) goal ≤ ((o.step : ℚ) : ℝ) ∧
      lineFree g (node.r, node.c) goal
  · rw [if_pos hgc]
    dsimp only
    refine ⟨⟨costMono_append c1 (fun _ => ⟨Int.natCast_nonneg _, node, ?_, le_refl _⟩),
      reachesAll_append c2 ?_⟩, by simp⟩
    · dsimp only
      rw [Int.toNat_natCast]
      exact c3
    · show Reaches (rewireAll g o.radius node (nodes₁.length - 1) nodes₁)
        ((nodes₁.length - 1 : ℕ) : ℤ)
      refine c2 _ ?_
      rw [c4]
      omega
  · rw [if_neg hgc]
    refine ⟨⟨c1, c2⟩, ?_⟩
    refine List.length_pos.mp ?_
    rw [c4, hlen1]
    omega

/-- An iteration preserves the acyclicity-and-cost invariant of the node
arena, given non-negative weights. -/
theorem rrtIter_inv (g : Grid) (goal : Coord) (o : RRTOpts) (σ : ℕ → ℚ) (st : RState)
    (hw : WeightsNonneg g) (hne : st.nodes ≠ []) (hok : TreeOk st.nodes) :
    TreeOk (rrtIter g goal o σ st).nodes ∧ (rrtIter g goal o σ st).nodes ≠ [] := by
  obtain ⟨hcm, hra⟩ := hok
  unfold rrtIter
  dsimp only
  split
  · exact rrtIter_aux_inv g goal goal o st (st.rnd + 1) hw hne hcm hra
  · exact rrtIter_aux_inv g goal
      (⌊σ (st.rnd + 1) * (gridRows g : ℚ)⌋, ⌊σ (st.rnd + 2) * (gridCols g : ℚ)⌋)
      o st (st.rnd + 3) hw hne hcm hra

theorem rrtInit_ok (s : Coord) : TreeOk (rrtInit s).nodes ∧ (rrtInit s).nodes ≠ [] := by
  refine ⟨⟨?_, ?_⟩, by simp [rrtInit]⟩
  · intro i nd h hpar
    cases i with
    | zero =>
      rw [show (rrtInit s).nodes[0]? = some ⟨s.1, s.2, -1, 0⟩ from rfl,
        Option.some.injEq] at h
      rw [← h] at hpar
      exact absurd rfl hpar
    | succ i => cases h
  · intro i hi
    simp only [rrtInit, List.length_cons, List.length_nil] at hi
    have hi0 : i = 0 := by omega
    subst hi0
    refine Reaches.step 0 ⟨s.1, s.2, -1, 0⟩ rfl le_rfl ?_
    exact Reaches.root

theorem rrtLoop_inv (g : Grid) (goal : Coord) (o : RRTOpts) (σ : ℕ → ℚ)
    (hw : WeightsNonneg g) : ∀ (n : ℕ) (st : RState), st.nodes ≠ [] → TreeOk st.nodes →
    TreeOk (rrtLoop g goal o σ n st).nodes ∧ (rrtLoop g goal o σ n st).nodes ≠ [] := by
  intro n
  induction n with
  | zero => exact fun st hne hok => ⟨hok, hne⟩
  | succ n ih =>
    intro st hne hok
    rw [rrtLoop_succ]
    by_cases hgi : st.goalIndex ≠ -1
    · rw [if_pos hgi]
      exact ⟨hok, hne⟩
    · rw [if_neg hgi]
      obtain ⟨h1, h2⟩ := rrtIter_inv g goal o σ st hw hne hok
      exact ih _ h2 h1

theorem rrtLoop_free (g : Grid) (goal : Coord) (o : RRTOpts) (σ : ℕ → ℚ) (s : Coord) :
    ∀ (n : ℕ) (st : RState), NodesFree g s st.nodes →
    NodesFree g s (rrtLoop g goal o σ n st).nodes := by
  intro n
  induction n with
  | zero => exact fun st h => h
  | succ n ih =>
    intro st h
    rw [rrtLoop_succ]
    by_cases hgi : st.goalIndex ≠ -1
    · rw [if_pos hgi]
      exact h
    · rw [if_neg hgi]
      exact ih _ (rrtIter_free g goal o σ st s h)

theorem rrtInit_free (g : Grid) (s : Coord) : NodesFree g s (rrtInit s).nodes := by
  intro nd hnd
  rcases List.mem_singleton.mp hnd with rfl
  exact Or.inr rfl

/-- A chain that reaches the root gives a fuel bound past which the
parent walk is insensitive to extra fuel. -/
theorem reaches_parentWalk_stable {ns : List TreeNode} {i : ℤ} (h : Reaches ns i) :
    ∀ acc, ∃ m : ℕ, 1 ≤ m ∧ ∀ fuel : ℕ, m ≤ fuel →
      parentWalk ns fuel i acc = parentWalk ns m i acc := by
  induction h with
  | root =>
    intro acc
    refine ⟨1, le_rfl, ?_⟩
    intro fuel hf
    rcases fuel with _ | f
    · omega
    show parentWalk ns (f + 1) (-1) acc = parentWalk ns (0 + 1) (-1) acc
    unfold parentWalk
    rw [if_pos rfl, if_pos rfl]
  | step i nd h hi hrec ih =>
    intro acc
    obtain ⟨m, hm1, hm⟩ := ih (acc ++ [(nd.r, nd.c)])
    refine ⟨m + 1, by omega, ?_⟩
    intro fuel hf
    rcases fuel with _ | f
    · omega
    have hne : ¬ i = -1 := by omega
    show parentWalk ns (f + 1) i acc = parentWalk ns (m + 1) i acc
    unfold parentWalk
    rw [if_neg hne, if_neg hne, h]
    dsimp only
    exact hm f (by omega)

/-- Cell-wise non-negativity of the stored weights gives `WeightsNonneg`
(the out-of-bounds default cell has weight 1). -/
theorem weightsNonneg_of_cells {g : Grid} (h : ∀ row ∈ g, ∀ cl ∈ row, 0 ≤ cl.weight) :
    WeightsNonneg g := by
  intro p
  have hrow : ∀ row : List Cell, row ∈ g ∨ row = [] →
      (0 : ℚ) ≤ (row.getD p.2.toNat ⟨false, 1⟩).weight := by
    intro row hmem
    rw [List.getD_eq_getElem?_getD]
    rcases hc : row[p.2.toNat]? with _ | cl
    · simp only [Option.getD_none]
      show (0 : ℚ) ≤ 1
      norm_num
    · simp only [Option.getD_some]
      rcases hmem with hm | hnil
      · exact h row hm cl (mem_of_getElem?_some hc)
      · rw [hnil] at hc
        cases hc
  have hg : g.getD p.1.toNat [] ∈ g ∨ g.getD p.1.toNat [] = [] := by
    rw [List.getD_eq_getElem?_getD]
    rcases hr : g[p.1.toNat]? with _ | row
    · exact Or.inr rfl
    · simp only [Option.getD_some]
      exact Or.inl (mem_of_getElem?_some hr)
  exact hrow _ hg

/-- Every reconstructed-path cell is either a `came` key (hence checked
non-occupied) or the search origin itself. -/
theorem reconstruct_nowall_or_start {α : Type} [LinearOrderedField α] {g : Grid}
    {diag : Bool} {s : Coord} {st : AState α} (inv : SInv g diag s st) (goal : Coord) :
    ∀ x ∈ reconstruct st.came goal, (cellAt g x).wall = false ∨ x = s := by
  unfold reconstruct
  rcases hc : dget st.came goal with _ | v
  · intro x hx
    cases hx
  · dsimp only
    intro x hx
    rw [List.mem_reverse] at hx
    have horigin : ∀ k v, dget st.came k = some v → (dget st.came v).isSome ∨ v = s := by
      intro k v hv
      have hg := inv.came_val_gkey k v hv
      rcases inv.gkey_origin v hg with h1 | h1
      · exact Or.inr h1
      · exact Or.inl h1
    have := reconWalk_mem_origin st.came s horigin (st.came.length + 1) goal
      (Or.inl (by rw [hc]; rfl)) x hx
    rcases this with hkey | hstart
    · rcases ho : dget st.came x with _ | w
      · rw [ho] at hkey
        cases hkey
      · exact Or.inl (inv.came_nowall x w ho)
    · exact Or.inr hstart

/-- C1: the amended safety property.  The Dijkstra and A* paths are
adjacency chains under the configured connectivity and touch no occupied
cell other than possibly the start (which the searches never wall-check);
the RRT* path can take steps up to `step` cells long (so the adjacency
half of the original claim fails there), but each of its cells is either
collision-free or the start itself. -/
theorem claim_C1 (fuel : ℕ) (g : Grid) (s t : Coord) (diag : Bool) (o : RRTOpts)
    (σ : ℕ → ℚ) :
    AdjChain diag (runDijkstra fuel g s t diag).path ∧
    AdjChain diag (runAStar fuel g s t diag).path ∧
    (∀ x ∈ (runDijkstra fuel g s t diag).path, (cellAt g x).wall = false ∨ x = s) ∧
    (∀ x ∈ (runAStar fuel g s t diag).path, (cellAt g x).wall = false ∨ x = s) ∧
    (∀ x ∈ (runRRTStar g s t o σ).path, isFree g x ∨ x = s) := by
  refine ⟨?_, ?_, ?_, ?_, ?_⟩
  · rw [runDijkstra_eq_astar0]
    exact reconstruct_adj (sInv_loop fuel (sInv_init g diag s (fun _ => 0))) t
  · exact reconstruct_adj (sInv_loop fuel (sInv_init g diag s (astarHeur diag t))) t
  · rw [runDijkstra_eq_astar0]
    exact reconstruct_nowall_or_start (sInv_loop fuel (sInv_init g diag s (fun _ => 0))) t
  · exact reconstruct_nowall_or_start
      (sInv_loop fuel (sInv_init g diag s (astarHeur diag t))) t
  · intro x hx
    unfold runRRTStar at hx
    dsimp only at hx
    by_cases hgi : (rrtLoop g t o σ o.iterations (rrtInit s)).goalIndex ≠ -1
    case neg =>
      rw [if_neg hgi] at hx
      cases hx
    rw [if_pos hgi, List.mem_reverse] at hx
    rcases parentWalk_mem _ _ _ _ x hx with h | h
    · cases h
    · obtain ⟨nd, hnd, hx⟩ := h
      have := rrtLoop_free g t o σ s o.iterations (rrtInit s) (rrtInit_free g s) nd hnd
      rw [hx]
      exact this

/-- C4: the amended cost invariant that the code does maintain: with
non-negative cell weights, stored costs never decrease along any parent
edge (rewiring lowers a node's cost without touching its children, so
equality with the accumulated chain cost is lost, but monotonicity
survives). -/
theorem claim_C4 (g : Grid) (s t : Coord) (o : RRTOpts) (σ : ℕ → ℚ) (n : ℕ)
    (hw : WeightsNonneg g) :
    CostMono (rrtLoop g t o σ n (rrtInit s)).nodes :=
  ((rrtLoop_inv g t o σ hw n (rrtInit s) (rrtInit_ok s).2 (rrtInit_ok s).1).1).1

theorem claim_C4_witness :
    WeightsNonneg gB ∧ CostMono (rrtLoop gB (0, 7) oB σB 3 (rrtInit (0, 0))).nodes := by
  have hw : WeightsNonneg gB := weightsNonneg_of_cells (by with_unfolding_all decide)
  exact ⟨hw, claim_C4 gB (0, 0) (0, 7) oB σB 3 hw⟩

/-- C10: with non-negative weights the parent pointers stay acyclic
through every insert and rewire — every node's chain reaches the root
marker `-1` — and consequently the parent walk of the path construction
is stable once given enough fuel (it terminates). -/
theorem claim_C10 (g : Grid) (s t : Coord) (o : RRTOpts) (σ : ℕ → ℚ) (n : ℕ)
    (hw : WeightsNonneg g) :
    (∀ i : ℕ, i < (rrtLoop g t o σ n (rrtInit s)).nodes.length →
      Reaches (rrtLoop g t o σ n (rrtInit s)).nodes (i : ℤ)) ∧
    (∀ i : ℤ, 0 ≤ i → i.toNat < (rrtLoop g t o σ n (rrtInit s)).nodes.length →
      ∀ acc : List Coord, ∃ m : ℕ, ∀ fuel : ℕ, m ≤ fuel →
        parentWalk (rrtLoop g t o σ n (rrtInit s)).nodes fuel i acc =
          parentWalk (rrtLoop g t o σ n (rrtInit s)).nodes m i acc) := by
  have hra := ((rrtLoop_inv g t o σ hw n (rrtInit s) (rrtInit_ok s).2 (rrtInit_ok s).1).1).2
  refine ⟨hra, ?_⟩
  intro i h0 hlen acc
  have hr : Reaches (rrtLoop g t o σ n (rrtInit s)).nodes i := by
    have := hra i.toNat hlen
    rwa [Int.toNat_of_nonneg h0] at this
  obtain ⟨m, -, hm⟩ := reaches_parentWalk_stable hr acc
  exact ⟨m, hm⟩

theorem claim_C10_witness :
    WeightsNonneg gA ∧
    ((∀ i : ℕ, i < (rrtLoop gA (0, 4) oA (fun _ => 0) 1 (rrtInit (0, 0))).nodes.length →
      Reaches (rrtLoop gA (0, 4) oA (fun _ => 0) 1 (rrtInit (0, 0))).nodes (i : ℤ)) ∧
     (∀ i : ℤ, 0 ≤ i →
      i.toNat < (rrtLoop gA (0, 4) oA (fun _ => 0) 1 (rrtInit (0, 0))).nodes.length →
      ∀ acc : List Coord, ∃ m : ℕ, ∀ fuel : ℕ, m ≤ fuel →
        parentWalk (rrtLoop gA (0, 4) oA (fun _ => 0) 1 (rrtInit (0, 0))).nodes fuel i acc =
          parentWalk (rrtLoop gA (0, 4) oA (fun _ => 0) 1 (rrtInit (0, 0))).nodes m i acc)) := by
  have hw : WeightsNonneg gA := weightsNonneg_of_cells (by with_unfolding_all decide)
  exact ⟨hw, claim_C10 gA (0, 0) (0, 4) oA (fun _ => 0) 1 hw⟩

theorem isHeap_root_le {α β : Type} [LinearOrder α] {a : List (HEntry α β)}
    (h : IsHeap a) {m : HEntry α β} (hm : a[0]? = some m) :
    ∀ (j : ℕ) (x : HEntry α β), a[j]? = some x → m.prio ≤ x.prio := by
  intro j
  induction j using Nat.strong_induction_on with
  | _ j ih =>
    intro x hx
    rcases Nat.eq_zero_or_pos j with hj | hj
    · subst hj
      rw [hm, Option.some.injEq] at hx
      rw [hx]
    · obtain ⟨hjl, -⟩ := List.getElem?_eq_some.mp hx
      have hpl : (j - 1) / 2 < a.length := lt_of_le_of_lt (by omega) hjl
      obtain ⟨px, hpx⟩ : ∃ px, a[(j - 1) / 2]? = some px :=
        ⟨a[(j - 1) / 2], List.getElem?_eq_getElem hpl⟩
      exact le_trans (ih ((j - 1) / 2) (by omega) px hpx) (h j hj px x hpx hx)

theorem isHeap_min_mem {α β : Type} [LinearOrder α] {a : List (HEntry α β)}
    (h : IsHeap a) {m : HEntry α β} (hm : a[0]? = some m) :
    ∀ e ∈ a, m.prio ≤ e.prio := by
  intro e he
  obtain ⟨j, hj⟩ := List.mem_iff_getElem?.mp he
  exact isHeap_root_le h hm j e hj

theorem heapSwap_get {α β : Type} {a : List (HEntry α β)} {i j : ℕ}
    {x y : HEntry α β} (hi : a[i]? = some x) (hj : a[j]? = some y) (hij : i ≠ j) :
    (heapSwap a i j)[i]? = some y ∧ (heapSwap a i j)[j]? = some x ∧
    ∀ k : ℕ, k ≠ i → k ≠ j → (heapSwap a i j)[k]? = a[k]? := by
  unfold heapSwap
  rw [hi, hj]
  obtain ⟨hil, -⟩ := List.getElem?_eq_some.mp hi
  obtain ⟨hjl, -⟩ := List.getElem?_eq_some.mp hj
  refine ⟨?_, ?_, ?_⟩
  · rw [List.getElem?_set, if_neg (fun h => hij h.symm), List.getElem?_set, if_pos rfl,
      if_pos hil]
  · rw [List.getElem?_set, if_pos rfl, List.length_set, if_pos hjl]
  · intro k hki hkj
    rw [List.getElem?_set, if_neg (fun h => hkj h.symm), List.getElem?_set,
      if_neg (fun h => hki h.symm)]

theorem siftUp_isHeap {α β : Type} [LinearOrder α] :
    ∀ (fuel : ℕ) (a : List (HEntry α β)) (i : ℕ), i < fuel → UpInv a i →
      IsHeap (siftUp fuel a i) := by
  intro fuel
  induction fuel with
  | zero => exact fun a i hi => absurd hi (by omega)
  | succ fuel ih =>
    intro a i hif hinv
    unfold siftUp
    by_cases h0 : i = 0
    · rw [if_pos h0]
      intro j hj x y hx hy
      exact hinv.1 j hj (by omega) x y hx hy
    rw [if_neg h0]
    dsimp only
    by_cases hlt : prioLtAt a i ((i - 1) / 2)
    · rw [if_pos hlt]
      unfold prioLtAt at hlt
      rcases hci : a[i]? with _ | xi
      · rw [hci] at hlt
        rcases a[(i - 1) / 2]? with _ | u <;> exact absurd hlt (by simp)
      rcases hcp : a[(i - 1) / 2]? with _ | xp
      · rw [hci, hcp] at hlt
        exact absurd hlt (by simp)
      rw [hci, hcp] at hlt
      dsimp only at hlt
      have hpi : (i - 1) / 2 ≠ i := by omega
      obtain ⟨hswp, hswi, hswo⟩ := heapSwap_get hcp hci hpi
      refine ih _ _ (by omega) ⟨?_, ?_⟩
      · -- part 1 at the parent position
        intro j hj hjp x y hx hy
        by_cases hji : j = i
        · subst hji
          rw [hswi, Option.some.injEq] at hy
          rw [hswp, Option.some.injEq] at hx
          rw [← hx, ← hy]
          exact le_of_lt hlt
        · have hbj : (heapSwap a ((i - 1) / 2) i)[j]? = a[j]? := hswo j hjp hji
          by_cases hq : (j - 1) / 2 = (i - 1) / 2
          · rw [hq, hswp, Option.some.injEq] at hx
            rw [hbj] at hy
            have := hinv.1 j hj hji xp y (by rw [hq]; exact hcp) hy
            rw [← hx]
            exact le_trans (le_of_lt hlt) this
          · by_cases hq2 : (j - 1) / 2 = i
            · rw [hq2, hswi, Option.some.injEq] at hx
              rw [hbj] at hy
              have := hinv.2 (by omega) j hq2 hj xp y hcp hy
              rw [← hx]
              exact this
            · rw [hswo _ hq hq2] at hx
              rw [hbj] at hy
              exact hinv.1 j hj hji x y hx hy
      · -- part 2: bridging at the parent position
        intro hp c hc hc0 x y hx hy
        have hgp : ((i - 1) / 2 - 1) / 2 ≠ (i - 1) / 2 := by omega
        have hgpi : ((i - 1) / 2 - 1) / 2 ≠ i := by omega
        rw [hswo _ hgp hgpi] at hx
        by_cases hci' : c = i
        · rw [hci'] at hy
          rw [hswi, Option.some.injEq] at hy
          have := hinv.1 ((i - 1) / 2) hp hpi x xp hx hcp
          rw [← hy]
          exact this
        · have hcp' : c ≠ (i - 1) / 2 := by omega
          rw [hswo _ hcp' hci'] at hy
          have h1 := hinv.1 ((i - 1) / 2) hp hpi x xp hx hcp
          have h2 := hinv.1 c hc0 hci' xp y (by rw [hc]; exact hcp) hy
          exact le_trans h1 h2
    · rw [if_neg hlt]
      intro j hj x y hx hy
      by_cases hji : j = i
      · subst hji
        unfold prioLtAt at hlt
        rw [hy, hx] at hlt
        dsimp only at hlt
        exact not_lt.mp hlt
      · exact hinv.1 j hj hji x y hx hy

theorem heapPush_isHeap {α β : Type} [LinearOrder α] {a : List (HEntry α β)}
    (h : IsHeap a) (x : HEntry α β) : IsHeap (heapPush a x) := by
  unfold heapPush
  refine siftUp_isHeap _ _ _ (by omega) ⟨?_, ?_⟩
  · intro j hj hjl u v hu hv
    obtain ⟨hjlen, -⟩ := List.getElem?_eq_some.mp hv
    rw [List.length_append, List.length_cons, List.length_nil] at hjlen
    have hjlt : j < a.length := by omega
    rw [List.getElem?_append, if_pos hjlt] at hv
    rw [List.getElem?_append, if_pos (by omega : (j - 1) / 2 < a.length)] at hu
    exact h j hj u v hu hv
  · intro h0 c hc hc0 u v hu hv
    obtain ⟨hclen, -⟩ := List.getElem?_eq_some.mp hv
    rw [List.length_append, List.length_cons, List.length_nil] at hclen
    omega

theorem heapSwap_length {α β : Type} (a : List (HEntry α β)) (i j : ℕ) :
    (heapSwap a i j).length = a.length := by
  unfold heapSwap
  rcases a[i]? with _ | x
  · rfl
  rcases a[j]? with _ | y
  · rfl
  rw [List.length_set, List.length_set]

theorem siftDown_swap_inv {α β : Type} [LinearOrder α] {a : List (HEntry α β)} {i j : ℕ}
    (hinv : DownInv a i) (hji : (j - 1) / 2 = i) (hij : i < j)
    {xi xj : HEntry α β} (hi : a[i]? = some xi) (hj : a[j]? = some xj)
    (hlt : xj.prio < xi.prio)
    (hother : ∀ c : ℕ, (c - 1) / 2 = i → 0 < c → c ≠ j → ∀ y, a[c]? = some y →
      xj.prio ≤ y.prio) :
    DownInv (heapSwap a i j) j := by
  obtain ⟨hswi, hswj, hswo⟩ := heapSwap_get hi hj (by omega)
  constructor
  · intro k hk hkp x y hx hy
    by_cases hki : k = i
    · -- k = i: use the bridging hypothesis at i's parent
      rw [hki] at hx hy hk
      rw [hswi, Option.some.injEq] at hy
      have hpar : (i - 1) / 2 ≠ i := by omega
      have hparj : (i - 1) / 2 ≠ j := by omega
      rw [hswo _ hpar hparj] at hx
      have := hinv.2 hk j hji (by omega) x xj hx hj
      rw [← hy]
      exact this
    · by_cases hkj : k = j
      · -- k = j: the swapped pair itself
        rw [hkj] at hx hy
        rw [hswj, Option.some.injEq] at hy
        rw [hji, hswi, Option.some.injEq] at hx
        rw [← hx, ← hy]
        exact le_of_lt hlt
      · by_cases hkc : (k - 1) / 2 = i
        · -- k is i's other child
          rw [hkc, hswi, Option.some.injEq] at hx
          rw [hswo _ hki hkj] at hy
          have := hother k hkc hk hkj y hy
          rw [← hx]
          exact this
        · -- untouched pair
          have hkcj : (k - 1) / 2 ≠ j := by omega
          rw [hswo _ hkc hkcj] at hx
          rw [hswo _ hki hkj] at hy
          exact hinv.1 k hk hkc x y hx hy
  · intro hj0 c hc hc0 x y hx hy
    rw [hji, hswi, Option.some.injEq] at hx
    have hci : c ≠ i := by omega
    have hcj : c ≠ j := by omega
    rw [hswo _ hci hcj] at hy
    have := hinv.1 c hc0 (by omega) xj y (by rw [hc]; exact hj) hy
    rw [← hx]
    exact this

theorem siftDown_isHeap {α β : Type} [LinearOrder α] :
    ∀ (fuel : ℕ) (a : List (HEntry α β)) (i : ℕ), a.length ≤ fuel + i → DownInv a i →
      IsHeap (siftDown fuel a i) := by
  intro fuel
  induction fuel with
  | zero =>
    intro a i hlen hinv
    show IsHeap a
    intro j hj x y hx hy
    obtain ⟨hjl, -⟩ := List.getElem?_eq_some.mp hy
    exact hinv.1 j hj (by omega) x y hx hy
  | succ fuel ih =>
    intro a i hlen hinv
    unfold siftDown
    dsimp only
    by_cases h1 : prioLtAt a (2 * i + 1) i
    · rw [if_pos h1]
      unfold prioLtAt at h1
      rcases hl : a[2 * i + 1]? with _ | xl
      · rw [hl] at h1
        rcases a[i]? with _ | u <;> exact absurd h1 (by simp)
      rcases hi : a[i]? with _ | xi
      · rw [hl, hi] at h1
        exact absurd h1 (by simp)
      rw [hl, hi] at h1
      dsimp only at h1
      by_cases h2 : prioLtAt a (2 * i + 1 + 1) (2 * i + 1)
      · rw [if_pos h2]
        unfold prioLtAt at h2
        rcases hr : a[2 * i + 1 + 1]? with _ | xr
        · rw [hr] at h2
          rcases a[2 * i + 1]? with _ | u <;> exact absurd h2 (by simp)
        rw [hr, hl] at h2
        dsimp only at h2
        rw [if_neg (by omega : ¬ 2 * i + 1 + 1 = i)]
        refine ih _ _ ?_ ?_
        · rw [heapSwap_length]
          omega
        refine siftDown_swap_inv hinv (by omega) (by omega) hi hr
          (lt_trans h2 h1) ?_
        intro c hc hc0 hcj z hz
        have hcl : c = 2 * i + 1 := by omega
        rw [hcl, hl, Option.some.injEq] at hz
        rw [← hz]
        exact le_of_lt h2
      · rw [if_neg h2]
        rw [if_neg (by omega : ¬ 2 * i + 1 = i)]
        refine ih _ _ ?_ ?_
        · rw [heapSwap_length]
          omega
        refine siftDown_swap_inv hinv (by omega) (by omega) hi hl h1 ?_
        intro c hc hc0 hcj z hz
        have hcr : c = 2 * i + 1 + 1 := by omega
        unfold prioLtAt at h2
        rw [hcr] at hz
        rw [hz, hl] at h2
        dsimp only at h2
        exact not_lt.mp h2
    · rw [if_neg h1]
      by_cases h2 : prioLtAt a (2 * i + 1 + 1) i
      · rw [if_pos h2]
        unfold prioLtAt at h2
        rcases hr : a[2 * i + 1 + 1]? with _ | xr
        · rw [hr] at h2
          rcases a[i]? with _ | u <;> exact absurd h2 (by simp)
        rcases hi : a[i]? with _ | xi
        · rw [hr, hi] at h2
          exact absurd h2 (by simp)
        rw [hr, hi] at h2
        dsimp only at h2
        rw [if_neg (by omega : ¬ 2 * i + 1 + 1 = i)]
        refine ih _ _ ?_ ?_
        · rw [heapSwap_length]
          omega
        refine siftDown_swap_inv hinv (by omega) (by omega) hi hr h2 ?_
        intro c hc hc0 hcj z hz
        have hcl : c = 2 * i + 1 := by omega
        unfold prioLtAt at h1
        rw [hcl] at hz
        rw [hz, hi] at h1
        dsimp only at h1
        exact le_trans (le_of_lt h2) (not_lt.mp h1)
      · rw [if_neg h2, if_pos (show i = i from rfl)]
        intro j hj x y hx hy
        by_cases hji : (j - 1) / 2 = i
        · have hjc : j = 2 * i + 1 ∨ j = 2 * i + 1 + 1 := by omega
          rw [hji] at hx
          rcases hjc with hjc | hjc
          · unfold prioLtAt at h1
            rw [hjc] at hy
            rw [hy, hx] at h1
            dsimp only at h1
            exact not_lt.mp h1
          · unfold prioLtAt at h2
            rw [hjc] at hy
            rw [hy, hx] at h2
            dsimp only at h2
            exact not_lt.mp h2
        · exact hinv.1 j hj hji x y hx hy

theorem getElem?_dropLast {α : Type} (l : List α) (n : ℕ) :
    l.dropLast[n]? = if n < l.length - 1 then l[n]? else none := by
  rw [List.dropLast_eq_take, List.getElem?_take]

theorem heapPop_isHeap {α β : Type} [LinearOrder α] {a : List (HEntry α β)}
    (hh : IsHeap a) : IsHeap (heapPop a).2 := by
  match a with
  | [] => intro j hj x y hx hy; cases hy
  | [top] => intro j hj x y hx hy; cases hy
  | top :: r₀ :: rs =>
    show IsHeap (siftDown ((top :: r₀ :: rs).dropLast).length
      (((top :: r₀ :: rs).dropLast).set 0 ((r₀ :: rs).getLastD top)) 0)
    refine siftDown_isHeap _ _ _ (by rw [List.length_set]; omega) ⟨?_, ?_⟩
    · intro j hj hjp x y hx hy
      rw [List.getElem?_set, if_neg (by omega : ¬ (0 : ℕ) = (j - 1) / 2)] at hx
      rw [List.getElem?_set, if_neg (by omega : ¬ (0 : ℕ) = j)] at hy
      rw [getElem?_dropLast] at hx hy
      by_cases hxl : (j - 1) / 2 < (top :: r₀ :: rs).length - 1
      · rw [if_pos hxl] at hx
        by_cases hyl : j < (top :: r₀ :: rs).length - 1
        · rw [if_pos hyl] at hy
          exact hh j hj x y hx hy
        · rw [if_neg hyl] at hy
          cases hy
      · rw [if_neg hxl] at hx
        cases hx
    · intro h0
      omega

theorem heapPop_min {α β : Type} [LinearOrder α] {a r : List (HEntry α β)}
    {m : HEntry α β} (hh : IsHeap a) (he : heapPop a = (some m, r)) :
    ∀ e ∈ a, m.prio ≤ e.prio := by
  match a with
  | [] => cases he
  | [top] =>
    simp only [heapPop, Prod.mk.injEq, Option.some.injEq] at he
    exact isHeap_min_mem hh (by rw [List.getElem?_cons_zero, he.1])
  | top :: r₀ :: rs =>
    simp only [heapPop, Prod.mk.injEq, Option.some.injEq] at he
    exact isHeap_min_mem hh (by rw [List.getElem?_cons_zero, he.1])

theorem validPath_single (g : Grid) (diag : Bool) (s : Coord) :
    ValidPath g diag s s [s] :=
  ⟨rfl, rfl, List.chain'_singleton s, fun c hc => absurd hc (by simp)⟩

theorem pathCost_append (g : Grid) (q : List Coord) (v : Coord) (hq : q ≠ []) :
    pathCost g (q ++ [v]) = pathCost g q + (cellAt g v).weight := by
  rcases q with _ | ⟨a, q'⟩
  · exact absurd rfl hq
  unfold pathCost
  rw [List.cons_append, List.tail_cons, List.tail_cons, List.map_append, List.sum_append]
  simp

theorem pathCost_nonneg {g : Grid} (hwq : ∀ p : Coord, 1 ≤ (cellAt g p).weight)
    (p : List Coord) : 0 ≤ pathCost g p := by
  unfold pathCost
  refine List.sum_nonneg ?_
  intro x hx
  obtain ⟨c, -, hc⟩ := List.mem_map.mp hx
  rw [← hc]
  linarith [hwq c]

theorem validPath_extend {g : Grid} {diag : Bool} {s u : Coord} {q : List Coord}
    (hq : ValidPath g diag s u q) {v : Coord} (hadj : adjacentStep diag u v)
    (hb : inBounds v.1 v.2 (gridRows g) (gridCols g)) (hw : (cellAt g v).wall = false) :
    ValidPath g diag s v (q ++ [v]) := by
  obtain ⟨h1, h2, h3, h4⟩ := hq
  have hqne : q ≠ [] := by
    intro h
    rw [h] at h1
    cases h1
  refine ⟨?_, ?_, ?_, ?_⟩
  · rcases q with _ | ⟨a, q'⟩
    · exact absurd rfl hqne
    · exact h1
  · rw [List.getLast?_append]
    rfl
  · rw [AdjChain, List.chain'_append]
    refine ⟨h3, List.chain'_singleton v, ?_⟩
    intro x hx y hy
    rw [h2, Option.mem_some_iff] at hx
    rw [List.head?_cons, Option.mem_some_iff] at hy
    rw [← hx, ← hy]
    exact hadj
  · intro c hc
    rcases q with _ | ⟨a, q'⟩
    · exact absurd rfl hqne
    rw [List.cons_append, List.tail_cons] at hc
    rcases List.mem_append.mp hc with hc | hc
    · exact h4 c (by rw [List.tail_cons]; exact hc)
    · rw [List.mem_singleton] at hc
      rw [hc]
      exact ⟨hb, hw⟩

/-- Reverse-structure case analysis of a valid path. -/
theorem validPath_rev_cases {g : Grid} {diag : Bool} {s x : Coord} {p : List Coord}
    (h : ValidPath g diag s x p) :
    (p = [s] ∧ x = s) ∨
    ∃ q u, p = q ++ [x] ∧ ValidPath g diag s u q ∧ adjacentStep diag u x ∧
      inBounds x.1 x.2 (gridRows g) (gridCols g) ∧ (cellAt g x).wall = false ∧
      pathCost g p = pathCost g q + (cellAt g x).weight := by
  obtain ⟨h1, h2, h3, h4⟩ := h
  rcases p with _ | ⟨a, p'⟩
  · cases h1
  rcases p' with _ | ⟨b, p''⟩
  · left
    rw [List.head?_cons, Option.some.injEq] at h1
    rw [List.getLast?_singleton, Option.some.injEq] at h2
    rw [← h1, h2]
    exact ⟨rfl, rfl⟩
  right
  have hne : (a :: b :: p'' : List Coord) ≠ [] := by simp
  have hsplit : (a :: b :: p'').dropLast ++ [(a :: b :: p'').getLast hne] =
      a :: b :: p'' := List.dropLast_append_getLast hne
  have hx : (a :: b :: p'').getLast hne = x := by
    have := List.getLast?_eq_getLast (a :: b :: p'') hne
    rw [this, Option.some.injEq] at h2
    exact h2
  set q := (a :: b :: p'').dropLast with hqdef
  have hqne : q ≠ [] := by
    rw [hqdef]
    simp
  have hsplit2 : q ++ [x] = a :: b :: p'' := by
    rw [← hx]
    exact hsplit
  obtain ⟨u, hu⟩ : ∃ u, q.getLast? = some u := by
    rcases hq : q.getLast? with _ | u
    · rw [List.getLast?_eq_none_iff] at hq
      exact absurd hq hqne
    · exact ⟨u, rfl⟩
  refine ⟨q, u, hsplit2.symm, ⟨?_, hu, ?_, ?_⟩, ?_, ?_, ?_, ?_⟩
  · -- head of q is s
    rw [List.head?_cons, Option.some.injEq] at h1
    rw [hqdef]
    rw [List.dropLast_cons₂, List.head?_cons, h1]
  · -- chain of q
    have hch : List.Chain' (adjacentStep diag) (q ++ [x]) := by
      rw [hsplit2]
      exact h3
    exact (List.chain'_append.mp hch).1
  · -- bounds along q's tail
    intro c hc
    refine h4 c ?_
    have : q.tail ++ [x] = (a :: b :: p'').tail := by
      rw [← hsplit2]
      rcases hq2 : q with _ | ⟨a', q'⟩
      · exact absurd hq2 hqne
      · rw [List.cons_append, List.tail_cons, List.tail_cons]
    rw [← this]
    exact List.mem_append_left _ hc
  · -- the last step is adjacent
    have hch : List.Chain' (adjacentStep diag) (q ++ [x]) := by
      rw [hsplit2]
      exact h3
    obtain ⟨-, -, hrel⟩ := List.chain'_append.mp hch
    exact hrel u (by rw [hu]; rfl) x (by rw [List.head?_cons]; rfl)
  · -- x is in bounds
    refine (h4 x ?_).1
    rw [List.tail_cons]
    have : x ∈ q.tail ++ [x] := List.mem_append_right _ (List.mem_singleton.mpr rfl)
    have h5 : q.tail ++ [x] = b :: p'' := by
      have h6 : q ++ [x] = a :: b :: p'' := hsplit2
      rcases hq2 : q with _ | ⟨a', q'⟩
      · exact absurd hq2 hqne
      · rw [hq2] at h6
        rw [List.cons_append, List.cons.injEq] at h6
        rw [List.tail_cons, h6.2]
    rw [← h5]
    exact this
  · -- x is not a wall
    refine (h4 x ?_).2
    rw [List.tail_cons]
    have : x ∈ q.tail ++ [x] := List.mem_append_right _ (List.mem_singleton.mpr rfl)
    have h5 : q.tail ++ [x] = b :: p'' := by
      have h6 : q ++ [x] = a :: b :: p'' := hsplit2
      rcases hq2 : q with _ | ⟨a', q'⟩
      · exact absurd hq2 hqne
      · rw [hq2] at h6
        rw [List.cons_append, List.cons.injEq] at h6
        rw [List.tail_cons, h6.2]
    rw [← h5]
    exact this
  · -- cost decomposition
    rw [← hsplit2, pathCost_append g q x hqne]

theorem mem_neighbors {r c : ℤ} {rows cols : ℕ} {diag : Bool} {k : Coord}
    (hadj : adjacentStep diag (r, c) k) (hb : inBounds k.1 k.2 rows cols) :
    k ∈ neighbors r c rows cols diag := by
  unfold adjacentStep at hadj
  unfold neighbors
  refine List.mem_filterMap.mpr ⟨(k.1 - r, k.2 - c), by simpa using hadj, ?_⟩
  dsimp only
  rw [show r + (k.1 - r) = k.1 by ring, show c + (k.2 - c) = k.2 by ring]
  rw [if_pos hb]

/-- Telescoping a consistent heuristic along a valid path. -/
theorem cons_telescope {α : Type} [LinearOrderedField α] {g : Grid} {diag : Bool}
    {h : Coord → α}
    (hcons : ∀ u v : Coord, adjacentStep diag u v → h u ≤ ((cellAt g v).weight : α) + h v) :
    ∀ (n : ℕ) (p : List Coord), p.length ≤ n → ∀ u x : Coord, ValidPath g diag u x p →
      h u ≤ ((pathCost g p : ℚ) : α) + h x := by
  intro n
  induction n with
  | zero =>
    intro p hlen u x hv
    rw [List.length_eq_zero.mp (Nat.le_zero.mp hlen)] at hv
    cases hv.1
  | succ n ih =>
    intro p hlen u x hv
    rcases validPath_rev_cases hv with ⟨hp, hx⟩ | ⟨q, u', hp, hq, hadj, hb, hw, hc⟩
    · rw [hx, hp]
      unfold pathCost
      simp
    · have hqlen : q.length ≤ n := by
        rw [hp] at hlen
        rw [List.length_append, List.length_cons, List.length_nil] at hlen
        omega
      have h1 := ih q hqlen u u' hq
      have h2 := hcons u' x hadj
      rw [hc]
      push_cast
      push_cast at h1
      linarith

theorem oInv_init {α : Type} [LinearOrderedField α] (g : Grid) (diag : Bool)
    (s t : Coord) (h : Coord → α) : OInv g diag s t h (astarInit h s) := by
  constructor
  · intro j hj x y hx hy
    obtain ⟨hjl, -⟩ := List.getElem?_eq_some.mp hy
    simp only [astarInit, List.length_cons, List.length_nil] at hjl
    omega
  · intro k fk hfk
    simp only [astarInit, dget] at hfk ⊢
    by_cases hks : k = s
    · rw [if_pos hks] at hfk ⊢
      exact ⟨0, rfl, by rw [← Option.some.inj hfk, hks]; ring⟩
    · rw [if_neg hks] at hfk
      cases hfk
  · simp [astarInit, dget]
  · simp only [astarInit, dget]
  · intro k v hk
    simp only [astarInit, dget] at hk
    cases hk
  · intro k gk hk
    simp only [astarInit, dget] at hk
    by_cases hks : k = s
    · rw [if_pos hks] at hk
      rw [← Option.some.inj hk]
    · rw [if_neg hks] at hk
      cases hk
  · intro k gk hk
    simp only [astarInit, dget] at hk
    by_cases hks : k = s
    · rw [if_pos hks] at hk
      refine ⟨[s], hks ▸ validPath_single g diag s, ?_⟩
      rw [← Option.some.inj hk]
      unfold pathCost
      simp
    · rw [if_neg hks] at hk
      cases hk
  · intro u hu
    simp [astarInit] at hu
  · intro u hu
    simp [astarInit] at hu
  · intro u hu
    simp [astarInit] at hu
  · intro u hu
    simp [astarInit] at hu
  · intro hu
    simp [astarInit] at hu
  · intro hd
    simp [astarInit] at hd

theorem dget_mem_keys {β : Type} {l : List (Coord × β)} {k : Coord} {v : β}
    (h : dget l k = some v) : k ∈ l.map Prod.fst := by
  induction l with
  | nil => cases h
  | cons kv t ih =>
    unfold dget at h
    by_cases hk : k = kv.1
    · rw [List.map_cons]
      exact hk ▸ List.mem_cons_self _ _
    · rw [if_neg hk] at h
      exact List.mem_cons_of_mem _ (ih h)

/-- One 4-connected step changes the manhattan distance by at most 1. -/
theorem manhattan_step {u v t : Coord} (hadj : adjacentStep false u v) :
    manhattan u t ≤ manhattan v t + 1 := by
  unfold adjacentStep at hadj
  simp only [if_neg (Bool.false_ne_true), DIRS4, List.mem_cons, List.mem_singleton,
    Prod.mk.injEq, List.not_mem_nil, or_false] at hadj
  have hnat : (u.1 - t.1).natAbs + (u.2 - t.2).natAbs ≤
      (v.1 - t.1).natAbs + (v.2 - t.2).natAbs + 1 := by
    rcases hadj with ⟨h1, h2⟩ | ⟨h1, h2⟩ | ⟨h1, h2⟩ | ⟨h1, h2⟩ <;> omega
  unfold manhattan
  exact_mod_cast hnat

/-- The cut argument: while the goal is unvisited, a minimal heap
priority under-estimates cost-plus-heuristic of every valid path to every
unvisited cell. -/
theorem astar_cut {α : Type} [LinearOrderedField α] {g : Grid} {diag : Bool} {s t : Coord}
    {h : Coord → α} {st : AState α}
    (hcons : ∀ u v : Coord, adjacentStep diag u v → h u ≤ ((cellAt g v).weight : α) + h v)
    (hs : SInv g diag s st) (ho : OInv g diag s t h st)
    (hVt : t ∉ st.visited)
    {mp : α} (hmin : ∀ e ∈ st.heap, mp ≤ e.prio) :
    ∀ (n : ℕ) (p : List Coord), p.length ≤ n → ∀ x, ValidPath g diag s x p →
      x ∉ st.visited → mp ≤ ((pathCost g p : ℚ) : α) + h x := by
  intro n
  induction n with
  | zero =>
    intro p hlen x hv hxV
    rw [List.length_eq_zero.mp (Nat.le_zero.mp hlen)] at hv
    cases hv.1
  | succ n ih =>
    intro p hlen x hv hxV
    rcases validPath_rev_cases hv with ⟨hp, hx⟩ | ⟨q, u, hp, hq, hadj, hb, hw, hc⟩
    · subst hx
      have hfs : (dget st.fmap x).isSome := (hs.fkey_gkey x).mpr (by rw [ho.gs]; rfl)
      obtain ⟨fs, hfs'⟩ := Option.isSome_iff_exists.mp hfs
      obtain ⟨gk, hgk, hfk⟩ := ho.fg x fs hfs'
      rw [ho.gs, Option.some.injEq] at hgk
      rcases hs.fentry x fs hfs' with hvis | hheap
      · exact absurd hvis hxV
      · have hmp := hmin _ hheap
        rw [hp]
        unfold pathCost
        simp only [List.tail_cons, List.map_nil, List.sum_nil, Rat.cast_zero, zero_add]
        rw [hfk, ← hgk] at hmp
        simpa using hmp
    · have hqlen : q.length ≤ n := by
        rw [hp, List.length_append, List.length_cons, List.length_nil] at hlen
        omega
      by_cases huV : u ∈ st.visited
      · have hut : u ≠ t := fun he => hVt (he ▸ huV)
        obtain ⟨gu, hgu⟩ := Option.isSome_iff_exists.mp (ho.vg u huV)
        have hnb : x ∈ neighbors u.1 u.2 (gridRows g) (gridCols g) diag :=
          mem_neighbors hadj hb
        obtain ⟨gv, hgv, hrel⟩ := ho.vrelax u huV hut x hnb hw gu hgu
        have hopt := ho.vopt u huV gu hgu q hq
        have hfx : (dget st.fmap x).isSome := (hs.fkey_gkey x).mpr (by rw [hgv]; rfl)
        obtain ⟨fx, hfx'⟩ := Option.isSome_iff_exists.mp hfx
        obtain ⟨gk', hgk', hfxe⟩ := ho.fg x fx hfx'
        rw [hgv, Option.some.injEq] at hgk'
        rcases hs.fentry x fx hfx' with hvis | hheap
        · exact absurd hvis hxV
        · have hmp := hmin _ hheap
          rw [hc]
          push_cast
          rw [hfxe, ← hgk'] at hmp
          dsimp only at hmp
          linarith
      · have h1 := ih q hqlen u hq huV
        have h2 := hcons u x hadj
        rw [hc]
        push_cast
        push_cast at h1
        linarith

/-- The improving branch of one relaxation preserves `FoldInv`. -/
theorem relaxImprove {α : Type} [LinearOrderedField α] {g : Grid} {diag : Bool}
    {s : Coord} {h : Coord → α} {st : AState α} {cur : HEntry α Coord}
    {acc : AState α} {nb : Coord} {gcur : α}
    (hacc : FoldInv g diag s h st cur acc)
    (hfcur : cur.prio = gcur + h cur.node)
    (hgcurst : dget st.gmap cur.node = some gcur)
    (hadj : adjacentStep diag cur.node nb)
    (hb : inBounds nb.1 nb.2 (gridRows g) (gridCols g))
    (hwall : (cellAt g nb).wall = false)
    (hprio : cur.prio ≤ gcur + ((cellAt g nb).weight : α) + h nb)
    (htpos : 0 ≤ gcur + ((cellAt g nb).weight : α))
    (pcur : List Coord) (hpcur : ValidPath g diag s cur.node pcur)
    (hpcost : ((pathCost g pcur : ℚ) : α) = gcur)
    (hnbV : nb ∉ st.visited ++ [cur.node]) (hnbs : nb ≠ s)
    (hub : ∀ gnb, dget acc.gmap nb = some gnb → gcur + ((cellAt g nb).weight : α) ≤ gnb) :
    FoldInv g diag s h st cur
      { acc with
        gmap := dset acc.gmap nb (gcur + ((cellAt g nb).weight : α))
        fmap := dset acc.fmap nb (gcur + ((cellAt g nb).weight : α) + h nb)
        came := dset acc.came nb cur.node
        heap := heapPush acc.heap ⟨gcur + ((cellAt g nb).weight : α) + h nb, nb⟩ } := by
  have hcurV : cur.node ∈ st.visited ++ [cur.node] :=
    List.mem_append.mpr (Or.inr (List.mem_singleton.mpr rfl))
  have hnbc : nb ≠ cur.node := by
    intro he
    exact hnbV (he ▸ hcurV)
  constructor
  · exact hacc.vis
  · exact hacc.dn
  · exact heapPush_isHeap hacc.heapOk _
  · intro k fk hfk
    by_cases hk : k = nb
    · rw [hk, dget_dset_self] at hfk
      refine ⟨gcur + ((cellAt g nb).weight : α), by rw [hk, dget_dset_self], ?_⟩
      rw [← Option.some.inj hfk, hk]
    · rw [dget_dset_ne _ _ _ _ hk] at hfk
      obtain ⟨gk, hgk, he⟩ := hacc.fg k fk hfk
      exact ⟨gk, by rw [dget_dset_ne _ _ _ _ hk]; exact hgk, he⟩
  · intro k gk hgk
    by_cases hk : k = nb
    · rw [hk, dget_dset_self] at hgk
      rw [hk, dget_dset_self, ← Option.some.inj hgk]
    · rw [dget_dset_ne _ _ _ _ hk] at hgk
      rw [dget_dset_ne _ _ _ _ hk]
      exact hacc.gf k gk hgk
  · rw [dget_dset_ne _ _ _ _ (fun he => hnbs he.symm)]
    exact hacc.gs
  · rw [dget_dset_ne _ _ _ _ (fun he => hnbs he.symm)]
    exact hacc.came_s
  · intro k v hkv
    by_cases hk : k = nb
    · rw [hk, dget_dset_self] at hkv
      have hv : v = cur.node := (Option.some.inj hkv).symm
      refine ⟨gcur + ((cellAt g k).weight : α), gcur, ?_, ?_, ?_⟩
      · rw [hk, dget_dset_self]
      · rw [hv, dget_dset_ne _ _ _ _ hnbc.symm]
        rw [(hacc.vstable cur.node hcurV).1]
        exact hgcurst
      · exact le_refl _
    · rw [dget_dset_ne _ _ _ _ hk] at hkv
      obtain ⟨gk, gv, hgk, hgv, hle⟩ := hacc.came_cost k v hkv
      by_cases hvnb : v = nb
      · refine ⟨gk, gcur + ((cellAt g nb).weight : α), ?_, ?_, ?_⟩
        · rw [dget_dset_ne _ _ _ _ hk]
          exact hgk
        · rw [hvnb, dget_dset_self]
        · have := hub gv (by rw [← hvnb]; exact hgv)
          linarith
      · refine ⟨gk, gv, ?_, ?_, hle⟩
        · rw [dget_dset_ne _ _ _ _ hk]
          exact hgk
        · rw [dget_dset_ne _ _ _ _ hvnb]
          exact hgv
  · intro k gk hgk
    by_cases hk : k = nb
    · rw [hk, dget_dset_self] at hgk
      rw [← Option.some.inj hgk]
      exact htpos
    · rw [dget_dset_ne _ _ _ _ hk] at hgk
      exact hacc.gpos k gk hgk
  · intro k gk hgk
    by_cases hk : k = nb
    · rw [hk, dget_dset_self] at hgk
      rw [hk]
      have hpne : pcur ≠ [] := by
        intro he
        rw [he] at hpcur
        cases hpcur.1
      refine ⟨pcur ++ [nb], validPath_extend hpcur hadj hb hwall, ?_⟩
      rw [pathCost_append g pcur nb hpne]
      push_cast
      rw [hpcost, ← Option.some.inj hgk]
    · rw [dget_dset_ne _ _ _ _ hk] at hgk
      exact hacc.ach k gk hgk
  · intro u hu
    have hune : u ≠ nb := by
      intro he
      exact hnbV (he ▸ hu)
    rw [dget_dset_ne _ _ _ _ hune, dget_dset_ne _ _ _ _ hune]
    exact hacc.vstable u hu
  · intro e he
    rcases heapPush_mem.mp he with he' | he'
    · exact hacc.entsup e he'
    · rw [he']
      exact hprio

/-- Relaxing the neighbour list preserves `FoldInv`, only ever lowers
stored costs, and leaves every processed unoccupied neighbour relaxed
against the expanded node. -/
theorem relaxFold {α : Type} [LinearOrderedField α] {g : Grid} {diag : Bool}
    {s : Coord} {h : Coord → α} {st : AState α} {cur : HEntry α Coord} {gcur : α}
    (hwq : ∀ p : Coord, 1 ≤ (cellAt g p).weight)
    (hcons : ∀ u v : Coord, adjacentStep diag u v → h u ≤ ((cellAt g v).weight : α) + h v)
    (hfcur : cur.prio = gcur + h cur.node)
    (hgcurst : dget st.gmap cur.node = some gcur)
    (hgpos0 : 0 ≤ gcur)
    (pcur : List Coord) (hpcur : ValidPath g diag s cur.node pcur)
    (hpcost : ((pathCost g pcur : ℚ) : α) = gcur)
    (hvmp : ∀ u ∈ st.visited ++ [cur.node], ∀ fu, dget st.fmap u = some fu →
      fu ≤ cur.prio)
    (hvg : ∀ u ∈ st.visited ++ [cur.node], (dget st.gmap u).isSome) :
    ∀ (L : List Coord) (acc : AState α),
      (∀ v ∈ L, v ∈ neighbors cur.node.1 cur.node.2 (gridRows g) (gridCols g) diag) →
      FoldInv g diag s h st cur acc →
      FoldInv g diag s h st cur (L.foldl (relaxStep g h gcur cur.node) acc) ∧
      (∀ k gk, dget acc.gmap k = some gk →
        ∃ gk', dget (L.foldl (relaxStep g h gcur cur.node) acc).gmap k = some gk' ∧
          gk' ≤ gk) ∧
      (∀ v ∈ L, (cellAt g v).wall = false →
        ∃ gv, dget (L.foldl (relaxStep g h gcur cur.node) acc).gmap v = some gv ∧
          gv ≤ gcur + ((cellAt g v).weight : α)) := by
  intro L
  induction L with
  | nil =>
    intro acc hL hacc
    exact ⟨hacc, fun k gk hk => ⟨gk, hk, le_refl _⟩, fun v hv => absurd hv (by simp)⟩
  | cons nb L ih =>
    intro acc hL hacc
    have hLsub : ∀ v ∈ L, v ∈ neighbors cur.node.1 cur.node.2 (gridRows g) (gridCols g) diag :=
      fun v hv => hL v (List.mem_cons_of_mem _ hv)
    have hnbmem := hL nb (List.mem_cons_self _ _)
    have hnadj := neighbors_adj hnbmem
    have hadj : adjacentStep diag cur.node nb := hnadj.1
    have hb : inBounds nb.1 nb.2 (gridRows g) (gridCols g) := hnadj.2
    simp only [List.foldl_cons]
    by_cases hwall : (cellAt g nb).wall = true
    · have hstep : relaxStep g h gcur cur.node acc nb = acc := by
        unfold relaxStep
        rw [if_pos hwall]
      rw [hstep]
      obtain ⟨c1, c2, c3⟩ := ih acc hLsub hacc
      refine ⟨c1, c2, ?_⟩
      intro v hv hvw
      rcases List.mem_cons.mp hv with hveq | hvL
      · rw [hveq] at hvw
        rw [hvw] at hwall
        cases hwall
      · exact c3 v hvL hvw
    · have hwf : (cellAt g nb).wall = false := eq_false_of_ne_true hwall
      have hwnb : (1 : α) ≤ ((cellAt g nb).weight : α) := by
        exact_mod_cast hwq nb
      have htpos : 0 ≤ gcur + ((cellAt g nb).weight : α) := by linarith
      have hprio : cur.prio ≤ gcur + ((cellAt g nb).weight : α) + h nb := by
        rw [hfcur]
        have := hcons cur.node nb hadj
        linarith
      rcases hgnb : dget acc.gmap nb with _ | gnb
      · -- no entry yet: the improving branch fires
        have hnbV : nb ∉ st.visited ++ [cur.node] := by
          intro hmem
          have h1 := (hacc.vstable nb hmem).1
          have h2 := hvg nb hmem
          rw [hgnb] at h1
          rw [← h1] at h2
          cases h2
        have hnbs : nb ≠ s := by
          intro he
          rw [he, hacc.gs] at hgnb
          cases hgnb
        have hub : ∀ gnb', dget acc.gmap nb = some gnb' →
            gcur + ((cellAt g nb).weight : α) ≤ gnb' := by
          intro gnb' hg
          rw [hgnb] at hg
          cases hg
        have hstep : relaxStep g h gcur cur.node acc nb =
            { acc with
              gmap := dset acc.gmap nb (gcur + ((cellAt g nb).weight : α))
              fmap := dset acc.fmap nb (gcur + ((cellAt g nb).weight : α) + h nb)
              came := dset acc.came nb cur.node
              heap := heapPush acc.heap
                ⟨gcur + ((cellAt g nb).weight : α) + h nb, nb⟩ } := by
          unfold relaxStep
          rw [if_neg hwall]
          dsimp only
          rw [hgnb]
        have hni := relaxImprove hacc hfcur hgcurst hadj hb hwf hprio htpos
          pcur hpcur hpcost hnbV hnbs hub
        rw [hstep]
        obtain ⟨c1, c2, c3⟩ := ih _ hLsub hni
        refine ⟨c1, ?_, ?_⟩
        · intro k gk hk
          have hkne : k ≠ nb := by
            intro he
            rw [he, hgnb] at hk
            cases hk
          refine c2 k gk ?_
          dsimp only
          rw [dget_dset_ne _ _ _ _ hkne]
          exact hk
        · intro v hv hvw
          rcases List.mem_cons.mp hv with hveq | hvL
          · obtain ⟨gv', hgv', hle⟩ := c2 nb (gcur + ((cellAt g nb).weight : α))
              (by dsimp only; rw [dget_dset_self])
            rw [hveq]
            exact ⟨gv', hgv', hle⟩
          · exact c3 v hvL hvw
      · by_cases hlt : gcur + ((cellAt g nb).weight : α) < gnb
        · -- strict improvement
          have hnbV : nb ∉ st.visited ++ [cur.node] := by
            intro hmem
            have hfnb := hacc.gf nb gnb hgnb
            have h2 := (hacc.vstable nb hmem).2
            rw [h2] at hfnb
            have h3 := hvmp nb hmem (gnb + h nb) hfnb
            linarith
          have hnbs : nb ≠ s := by
            intro he
            rw [he, hacc.gs] at hgnb
            have : gnb = 0 := (Option.some.inj hgnb).symm
            rw [this] at hlt
            linarith
          have hub : ∀ gnb', dget acc.gmap nb = some gnb' →
              gcur + ((cellAt g nb).weight : α) ≤ gnb' := by
            intro gnb' hg
            rw [hgnb] at hg
            rw [← Option.some.inj hg]
            exact le_of_lt hlt
          have hstep : relaxStep g h gcur cur.node acc nb =
              { acc with
                gmap := dset acc.gmap nb (gcur + ((cellAt g nb).weight : α))
                fmap := dset acc.fmap nb (gcur + ((cellAt g nb).weight : α) + h nb)
                came := dset acc.came nb cur.node
                heap := heapPush acc.heap
                  ⟨gcur + ((cellAt g nb).weight : α) + h nb, nb⟩ } := by
            unfold relaxStep
            rw [if_neg hwall]
            dsimp only
            rw [hgnb]
            dsimp only
            rw [if_pos hlt]
          have hni := relaxImprove hacc hfcur hgcurst hadj hb hwf hprio htpos
            pcur hpcur hpcost hnbV hnbs hub
          rw [hstep]
          obtain ⟨c1, c2, c3⟩ := ih _ hLsub hni
          refine ⟨c1, ?_, ?_⟩
          · intro k gk hk
            by_cases hkne : k = nb
            · obtain ⟨gk', hgk', hle⟩ := c2 nb (gcur + ((cellAt g nb).weight : α))
                (by dsimp only; rw [dget_dset_self])
              refine ⟨gk', by rw [hkne]; exact hgk', ?_⟩
              have : gk = gnb := by
                rw [hkne, hgnb] at hk
                exact (Option.some.inj hk).symm
              rw [this]
              linarith
            · refine c2 k gk ?_
              dsimp only
              rw [dget_dset_ne _ _ _ _ hkne]
              exact hk
          · intro v hv hvw
            rcases List.mem_cons.mp hv with hveq | hvL
            · obtain ⟨gv', hgv', hle⟩ := c2 nb (gcur + ((cellAt g nb).weight : α))
                (by dsimp only; rw [dget_dset_self])
              rw [hveq]
              exact ⟨gv', hgv', hle⟩
            · exact c3 v hvL hvw
        · -- already at least as good: no change
          have hstep : relaxStep g h gcur cur.node acc nb = acc := by
            unfold relaxStep
            rw [if_neg hwall]
            dsimp only
            rw [hgnb]
            dsimp only
            rw [if_neg hlt]
          rw [hstep]
          obtain ⟨c1, c2, c3⟩ := ih acc hLsub hacc
          refine ⟨c1, c2, ?_⟩
          intro v hv hvw
          rcases List.mem_cons.mp hv with hveq | hvL
          · obtain ⟨gv', hgv', hle⟩ := c2 nb gnb hgnb
            rw [hveq]
            exact ⟨gv', hgv', by linarith [not_lt.mp hlt]⟩
          · exact c3 v hvL hvw

theorem oInv_step {α : Type} [LinearOrderedField α] {g : Grid} {diag : Bool} {s t : Coord}
    {h : Coord → α} {st : AState α}
    (hwq : ∀ p : Coord, 1 ≤ (cellAt g p).weight)
    (hcons : ∀ u v : Coord, adjacentStep diag u v → h u ≤ ((cellAt g v).weight : α) + h v)
    (hs : SInv g diag s st) (ho : OInv g diag s t h st) (hdone : st.done = false) :
    OInv g diag s t h (astarStep g t diag h st) := by
  unfold astarStep
  rcases hpop : heapPop st.heap with ⟨tops, rest⟩
  cases tops with
  | none =>
    obtain ⟨hemp, hre⟩ := heapPop_none hpop
    dsimp only
    refine ⟨?_, ho.fg, ho.gs, ho.came_s, ho.came_cost, ho.gpos, ho.ach, ho.vopt, ho.vg,
      ho.vrelax, ?_, ho.vis_goal, ho.done_vis⟩
    · rw [hre]
      intro j hj x y hx hy
      cases hy
    · intro u hu fu hfu e he
      rw [hre] at he
      cases he
  | some cur =>
    obtain ⟨htop, hsplit, hsub⟩ := heapPop_mem hpop
    have hheapOk : IsHeap rest := by
      have := heapPop_isHeap (a := st.heap) ho.heapOk
      rw [hpop] at this
      exact this
    have hminall : ∀ e ∈ st.heap, cur.prio ≤ e.prio := heapPop_min ho.heapOk hpop
    have hminrest : ∀ e ∈ rest, cur.prio ≤ e.prio := fun e he => hminall e (hsub e he)
    dsimp only
    by_cases hstale : dget st.fmap cur.node ≠ some cur.prio
    · rw [if_pos hstale]
      refine ⟨hheapOk, ho.fg, ho.gs, ho.came_s, ho.came_cost, ho.gpos, ho.ach, ho.vopt,
        ho.vg, ho.vrelax, ?_, ho.vis_goal, ho.done_vis⟩
      intro u hu fu hfu e he
      exact ho.vmin u hu fu hfu e (hsub e he)
    · rw [if_neg hstale]
      have hvalid := not_not.mp hstale
      obtain ⟨gcur, hgcur, hfcur⟩ := ho.fg cur.node cur.prio hvalid
      have hVt : t ∉ st.visited := by
        intro ht
        rw [ho.vis_goal ht] at hdone
        cases hdone
      have hcuropt : ∀ p, ValidPath g diag s cur.node p →
          gcur ≤ ((pathCost g p : ℚ) : α) := by
        intro p hp
        by_cases hcv : cur.node ∈ st.visited
        · exact ho.vopt cur.node hcv gcur hgcur p hp
        · have := astar_cut hcons hs ho hVt hminall p.length p le_rfl cur.node hp hcv
          rw [hfcur] at this
          linarith
      have hvmp : ∀ u ∈ st.visited ++ [cur.node], ∀ fu, dget st.fmap u = some fu →
          fu ≤ cur.prio := by
        intro u hu fu hfu
        rcases List.mem_append.mp hu with hu | hu
        · exact ho.vmin u hu fu hfu cur htop
        · rw [List.mem_singleton] at hu
          rw [hu] at hfu
          exact le_of_eq (Option.some.inj (hfu.symm.trans hvalid))
      have hvg' : ∀ u ∈ st.visited ++ [cur.node], (dget st.gmap u).isSome := by
        intro u hu
        rcases List.mem_append.mp hu with hu | hu
        · exact ho.vg u hu
        · rw [List.mem_singleton] at hu
          rw [hu, hgcur]
          rfl
      by_cases hgoal : cur.node = t
      · rw [if_pos hgoal]
        refine ⟨hheapOk, ho.fg, ho.gs, ho.came_s, ho.came_cost, ho.gpos, ho.ach,
          ?_, hvg', ?_, ?_, fun _ => rfl, ?_⟩
        · intro u hu gu hgu p hp
          rcases List.mem_append.mp hu with hu | hu
          · exact ho.vopt u hu gu hgu p hp
          · rw [List.mem_singleton] at hu
            rw [hu] at hgu hp
            rw [Option.some.inj (hgu.symm.trans hgcur)]
            exact hcuropt p hp
        · intro u hu hut v hv hvw gu hgu
          rcases List.mem_append.mp hu with hu | hu
          · exact ho.vrelax u hu hut v hv hvw gu hgu
          · rw [List.mem_singleton] at hu
            exact absurd (hu.trans hgoal) hut
        · intro u hu fu hfu e he
          exact le_trans (hvmp u hu fu hfu) (hminrest e he)
        · intro _
          exact List.mem_append.mpr (Or.inr (List.mem_singleton.mpr hgoal.symm))
      · rw [if_neg hgoal]
        rw [hgcur]
        simp only [Option.getD_some]
        show OInv g diag s t h
          ((neighbors cur.node.1 cur.node.2 (gridRows g) (gridCols g) diag).foldl
            (relaxStep g h gcur cur.node)
            { st with heap := rest, visited := st.visited ++ [cur.node] })
        obtain ⟨pc, hpc, hpcc⟩ := ho.ach cur.node gcur hgcur
        have hgf0 : ∀ k gk, dget st.gmap k = some gk →
            dget st.fmap k = some (gk + h k) := by
          intro k gk hgk
          have hfk : (dget st.fmap k).isSome := (hs.fkey_gkey k).mpr (by rw [hgk]; rfl)
          obtain ⟨fk, hfk'⟩ := Option.isSome_iff_exists.mp hfk
          obtain ⟨gk', hgk', he⟩ := ho.fg k fk hfk'
          rw [hfk', he, Option.some.inj (hgk'.symm.trans hgk)]
        have hacc0 : FoldInv g diag s h st cur
            { st with heap := rest, visited := st.visited ++ [cur.node] } :=
          ⟨rfl, rfl, hheapOk, ho.fg, hgf0, ho.gs, ho.came_s, ho.came_cost, ho.gpos,
            ho.ach, fun u _ => ⟨rfl, rfl⟩, hminrest⟩
        obtain ⟨cf, cm, cr⟩ := relaxFold hwq hcons hfcur hgcur (ho.gpos _ _ hgcur)
          pc hpc hpcc hvmp hvg'
          (neighbors cur.node.1 cur.node.2 (gridRows g) (gridCols g) diag) _
          (fun v hv => hv) hacc0
        refine ⟨cf.heapOk, cf.fg, cf.gs, cf.came_s, cf.came_cost, cf.gpos, cf.ach,
          ?_, ?_, ?_, ?_, ?_, ?_⟩
        · intro u hu gu hgu p hp
          rw [cf.vis] at hu
          rw [(cf.vstable u hu).1] at hgu
          rcases List.mem_append.mp hu with hu' | hu'
          · exact ho.vopt u hu' gu hgu p hp
          · rw [List.mem_singleton] at hu'
            rw [hu'] at hgu hp
            rw [Option.some.inj (hgu.symm.trans hgcur)]
            exact hcuropt p hp
        · intro u hu
          rw [cf.vis] at hu
          rw [(cf.vstable u hu).1]
          exact hvg' u hu
        · intro u hu hut v hv hvw gu hgu
          rw [cf.vis] at hu
          rw [(cf.vstable u hu).1] at hgu
          rcases List.mem_append.mp hu with hu' | hu'
          · obtain ⟨gv, hgv, hle⟩ := ho.vrelax u hu' hut v hv hvw gu hgu
            obtain ⟨gv', hgv', hle'⟩ := cm v gv hgv
            exact ⟨gv', hgv', le_trans hle' hle⟩
          · rw [List.mem_singleton] at hu'
            rw [hu'] at hgu hv
            obtain ⟨gv, hgv, hle⟩ := cr v hv hvw
            refine ⟨gv, hgv, ?_⟩
            rw [Option.some.inj (hgu.symm.trans hgcur)]
            exact hle
        · intro u hu fu hfu e he
          rw [cf.vis] at hu
          rw [(cf.vstable u hu).2] at hfu
          exact le_trans (hvmp u hu fu hfu) (cf.entsup e he)
        · intro ht
          rw [cf.vis] at ht
          rcases List.mem_append.mp ht with ht' | ht'
          · exact absurd ht' hVt
          · rw [List.mem_singleton] at ht'
            exact absurd ht'.symm hgoal
        · intro hd
          rw [cf.dn] at hd
          rw [hdone] at hd
          cases hd

theorem reconWalk_exhaust (came : List (Coord × Coord)) :
    ∀ fuel cur, ((reconWalk came fuel cur []).length = fuel ∧
        ∀ x ∈ reconWalk came fuel cur [], (dget came x).isSome) ∨
      (∃ o, (reconWalk came fuel cur []).getLast? = some o ∧ dget came o = none) := by
  intro fuel
  induction fuel with
  | zero =>
    intro cur
    left
    exact ⟨rfl, by intro x hx; cases hx⟩
  | succ fuel ih =>
    intro cur
    unfold reconWalk
    rcases hc : dget came cur with _ | prev
    · right
      exact ⟨cur, rfl, hc⟩
    · dsimp only
      rw [reconWalk_acc]
      simp only [List.nil_append, List.singleton_append]
      rcases ih prev with ⟨hlen, hall⟩ | ⟨o, hlast, hnone⟩
      · left
        constructor
        · simp [hlen]
        · intro x hx
          rcases List.mem_cons.mp hx with hx | hx
          · rw [hx, hc]
            rfl
          · exact hall x hx
      · right
        refine ⟨o, ?_, hnone⟩
        rcases hW : reconWalk came fuel prev [] with _ | ⟨w0, ws⟩
        · rw [hW] at hlast
          cases hlast
        · rw [hW] at hlast
          rw [List.getLast?_cons_cons]
          exact hlast

theorem chain'_mem_dropLast {β : Type} {R : β → β → Prop} :
    ∀ {l : List β}, List.Chain' R l → ∀ x ∈ l.dropLast, ∃ y, R x y := by
  intro l
  induction l with
  | nil =>
    intro _ x hx
    cases hx
  | cons a l ih =>
    intro hch x hx
    cases l with
    | nil => cases hx
    | cons b l' =>
      obtain ⟨hab, hch'⟩ := List.chain'_cons.mp hch
      rw [List.dropLast_cons₂, List.mem_cons] at hx
      rcases hx with hx | hx
      · exact ⟨b, hx ▸ hab⟩
      · exact ih hch' x hx

theorem tail_reverse_eq {β : Type} (l : List β) : l.reverse.tail = l.dropLast.reverse := by
  induction l using List.reverseRecOn with
  | nil => rfl
  | append_singleton q a ih =>
    rw [List.reverse_append]
    simp [List.dropLast_concat]

/-- With positive weights the `cameFrom` walk always reaches an origin
within `came.length + 1` steps: stored costs strictly decrease along
`came` edges, so the walk never repeats a key, and there are only
`came.length` keys. -/
theorem walk_last_none {α : Type} [LinearOrderedField α] {g : Grid} {diag : Bool}
    {s t : Coord} {h : Coord → α} {st : AState α}
    (hwq : ∀ p : Coord, 1 ≤ (cellAt g p).weight)
    (ho : OInv g diag s t h st) (cur : Coord) :
    ∃ o, (reconWalk st.came (st.came.length + 1) cur []).getLast? = some o ∧
      dget st.came o = none := by
  rcases reconWalk_exhaust st.came (st.came.length + 1) cur with ⟨hlen, hall⟩ | hdone
  · exfalso
    set L := reconWalk st.came (st.came.length + 1) cur [] with hL
    have hchain := reconWalk_chain st.came (st.came.length + 1) cur
    have hrel : List.Chain' (fun x y => ∃ gx gy, dget st.gmap x = some gx ∧
        dget st.gmap y = some gy ∧ gy < gx) L := by
      refine List.Chain'.imp ?_ hchain
      intro x y hxy
      obtain ⟨gx, gy, hgx, hgy, hle⟩ := ho.came_cost x y hxy
      refine ⟨gx, gy, hgx, hgy, ?_⟩
      have hw1 : (1 : α) ≤ ((cellAt g x).weight : α) := by
        rw [show (1 : α) = ((1 : ℚ) : α) from by push_cast; ring]
        exact Rat.cast_le.mpr (hwq x)
      linarith
    have htrans : ∀ x y z : Coord,
        (∃ gx gy, dget st.gmap x = some gx ∧ dget st.gmap y = some gy ∧ gy < gx) →
        (∃ gx gy, dget st.gmap y = some gx ∧ dget st.gmap z = some gy ∧ gy < gx) →
        (∃ gx gy, dget st.gmap x = some gx ∧ dget st.gmap z = some gy ∧ gy < gx) := by
      intro x y z ⟨gx, gy, hgx, hgy, h1⟩ ⟨gy', gz, hgy', hgz, h2⟩
      refine ⟨gx, gz, hgx, hgz, ?_⟩
      have := Option.some.inj (hgy.symm.trans hgy')
      rw [← this] at h2
      linarith
    have hpair := (@List.chain'_iff_pairwise _ _ ⟨htrans⟩ L).mp hrel
    have hnodup : L.Nodup := by
      refine List.Pairwise.imp ?_ hpair
      intro x y ⟨gx, gy, hgx, hgy, hlt⟩ hxy
      rw [hxy] at hgx
      rw [Option.some.inj (hgx.symm.trans hgy)] at hlt
      exact lt_irrefl _ hlt
    have hsub : L ⊆ st.came.map Prod.fst := by
      intro x hx
      obtain ⟨v, hv⟩ := Option.isSome_iff_exists.mp (hall x hx)
      exact dget_mem_keys hv
    have := List.Subperm.length_le (List.Nodup.subperm hnodup hsub)
    rw [hlen, List.length_map] at this
    omega
  · exact hdone

/-- Telescoping the walk: the cost of the reversed walk is bounded by the
stored cost of its starting key. -/
theorem reconWalk_cost {α : Type} [LinearOrderedField α] {g : Grid} {diag : Bool}
    {s t : Coord} {h : Coord → α} {st : AState α}
    (ho : OInv g diag s t h st) :
    ∀ fuel cur gcur, dget st.gmap cur = some gcur →
      ∀ o, (reconWalk st.came fuel cur []).getLast? = some o → dget st.came o = none →
        ((pathCost g (reconWalk st.came fuel cur []).reverse : ℚ) : α) ≤ gcur := by
  intro fuel
  induction fuel with
  | zero =>
    intro cur gcur hgcur o hlast hnone
    cases hlast
  | succ fuel ih =>
    intro cur gcur hgcur o hlast hnone
    unfold reconWalk at hlast ⊢
    rcases hc : dget st.came cur with _ | prev
    · rw [hc] at hlast
      simp only [List.nil_append] at hlast ⊢
      have : pathCost g [cur].reverse = 0 := rfl
      rw [this]
      rw [show (((0 : ℚ) : α)) = 0 from by push_cast; ring]
      exact ho.gpos cur gcur hgcur
    · rw [hc] at hlast
      dsimp only at hlast ⊢
      rw [reconWalk_acc] at hlast ⊢
      simp only [List.nil_append, List.singleton_append] at hlast ⊢
      obtain ⟨gk, gv, hgk, hgv, hle⟩ := ho.came_cost cur prev hc
      rw [Option.some.inj (hgk.symm.trans hgcur)] at hle
      rcases hW : reconWalk st.came fuel prev [] with _ | ⟨w0, ws⟩
      · rw [hW] at hlast
        have : o = cur := Option.some.inj hlast.symm
        rw [this, hc] at hnone
        cases hnone
      · rw [hW] at hlast
        rw [List.getLast?_cons_cons] at hlast
        have hrec := ih prev gv hgv o (by rw [hW]; exact hlast) hnone
        rw [hW] at hrec
        have hsplit : (cur :: w0 :: ws).reverse = (w0 :: ws).reverse ++ [cur] := by
          simp
        rw [hsplit, pathCost_append g _ cur (by simp)]
        push_cast
        linarith

/-- When the goal has a `cameFrom` entry the reconstructed path is a valid
path from the start whose cost is bounded by the goal's stored cost. -/
theorem reconstruct_valid {α : Type} [LinearOrderedField α] {g : Grid} {diag : Bool}
    {s t : Coord} {h : Coord → α} {st : AState α}
    (hwq : ∀ p : Coord, 1 ≤ (cellAt g p).weight)
    (hs : SInv g diag s st) (ho : OInv g diag s t h st)
    (hct : (dget st.came t).isSome) :
    ∃ gt', dget st.gmap t = some gt' ∧ ValidPath g diag s t (reconstruct st.came t) ∧
      ((pathCost g (reconstruct st.came t) : ℚ) : α) ≤ gt' := by
  obtain ⟨v, hv⟩ := Option.isSome_iff_exists.mp hct
  obtain ⟨gt', hgt'⟩ := Option.isSome_iff_exists.mp (hs.came_gkey t v hv)
  refine ⟨gt', hgt', ?_⟩
  obtain ⟨o, hlast, honone⟩ := walk_last_none hwq ho t
  have horigin : ∀ k w, dget st.came k = some w → (dget st.came w).isSome ∨ w = s := by
    intro k w hw
    have hg := hs.came_val_gkey k w hw
    rcases hs.gkey_origin w hg with h1 | h1
    · exact Or.inr h1
    · exact Or.inl h1
  have hos : o = s := by
    have homem := mem_of_getLast?_some hlast
    rcases reconWalk_mem_origin st.came s horigin (st.came.length + 1) t
        (Or.inl hct) o homem with hk | hk
    · rw [honone] at hk
      cases hk
    · exact hk
  have hrec : reconstruct st.came t =
      (reconWalk st.came (st.came.length + 1) t []).reverse := by
    unfold reconstruct
    rw [hv]
  constructor
  · refine ⟨?_, ?_, ?_, ?_⟩
    · rw [hrec, List.head?_reverse, hlast, hos]
    · rw [hrec, List.getLast?_reverse, reconWalk_head]
    · exact reconstruct_adj hs t
    · intro c hc
      rw [hrec, tail_reverse_eq, List.mem_reverse] at hc
      obtain ⟨y, hy⟩ := chain'_mem_dropLast
        (reconWalk_chain st.came (st.came.length + 1) t) c hc
      have hadj := neighbors_adj (hs.came_nb c y hy)
      exact ⟨hadj.2, hs.came_nowall c y hy⟩
  · rw [hrec]
    exact reconWalk_cost ho (st.came.length + 1) t gt' hgt' o hlast honone

theorem oInv_loop {α : Type} [LinearOrderedField α] {g : Grid} {diag : Bool}
    {s t : Coord} {h : Coord → α}
    (hwq : ∀ p : Coord, 1 ≤ (cellAt g p).weight)
    (hcons : ∀ u v : Coord, adjacentStep diag u v → h u ≤ ((cellAt g v).weight : α) + h v)
    (fuel : ℕ) {st : AState α} (hs : SInv g diag s st) (ho : OInv g diag s t h st) :
    SInv g diag s (astarLoop g t diag h fuel st) ∧
      OInv g diag s t h (astarLoop g t diag h fuel st) := by
  induction fuel generalizing st with
  | zero => exact ⟨hs, ho⟩
  | succ fuel ih =>
    unfold astarLoop
    by_cases hd : st.done
    · rw [if_pos hd]
      exact ⟨hs, ho⟩
    · rw [if_neg hd]
      by_cases he : st.heap = []
      · rw [if_pos he]
        exact ⟨hs, ho⟩
      · rw [if_neg he]
        exact ih (sInv_step hs) (oInv_step hwq hcons hs ho (eq_false_of_ne_true hd))

/-- At queue exhaustion before the goal, every cell with a valid path from
the start has been assigned a `g` value. -/
theorem path_closure {α : Type} [LinearOrderedField α] {g : Grid} {diag : Bool}
    {s t : Coord} {h : Coord → α} {st : AState α}
    (hs : SInv g diag s st) (ho : OInv g diag s t h st)
    (hheap : st.heap = []) (hdone : st.done = false) :
    ∀ n p x, p.length ≤ n → ValidPath g diag s x p → (dget st.gmap x).isSome := by
  intro n
  induction n with
  | zero =>
    intro p x hlen hp
    have hpnil : p = [] := List.length_eq_zero.mp (Nat.le_zero.mp hlen)
    rw [hpnil] at hp
    obtain ⟨h1, -⟩ := hp
    cases h1
  | succ n ih =>
    intro p x hlen hp
    rcases validPath_rev_cases hp with ⟨hps, hxs⟩ | ⟨q, u, hq, hvq, hadj, hb, hw, hcost⟩
    · rw [hxs, ho.gs]
      rfl
    · have hqlen : q.length ≤ n := by
        rw [hq] at hlen
        rw [List.length_append, List.length_singleton] at hlen
        omega
      have hu := ih q u hqlen hvq
      obtain ⟨fu, hfu'⟩ := Option.isSome_iff_exists.mp ((hs.fkey_gkey u).mpr hu)
      have huv : u ∈ st.visited := by
        rcases hs.fentry u fu hfu' with h1 | h1
        · exact h1
        · rw [hheap] at h1
          cases h1
      have hut : u ≠ t := by
        intro he
        rw [he] at huv
        rw [ho.vis_goal huv] at hdone
        cases hdone
      obtain ⟨gu, hgu⟩ := Option.isSome_iff_exists.mp hu
      obtain ⟨gx, hgx, -⟩ := ho.vrelax u huv hut x (mem_neighbors hadj hb) hw gu hgu
      rw [hgx]
      rfl

/-- In a terminal state (goal popped or queue empty) the goal has a
`cameFrom` entry exactly when it differs from the start and some valid
path reaches it; in that case the goal has been visited. -/
theorem terminal_came {α : Type} [LinearOrderedField α] {g : Grid} {diag : Bool}
    {s t : Coord} {h : Coord → α} {st : AState α}
    (hs : SInv g diag s st) (ho : OInv g diag s t h st)
    (hterm : st.done = true ∨ st.heap = []) :
    ((dget st.came t).isSome ↔ t ≠ s ∧ ∃ p, ValidPath g diag s t p) ∧
      ((dget st.came t).isSome → t ∈ st.visited) := by
  have hvis : (dget st.gmap t).isSome → t ∈ st.visited := by
    intro hg
    rcases hterm with hd | he
    · exact ho.done_vis hd
    · obtain ⟨ft, hft⟩ := Option.isSome_iff_exists.mp ((hs.fkey_gkey t).mpr hg)
      rcases hs.fentry t ft hft with h1 | h1
      · exact h1
      · rw [he] at h1
        cases h1
  constructor
  · constructor
    · intro hct
      obtain ⟨v, hv⟩ := Option.isSome_iff_exists.mp hct
      constructor
      · intro he
        rw [he, ho.came_s] at hv
        cases hv
      · obtain ⟨gt', hgt'⟩ := Option.isSome_iff_exists.mp (hs.came_gkey t v hv)
        obtain ⟨p, hp, -⟩ := ho.ach t gt' hgt'
        exact ⟨p, hp⟩
    · intro ⟨hts, p, hp⟩
      have hg : (dget st.gmap t).isSome := by
        rcases hterm with hd | he
        · exact ho.vg t (ho.done_vis hd)
        · by_cases hdn : st.done = true
          · exact ho.vg t (ho.done_vis hdn)
          · exact path_closure hs ho he (eq_false_of_ne_true hdn) p.length p t le_rfl hp
      rcases hs.gkey_origin t hg with h1 | h1
      · exact absurd h1 hts
      · exact h1
  · intro hct
    obtain ⟨v, hv⟩ := Option.isSome_iff_exists.mp hct
    exact hvis (hs.came_gkey t v hv)

/-- In a terminal state with a `cameFrom` entry for the goal the returned
path is valid and of minimal cost among valid paths. -/
theorem terminal_opt {α : Type} [LinearOrderedField α] {g : Grid} {diag : Bool}
    {s t : Coord} {h : Coord → α} {st : AState α}
    (hwq : ∀ p : Coord, 1 ≤ (cellAt g p).weight)
    (hs : SInv g diag s st) (ho : OInv g diag s t h st)
    (hterm : st.done = true ∨ st.heap = [])
    (hct : (dget st.came t).isSome) :
    ValidPath g diag s t (reconstruct st.came t) ∧
      ∀ p, ValidPath g diag s t p →
        pathCost g (reconstruct st.came t) ≤ pathCost g p := by
  obtain ⟨gt', hgt', hvalid, hcost⟩ := reconstruct_valid hwq hs ho hct
  refine ⟨hvalid, ?_⟩
  intro p hp
  have hvt : t ∈ st.visited := (terminal_came hs ho hterm).2 hct
  have hopt := ho.vopt t hvt gt' hgt' p hp
  have h2 : ((pathCost g (reconstruct st.came t) : ℚ) : α) ≤ ((pathCost g p : ℚ) : α) :=
    le_trans hcost hopt
  exact_mod_cast h2

/-- The zero heuristic is consistent. -/
theorem cons_zero {g : Grid} (hwq : ∀ p : Coord, 1 ≤ (cellAt g p).weight)
    (diag : Bool) : ∀ u v : Coord, adjacentStep diag u v →
      (fun _ : Coord => (0 : ℚ)) u ≤ ((cellAt g v).weight : ℚ) + (fun _ : Coord => (0 : ℚ)) v := by
  intro u v _
  have := hwq v
  dsimp only
  linarith

/-- The 4-connectivity Manhattan heuristic is consistent when every
weight is at least 1. -/
theorem cons_manhattan {g : Grid} (hwq : ∀ p : Coord, 1 ≤ (cellAt g p).weight)
    (t : Coord) : ∀ u v : Coord, adjacentStep false u v →
      astarHeur false t u ≤ ((cellAt g v).weight : ℝ) + astarHeur false t v := by
  intro u v hadj
  unfold astarHeur
  rw [if_neg (Bool.false_ne_true)]
  rw [if_neg (Bool.false_ne_true)]
  have hm := manhattan_step (t := t) hadj
  have hm' : ((manhattan u t : ℚ) : ℝ) ≤ ((manhattan v t : ℚ) : ℝ) + 1 := by
    rw [show ((1 : ℝ)) = ((1 : ℚ) : ℝ) from by push_cast; ring]
    rw [← Rat.cast_add]
    exact Rat.cast_le.mpr hm
  have hw : (1 : ℝ) ≤ ((cellAt g v).weight : ℝ) := by
    rw [show ((1 : ℝ)) = ((1 : ℚ) : ℝ) from by push_cast; ring]
    exact Rat.cast_le.mpr (hwq v)
  linarith

/-- C2.  For every grid with no occupied cells (and the app's weights,
which are always at least 1), under 4-connectivity and with enough fuel
for both loops to terminate, the paths returned by Dijkstra and A* have
equal total cost. -/
theorem claim_C2 (fuel₁ fuel₂ : ℕ) (g : Grid) (s t : Coord)
    (hwq : ∀ p : Coord, 1 ≤ (cellAt g p).weight)
    (hnw : ∀ p : Coord, (cellAt g p).wall = false)
    (hD : (dijkstraLoop g t false fuel₁ (dijkstraInit s)).done = true ∨
      (dijkstraLoop g t false fuel₁ (dijkstraInit s)).heap = [])
    (hA : (astarLoop g t false (astarHeur false t) fuel₂
        (astarInit (astarHeur false t) s)).done = true ∨
      (astarLoop g t false (astarHeur false t) fuel₂
        (astarInit (astarHeur false t) s)).heap = []) :
    pathCost g (runDijkstra fuel₁ g s t false).path =
      pathCost g (runAStar fuel₂ g s t false).path := by
  have hDA : DARel (dijkstraLoop g t false fuel₁ (dijkstraInit s))
      (astarLoop g t false (fun _ => 0) fuel₁ (astarInit (fun _ => 0) s)) :=
    dijkstra_loop_rel fuel₁ ⟨rfl, rfl, rfl, rfl, rfl, rfl⟩
  obtain ⟨hh, hg, hf, hc, hv, hdn⟩ := hDA
  obtain ⟨hsD, hoD⟩ := oInv_loop hwq (cons_zero hwq false) fuel₁
    (sInv_init g false s (fun _ => 0)) (oInv_init g false s t (fun _ => 0))
  obtain ⟨hsA, hoA⟩ := oInv_loop hwq (cons_manhattan hwq t) fuel₂
    (sInv_init g false s (astarHeur false t)) (oInv_init g false s t (astarHeur false t))
  have hD' : (astarLoop g t false (fun _ => (0 : ℚ)) fuel₁
      (astarInit (fun _ => 0) s)).done = true ∨
      (astarLoop g t false (fun _ => (0 : ℚ)) fuel₁ (astarInit (fun _ => 0) s)).heap = [] := by
    rcases hD with h1 | h1
    · left
      rw [hdn]
      exact h1
    · right
      rw [hh]
      exact h1
  have hpD : (runDijkstra fuel₁ g s t false).path =
      reconstruct (astarLoop g t false (fun _ => (0 : ℚ)) fuel₁
        (astarInit (fun _ => 0) s)).came t := by
    rw [hc]
    rfl
  have hpA : (runAStar fuel₂ g s t false).path =
      reconstruct (astarLoop g t false (astarHeur false t) fuel₂
        (astarInit (astarHeur false t) s)).came t := rfl
  rw [hpD, hpA]
  by_cases hctD : (dget (astarLoop g t false (fun _ => (0 : ℚ)) fuel₁
      (astarInit (fun _ => 0) s)).came t).isSome
  · have hex := (terminal_came hsD hoD hD').1.mp hctD
    have hctA := ((terminal_came hsA hoA hA).1).mpr hex
    obtain ⟨hvD, hoptD⟩ := terminal_opt hwq hsD hoD hD' hctD
    obtain ⟨hvA, hoptA⟩ := terminal_opt hwq hsA hoA hA hctA
    exact le_antisymm (hoptD _ hvA) (hoptA _ hvD)
  · have hctA : ¬ (dget (astarLoop g t false (astarHeur false t) fuel₂
        (astarInit (astarHeur false t) s)).came t).isSome := by
      intro hct
      exact hctD (((terminal_came hsD hoD hD').1).mpr
        (((terminal_came hsA hoA hA).1).mp hct))
    have h1 : reconstruct (astarLoop g t false (fun _ => (0 : ℚ)) fuel₁
        (astarInit (fun _ => 0) s)).came t = [] := by
      unfold reconstruct
      rcases hct : dget (astarLoop g t false (fun _ => (0 : ℚ)) fuel₁
          (astarInit (fun _ => 0) s)).came t with _ | v
      · rfl
      · exact absurd (by rw [hct]; rfl) hctD
    have h2 : reconstruct (astarLoop g t false (astarHeur false t) fuel₂
        (astarInit (astarHeur false t) s)).came t = [] := by
      unfold reconstruct
      rcases hct : dget (astarLoop g t false (astarHeur false t) fuel₂
          (astarInit (astarHeur false t) s)).came t with _ | v
      · rfl
      · exact absurd (by rw [hct]; rfl) hctA
    rw [h1, h2]

/-- A property holding of the default cell and of every listed cell holds
of `cellAt` everywhere. -/
theorem cellProp_of_cells {g : Grid} (P : Cell → Prop) (hdef : P ⟨false, 1⟩)
    (h : ∀ row ∈ g, ∀ cl ∈ row, P cl) : ∀ p : Coord, P (cellAt g p) := by
  intro p
  have hrow : ∀ row : List Cell, row ∈ g ∨ row = [] →
      P (row.getD p.2.toNat ⟨false, 1⟩) := by
    intro row hmem
    rw [List.getD_eq_getElem?_getD]
    rcases hc : row[p.2.toNat]? with _ | cl
    · exact hdef
    · simp only [Option.getD_some]
      rcases hmem with hm | hnil
      · exact h row hm cl (mem_of_getElem?_some hc)
      · rw [hnil] at hc
        cases hc
  have hg : g.getD p.1.toNat [] ∈ g ∨ g.getD p.1.toNat [] = [] := by
    rw [List.getD_eq_getElem?_getD]
    rcases hr : g[p.1.toNat]? with _ | row
    · exact Or.inr rfl
    · simp only [Option.getD_some]
      exact Or.inl (mem_of_getElem?_some hr)
  exact hrow _ hg

theorem claim_C2_witness :
    pathCost [[fcell]] (runDijkstra 1 [[fcell]] (0, 0) (0, 0) false).path =
      pathCost [[fcell]] (runAStar 1 [[fcell]] (0, 0) (0, 0) false).path := by
  refine claim_C2 1 1 [[fcell]] (0, 0) (0, 0) ?_ ?_ ?_ ?_
  · exact cellProp_of_cells (fun cl => 1 ≤ cl.weight) (by norm_num)
      (by with_unfolding_all decide)
  · exact cellProp_of_cells (fun cl => cl.wall = false) rfl
      (by with_unfolding_all decide)
  · exact Or.inl (by with_unfolding_all decide)
  · refine Or.inl ?_
    have h1 : astarLoop [[fcell]] (0, 0) false (astarHeur false (0, 0)) 1
        (astarInit (astarHeur false (0, 0)) (0, 0)) =
        astarStep [[fcell]] (0, 0) false (astarHeur false (0, 0))
          (astarInit (astarHeur false (0, 0)) (0, 0)) := by
      unfold astarLoop
      rw [if_neg (by simp [astarInit] :
          ¬ (astarInit (α := ℝ) (astarHeur false (0, 0)) (0, 0)).done = true),
        if_neg (by simp [astarInit] :
          ¬ (astarInit (α := ℝ) (astarHeur false (0, 0)) (0, 0)).heap = [])]
      rfl
    rw [h1, (astarStep_init [[fcell]] (0, 0) false (astarHeur false (0, 0)) (0, 0)).2.2 rfl]

end PathPlan
